import Mathlib

/-!
Shallow embedding of `src/version_bumper/version.py` (the `Version` value
object of royw/version_bumper): parsing, normalization, rendering, ordering
and the mutation operations `bump`, `bump_release`, `set`.

Python strings are modeled as `List Char` (ASCII fragment: `str.lower` is
modeled on the ASCII letters, and the regex class `\s` as the six ASCII
whitespace characters, which is what every version string the grammar can
accept contains).  Python `int` is modeled as `Int`; the optional
`minor`/`patch` release components as `Option Int`.  Fallible operations
(`Version.__init__`, `bump`, `set`) return `Except (List Char) _` carrying
the Python exception message.

The PyPA regular expression used by `Version.__init__` is modeled as an
explicit backtracking matcher: each group produces its list of candidate
(captured text, remaining input) splits in the engine's backtracking
priority order, and the match succeeds on the first combination whose
continuation succeeds.  Components for which greedy matching is forced
(leading `\s*`, `v?`, the epoch, the release run of `[0-9]+(\.[0-9]+)*`,
and the trailing `+local \s*$`) are written deterministically: any shorter
match leaves a character (a digit, a `v`, whitespace, or a `+`) that no
later regex component nor the anchors can consume, so the greedy split is
the only one a backtracking engine can ever return.
-/

namespace VB

/-! ### Character classes and Python string primitives -/

/-- The six ASCII whitespace characters matched by the regex class `\s`
(and stripped by Python `int()`). -/
def isWS (c : Char) : Bool :=
  c = ' ' || c = '\t' || c = '\n' || c = '\r' || c = '\x0c' || c = '\x0b'

/-- The five characters of the literal `strip("\t\n\r\f\v")` in
`Version.__init__` — note: no space character. -/
def isStrip5 (c : Char) : Bool :=
  c = '\t' || c = '\n' || c = '\r' || c = '\x0c' || c = '\x0b'

/-- The separator class `[-_\.]` of the regex. -/
def isSep (c : Char) : Bool :=
  c = '-' || c = '_' || c = '.'

def isDigit (c : Char) : Bool :=
  48 ≤ c.toNat && c.toNat ≤ 57

/-- The regex class `[a-z0-9]` of the `local` group (the input has already
been lowercased when the regex runs). -/
def isAlnum (c : Char) : Bool :=
  isDigit c || (97 ≤ c.toNat && c.toNat ≤ 122)

/-- Python `str.lower` on the ASCII letters. -/
def pyLower (cs : List Char) : List Char :=
  cs.map fun c => if 65 ≤ c.toNat && c.toNat ≤ 90 then Char.ofNat (c.toNat + 32) else c

/-- Strip characters satisfying `p` from the right end. -/
def rstripP (p : Char → Bool) (cs : List Char) : List Char :=
  (cs.reverse.dropWhile p).reverse

/-- Python `str.strip("\t\n\r\f\v")`: both ends, space NOT included. -/
def pyStrip5 (cs : List Char) : List Char :=
  rstripP isStrip5 (cs.dropWhile isStrip5)

/-- Python `str.lstrip("v")`: removes every leading `v`. -/
def lstripV (cs : List Char) : List Char :=
  cs.dropWhile fun c => c = 'v'

/-- Python lexicographic string comparison `s < t` (by code point). -/
def pyStrLt : List Char → List Char → Bool
  | [], [] => false
  | [], _ :: _ => true
  | _ :: _, [] => false
  | a :: as, b :: bs => if a.toNat < b.toNat then true else if a = b then pyStrLt as bs else false

/-! ### Decimal digits -/

def digitVal (c : Char) : Nat := c.toNat - 48

def digitChar (d : Nat) : Char := Char.ofNat (48 + d)

/-- Value of a run of decimal digit characters (Python `int` on a digit
string; leading zeros allowed). -/
def digitsToNat (cs : List Char) : Nat :=
  cs.foldl (fun a c => 10 * a + digitVal c) 0

/-- Decimal rendering of a natural number, by structural fuel (Python
`str(n)` for `n ≥ 0`). -/
def natToCharsAux : Nat → Nat → List Char
  | 0, _ => []
  | f + 1, n => if n < 10 then [digitChar n] else natToCharsAux f (n / 10) ++ [digitChar (n % 10)]

def natToChars (n : Nat) : List Char := natToCharsAux (n + 1) n

/-- Python `str(i)` for an `Int`. -/
def intRepr (i : Int) : List Char :=
  if i < 0 then '-' :: natToChars i.natAbs else natToChars i.toNat

/-- Digit sequence with Python's underscore rule after the first digit:
digits, where each `_` must be followed by a digit. -/
def usTail : List Char → Bool
  | [] => true
  | '_' :: c :: r => isDigit c && usTail r
  | c :: r => isDigit c && usTail r

/-- Python `int(str)`: optional surrounding whitespace, optional sign, a
nonempty digit sequence with optional single underscores between digits.
`none` models the `ValueError` raised on any other input. -/
def pyInt (cs : List Char) : Option Int :=
  let t := rstripP isWS (cs.dropWhile isWS)
  let signDigits : Int × List Char :=
    match t with
    | '+' :: r => (1, r)
    | '-' :: r => (-1, r)
    | r => (1, r)
  match signDigits with
  | (sign, ds) =>
    match ds with
    | [] => none
    | c :: r =>
      if isDigit c && usTail r then
        some (sign * (digitsToNat (ds.filter fun x => x ≠ '_') : Int))
      else none

/-! ### Python `str.replace` -/

/-- `replaceAux old new fuel cs` — one step of Python `str.replace(old,
new)`: scan left to right, replace each non-overlapping occurrence, do not
rescan the replacement.  The fuel is an upper bound on the number of
consumed characters; every call site passes `cs.length`, and all call
sites have `old ≠ []` (Python's behavior for `old = ""` is not needed by
the source and is not modeled). -/
def replaceAux (old new : List Char) : Nat → List Char → List Char
  | _, [] => []
  | 0, cs => cs
  | f + 1, c :: cs =>
    if old.isPrefixOf (c :: cs) && !old.isEmpty then
      new ++ replaceAux old new f ((c :: cs).drop old.length)
    else
      c :: replaceAux old new f cs

def pyReplace (cs old new : List Char) : List Char :=
  replaceAux old new cs.length cs

/-! ### The `Version` record

The source also stores the raw `version_str` and the matched `release`
substring on the instance; both are diagnostics (used only in the parser's
error message, which `parse` below reproduces directly) and are read by no
operation nor by `__str__`/`__lt__`/`__eq__`, so they are not part of the
record. -/

structure Version where
  epoch : Int
  major : Int
  minor : Option Int
  patch : Option Int
  pre : List Char
  post : List Char
  dev : List Char
  localPart : List Char
deriving DecidableEq, Repr

/-! ### Class constants -/

def PARTS : List (List Char) :=
  ["epoch".data, "major".data, "minor".data, "patch".data, "a".data, "b".data,
   "rc".data, "post".data, "dev".data, "local".data]

def PARSED_PARTS : List (List Char) :=
  ["epoch".data, "major".data, "minor".data, "patch".data, "pre".data,
   "post".data, "dev".data, "local".data]

def PRE_PARTS : List (List Char) :=
  ["a".data, "b".data, "c".data, "rc".data, "alpha".data, "beta".data,
   "pre".data, "preview".data]

def POST_PARTS : List (List Char) :=
  ["r".data, "rev".data, "post".data]

def INT_PARTS : List (List Char) :=
  ["epoch".data, "major".data, "minor".data, "patch".data]

/-! ### Normalization helpers (`Version.__*_normalize`, `__implicit_release`) -/

/-- `Version.__implicit_release`: `re.match(r"(.*\D)(\d+)$", release)`
with Python's regex semantics: `.` does not match a newline, and `$`
matches at the end of the string or just before one final newline.  The
match is anchored at 0 and the only candidate split puts group 2 at the
maximal trailing digit run of the `$`-adjusted core (everything after the
`\D` character must be digits), so a match needs: that run nonempty, a
character before it (the `\D`, automatically a non-digit by maximality —
it may itself be a newline), and no newline anywhere before that
character.  On a match the result is group1 ++ `str(int(group2))` — any
final newline is dropped; otherwise `"0"` is appended to the input. -/
def implicit_release (release : List Char) : List Char :=
  let core := if release.getLast? = some '\n' then release.dropLast else release
  let run := (core.reverse.takeWhile isDigit).reverse
  let stem := (core.reverse.dropWhile isDigit).reverse
  if run.isEmpty || stem.isEmpty then release ++ ['0']
  else if '\n' ∈ stem.dropLast then release ++ ['0']
  else stem ++ natToChars (digitsToNat run)

/-- `Version.__prefix_normalize`: prefix an all-digit string (Python
`all(...)`, vacuously true on `""`) with the given stem. -/
def prefix_normalize (release pfx : List Char) : List Char :=
  if release.all isDigit then pfx ++ release else release

/-- `Version.__pre_normalize`. -/
def pre_normalize (release : List Char) : List Char :=
  if release.isEmpty then release
  else
    let r := pyReplace release ".".data []
    let r := pyReplace r "-".data []
    let r := pyReplace r "_".data []
    let r := pyReplace r "alpha".data "a".data
    let r := pyReplace r "beta".data "b".data
    let r := if r.head? = some 'c' then pyReplace r "c".data "rc".data else r
    let r := pyReplace r "preview".data "rc".data
    let r := pyReplace r "pre".data "rc".data
    let r := prefix_normalize r "pre".data
    implicit_release r

/-- `Version.__post_normalize`. -/
def post_normalize (release : List Char) : List Char :=
  if release.isEmpty then release
  else
    let r := match release with
      | c :: rest => if isSep c then rest else release
      | [] => release
    let r := pyReplace r ".".data []
    let r := pyReplace r "-".data []
    let r := pyReplace r "_".data []
    let r := pyReplace r "rev".data "post".data
    let r := pyReplace r "r".data "post".data
    let r := prefix_normalize r "post".data
    let r := implicit_release r
    '.' :: r

/-- `Version.__dev_normalize`. -/
def dev_normalize (release : List Char) : List Char :=
  if release.isEmpty then release
  else
    let r := match release with
      | c :: rest => if isSep c then rest else release
      | [] => release
    let r := pyReplace r ".".data []
    let r := pyReplace r "-".data []
    let r := pyReplace r "_".data []
    let r := prefix_normalize r "dev".data
    let r := implicit_release r
    '.' :: r

/-- `Version.__local_normalize`. -/
def local_normalize (release : List Char) : List Char :=
  if release.isEmpty then release
  else
    let r := pyReplace release "-".data ".".data
    pyReplace r "_".data ".".data

/-! ### The PyPA regex, as a prioritized-candidates backtracking matcher

Each `*Cands` function returns the splits (captured text of the group,
remaining input) that the group can produce, in the engine's backtracking
priority order; an empty capture for an optional group means the group is
absent (`match.group(...)` is `None`; the normalizers treat `None` and
`""` identically via `release or ""`).  `firstSome` commits to the first
candidate whose continuation succeeds — exactly leftmost-greedy
backtracking. -/

def firstSome : List α → (α → Option β) → Option β
  | [], _ => none
  | a :: as, f =>
    match f a with
    | some b => some b
    | none => firstSome as f

/-- Candidates of `[-_\.]?`: consume a separator if present, else skip. -/
def sepCands (cs : List Char) : List (List Char × List Char) :=
  (match cs with
   | c :: rest => if isSep c then [([c], rest)] else []
   | [] => []) ++ [([], cs)]

/-- Candidates of an alternation of literal words, in the written order. -/
def wordCands (words : List (List Char)) (cs : List Char) : List (List Char × List Char) :=
  words.filterMap fun w =>
    if w.isPrefixOf cs then some (w, cs.drop w.length) else none

/-- Candidates of `[0-9]+` (greedy): every nonempty prefix of the maximal
digit run, longest first. -/
def numCandsNE (cs : List Char) : List (List Char × List Char) :=
  let run := cs.takeWhile isDigit
  let rest := cs.dropWhile isDigit
  (List.range run.length).map fun i =>
    (run.take (run.length - i), run.drop (run.length - i) ++ rest)

/-- Candidates of `([0-9]+)?`: the nonempty runs, then absent. -/
def numCands (cs : List Char) : List (List Char × List Char) :=
  numCandsNE cs ++ [([], cs)]

def preLetters : List (List Char) :=
  ["a".data, "b".data, "c".data, "rc".data, "alpha".data, "beta".data,
   "pre".data, "preview".data]

def postLetters : List (List Char) :=
  ["post".data, "rev".data, "r".data]

/-- Candidates of the optional `pre` group
`([-_\.]?(a|b|c|rc|alpha|beta|pre|preview)[-_\.]?([0-9]+)?)?`. -/
def preCands (cs : List Char) : List (List Char × List Char) :=
  ((sepCands cs).flatMap fun s1 =>
    (wordCands preLetters s1.2).flatMap fun l =>
      (sepCands l.2).flatMap fun s2 =>
        (numCands s2.2).map fun n =>
          (s1.1 ++ l.1 ++ s2.1 ++ n.1, n.2)) ++ [([], cs)]

/-- Candidates of the optional `post` group
`((-([0-9]+))|([-_\.]?(post|rev|r)[-_\.]?([0-9]+)?))?` — first
alternative first, then the spelled form, then absent. -/
def postCands (cs : List Char) : List (List Char × List Char) :=
  (match cs with
   | '-' :: rest => (numCandsNE rest).map fun n => ('-' :: n.1, n.2)
   | _ => []) ++
  ((sepCands cs).flatMap fun s1 =>
    (wordCands postLetters s1.2).flatMap fun l =>
      (sepCands l.2).flatMap fun s2 =>
        (numCands s2.2).map fun n =>
          (s1.1 ++ l.1 ++ s2.1 ++ n.1, n.2)) ++ [([], cs)]

/-- Candidates of the optional `dev` group `([-_\.]?dev[-_\.]?([0-9]+)?)?`. -/
def devCands (cs : List Char) : List (List Char × List Char) :=
  ((sepCands cs).flatMap fun s1 =>
    (wordCands ["dev".data] s1.2).flatMap fun l =>
      (sepCands l.2).flatMap fun s2 =>
        (numCands s2.2).map fun n =>
          (s1.1 ++ l.1 ++ s2.1 ++ n.1, n.2)) ++ [([], cs)]

/-- The repetitions of `([-_\.][a-z0-9]+)*` after the first `[a-z0-9]+`
run of the `local` group, greedily.  Any shorter match of the star or of a
run would leave an alphanumeric or separator character for the trailing
`\s*$`, which cannot consume it, so greedy is the only viable split. -/
def localRuns : Nat → List Char → List Char × List Char
  | 0, cs => ([], cs)
  | f + 1, cs =>
    match cs with
    | c :: rest =>
      if isSep c then
        let run := rest.takeWhile isAlnum
        if run.isEmpty then ([], c :: rest)
        else
          let (more, rem) := localRuns f (rest.dropWhile isAlnum)
          (c :: (run ++ more), rem)
      else ([], c :: rest)
    | [] => ([], [])

def greedyLocal (cs : List Char) : Option (List Char × List Char) :=
  let run := cs.takeWhile isAlnum
  if run.isEmpty then none
  else
    let (more, rem) := localRuns cs.length (cs.dropWhile isAlnum)
    some (run ++ more, rem)

/-- The `(\+local)? \s*$` tail: deterministic (see module header). -/
def localEnd (cs : List Char) : Option (List Char) :=
  match cs with
  | '+' :: rest =>
    match greedyLocal rest with
    | some (cap, rem) => if rem.all isWS then some cap else none
    | none => none
  | _ => if cs.all isWS then some [] else none

/-- Captured groups of a successful match: `epoch` (empty = absent), the
integer release components, and the `pre`/`post`/`dev`/`local` group
texts (empty = absent). -/
structure Caps where
  epoch : List Char
  release : List (List Char)
  pre : List Char
  post : List Char
  dev : List Char
  localCap : List Char
deriving DecidableEq, Repr

/-- The `(\.[0-9]+)*` continuation of the release segment. -/
def releaseLoop : Nat → List Char → List (List Char) → List (List Char) × List Char
  | 0, cs, acc => (acc.reverse, cs)
  | f + 1, cs, acc =>
    match cs with
    | '.' :: rest =>
      let run := rest.takeWhile isDigit
      if run.isEmpty then (acc.reverse, cs)
      else releaseLoop f (rest.dropWhile isDigit) (run :: acc)
    | _ => (acc.reverse, cs)

/-- The forced-deterministic `^\s* v?` head: skip the whitespace run, then
one `v` if present. -/
def normHead (cs : List Char) : List Char :=
  match cs.dropWhile isWS with
  | 'v' :: rest => rest
  | x => x

/-- The `(epoch!)?` group: the maximal digit run when it is nonempty and
immediately followed by `!`, else absent. -/
def epochSplit (cs1 : List Char) : List Char × List Char :=
  if !(cs1.takeWhile isDigit).isEmpty && (cs1.dropWhile isDigit).head? = some '!' then
    (cs1.takeWhile isDigit, (cs1.dropWhile isDigit).tail)
  else ([], cs1)

/-- The backtracking search over the `pre? post? dev? (\+local)? \s*$`
tail. -/
def tailSearch (ecap : List Char) (comps : List (List Char)) (cs3 : List Char) : Option Caps :=
  firstSome (preCands cs3) fun pc =>
    firstSome (postCands pc.2) fun poc =>
      firstSome (devCands poc.2) fun dc =>
        match localEnd dc.2 with
        | some lcap => some ⟨ecap, comps, pc.1, poc.1, dc.1, lcap⟩
        | none => none

/-- Match `^\s* v? (epoch!)? release pre? post? dev? (\+local)? \s*$`
against the (already lowercased/stripped) string. -/
def pyMatch (cs : List Char) : Option Caps :=
  let cs1 := normHead cs
  let ec2 := epochSplit cs1
  if (ec2.2.takeWhile isDigit).isEmpty then none
  else
    let cc3 := releaseLoop ec2.2.length (ec2.2.dropWhile isDigit) [ec2.2.takeWhile isDigit]
    tailSearch ec2.1 cc3.1 cc3.2

/-- Build the `Version` fields from the captures, as `__init__` does:
`int(epoch or 0)`, the release components via `__release_normalize`, and
the four normalizers. -/
def mkVersion (caps : Caps) : Version where
  epoch := (digitsToNat caps.epoch : Int)
  major := (digitsToNat ((caps.release.get? 0).getD []) : Int)
  minor := (caps.release.get? 1).map fun d => (digitsToNat d : Int)
  patch := (caps.release.get? 2).map fun d => (digitsToNat d : Int)
  pre := pre_normalize caps.pre
  post := post_normalize caps.post
  dev := dev_normalize caps.dev
  localPart := local_normalize caps.localCap

/-- `Version.__init__`: lowercase, strip `"\t\n\r\f\v"`, strip every
leading `v`, match the regex; on failure raise
`ValueError(f"Invalid version string: {version_str}")`. -/
def parse (s : List Char) : Except (List Char) Version :=
  let versionStr := lstripV (pyStrip5 (pyLower s))
  match pyMatch versionStr with
  | some caps => .ok (mkVersion caps)
  | none => .error ("Invalid version string: ".data ++ versionStr)

/-! ### Rendering, ordering, equality -/

/-- `Version.__str__`. -/
def render (v : Version) : List Char :=
  (if v.epoch > 0 then intRepr v.epoch ++ ['!'] else []) ++
  intRepr v.major ++
  (match v.minor with
   | some m => '.' :: intRepr m
   | none => []) ++
  (match v.patch with
   | some p => '.' :: intRepr p
   | none => []) ++
  v.pre ++ v.post ++ v.dev ++
  (if v.localPart.isEmpty then [] else '+' :: v.localPart)

/-- `Version.__is_optional_value_less_than`. -/
def is_optional_value_less_than : Option Int → Option Int → Bool
  | none, some _ => true
  | some a, some b => a < b
  | _, _ => false

/-- `Version.__lt__`: returns true on the first field where self < other
(note: it does NOT return early when an earlier field is greater). -/
def lt (u v : Version) : Bool :=
  if u.epoch < v.epoch then true
  else if u.major < v.major then true
  else if is_optional_value_less_than u.minor v.minor then true
  else if is_optional_value_less_than u.patch v.patch then true
  else if pyStrLt u.pre v.pre then true
  else if pyStrLt u.post v.post then true
  else if pyStrLt u.dev v.dev then true
  else pyStrLt u.localPart v.localPart

/-- `Version.__eq__`: string equality of the canonical renderings. -/
def eqv (u v : Version) : Bool :=
  render u = render v

/-- `Version.__gt__`, synthesized by the `functools.total_ordering`
decorator from `__lt__` and `__eq__`: `not (self < other) and
self != other` (and `!=` is the negation of `__eq__`). -/
def gt (u v : Version) : Bool :=
  !(lt u v) && !(eqv u v)

/-! ### Mutations -/

/-- `Version.__bump_int_part` on a plain-int field (`epoch`, `major`);
the Python `value or 0` is the identity on ints. -/
def bump_int_part (part pfx : List Char) (value : Int) : Int :=
  if part = pfx then value + 1 else value

/-- `Version.__bump_int_part` on an optional-int field: `(value or 0) + 1`. -/
def bump_int_part_opt (part pfx : List Char) (value : Option Int) : Option Int :=
  if part = pfx then some (value.getD 0 + 1) else value

/-- `Version.__bump_part` (for `pre`/`post`/`dev` string fields):
`int(value[len(prefix):])` can raise, modeled as `Except`. -/
def bump_part (part pfx value : List Char) : Except (List Char) (List Char) :=
  if !part.isEmpty && !pfx.isEmpty && (pfx = part || pfx = '.' :: part) then
    if pfx.isPrefixOf value then
      match pyInt (value.drop pfx.length) with
      | some n => .ok (pfx ++ intRepr (n + 1))
      | none => .error ("invalid literal for int with base 10: ".data ++ value.drop pfx.length)
    else .ok (pfx ++ ['1'])
  else .ok value

/-- `Version.__bump_local`: `re.match(r"(.*)(\d+)$", value)` with
Python's regex semantics: `.` does not match a newline and `$` also
matches just before one final newline.  The greedy `(.*)` makes group 2
exactly the LAST character of the `$`-adjusted core when that character
is a digit; group 1 (the rest of the core) must be newline-free.  On a
match the result drops any final newline; otherwise `"1"` is appended. -/
def bump_local (part value : List Char) : List Char :=
  if part = "local".data then
    let core := if value.getLast? = some '\n' then value.dropLast else value
    match core.getLast? with
    | some c =>
      if isDigit c = true ∧ '\n' ∉ core.dropLast then
        core.dropLast ++ natToChars (digitVal c + 1)
      else value ++ ['1']
    | none => value ++ ['1']
  else value

/-- `Version.__part_to_parsed_part`. -/
def part_to_parsed_part (part : List Char) : List Char :=
  if part ∈ PRE_PARTS then "pre".data
  else if part ∈ POST_PARTS then "post".data
  else part

/-- One step of `Version.__clear_parts`: integer parts reset to 0 only
when they currently hold an int (absent stays absent); `major` is never
cleared; the string slots reset to `""`.  The call sites only ever pass
names from `PARSED_PARTS`. -/
def clear_one (v : Version) (part : List Char) : Version :=
  if part = "epoch".data then { v with epoch := 0 }
  else if part = "minor".data then { v with minor := v.minor.map fun _ => 0 }
  else if part = "patch".data then { v with patch := v.patch.map fun _ => 0 }
  else if part = "major".data then v
  else if part = "pre".data then { v with pre := [] }
  else if part = "post".data then { v with post := [] }
  else if part = "dev".data then { v with dev := [] }
  else if part = "local".data then { v with localPart := [] }
  else v

def clear_parts (v : Version) (parts : List (List Char)) : Version :=
  parts.foldl clear_one v

/-- `Version.bump`. -/
def bump (v : Version) (part : List Char) : Except (List Char) Version :=
  if part ∉ PARTS then .error ("Invalid part value: ".data ++ part)
  else do
    let epoch := bump_int_part part "epoch".data v.epoch
    let major := bump_int_part part "major".data v.major
    let minor := bump_int_part_opt part "minor".data v.minor
    let minor := if part = "patch".data then some (minor.getD 0) else minor
    let patch := bump_int_part_opt part "patch".data v.patch
    let pre ← bump_part part "a".data v.pre
    let pre ← bump_part part "b".data pre
    let pre ← bump_part part "rc".data pre
    let post ← bump_part part ".post".data v.post
    let dev ← bump_part part ".dev".data v.dev
    let localPart := bump_local part v.localPart
    let v' : Version := ⟨epoch, major, minor, patch, pre, post, dev, localPart⟩
    if part = "epoch".data then pure v'
    else
      let pi := PARSED_PARTS.indexOf (part_to_parsed_part part)
      pure (clear_parts v' (PARSED_PARTS.drop (pi + 1)))

/-- `Version.bump_release`. -/
def bump_release (v : Version) : Version :=
  clear_parts v ["pre".data, "post".data, "dev".data, "local".data]

/-- Write one integer field. -/
def setIntField (v : Version) (part : List Char) (n : Int) : Version :=
  if part = "epoch".data then { v with epoch := n }
  else if part = "major".data then { v with major := n }
  else if part = "minor".data then { v with minor := some n }
  else { v with patch := some n }

/-- `Version.set`.  Note the outer `if part in Version.PARTS` guard: parts
outside `PARTS` (including the aliases `c`, `alpha`, `beta`, `pre`,
`preview`, `r`, `rev` of `PRE_PARTS`/`POST_PARTS`) are a silent no-op. -/
def set (v : Version) (part value : List Char) (clearRight : Bool) : Except (List Char) Version :=
  if part ∈ PARTS then do
    let (v', resolved) ←
      if part ∈ PRE_PARTS then
        pure ({ v with pre := pre_normalize (part ++ value) }, "pre".data)
      else if part ∈ POST_PARTS then
        pure ({ v with post := post_normalize value }, "post".data)
      else if part = "local".data then
        pure ({ v with localPart := local_normalize value }, "local".data)
      else if part = "dev".data then
        pure ({ v with dev := dev_normalize value }, "dev".data)
      else
        match pyInt value with
        | some n => pure (setIntField v part n, part)
        | none => .error ("invalid literal for int with base 10: ".data ++ value)
    if clearRight then
      pure (clear_parts v' (PARSED_PARTS.drop (PARSED_PARTS.indexOf resolved + 1)))
    else pure v'
  else pure v

/-! ### Shapes of parsed fields -/

/-- A nonempty all-alphanumeric run. -/
def goodRun (q : List Char) : Prop :=
  q ≠ [] ∧ ∀ c ∈ q, isAlnum c = true

/-- The continuation runs of a normalized local segment, each preceded by
a dot. -/
def dotTail (rs : List (List Char)) : List Char :=
  rs.flatMap fun q => '.' :: q

/-- The continuation runs of a raw captured local segment, each preceded
by its own separator character. -/
def rawTail (prs : List (Char × List Char)) : List Char :=
  prs.flatMap fun p => p.1 :: p.2

/-- A normalized nonempty local segment: `run0 (. run)*`. -/
def LocalShape (cs : List Char) : Prop :=
  ∃ r0 rs, goodRun r0 ∧ (∀ q ∈ rs, goodRun q) ∧ cs = r0 ++ dotTail rs

/-- The invariant every `Version` produced by `parse` satisfies; it is
exactly what the round-trip proof needs. -/
structure Inv (v : Version) : Prop where
  epoch_nonneg : 0 ≤ v.epoch
  major_nonneg : 0 ≤ v.major
  minor_nonneg : ∀ m, v.minor = some m → 0 ≤ m
  patch_nonneg : ∀ p, v.patch = some p → 0 ≤ p
  patch_minor : v.patch.isSome → v.minor.isSome
  pre_shape : v.pre = [] ∨ ∃ t n, (t = "a".data ∨ t = "b".data ∨ t = "rc".data) ∧
    v.pre = t ++ natToChars n
  post_shape : v.post = [] ∨ ∃ n, v.post = ".post".data ++ natToChars n
  dev_shape : v.dev = [] ∨ ∃ n, v.dev = ".dev".data ++ natToChars n
  local_shape : v.localPart = [] ∨ LocalShape v.localPart

/-! ### Call sequences (for the reachable-state invariant) -/

/-- One mutation call on a `Version`. -/
inductive Op where
  | bumpOp (part : List Char)
  | bumpReleaseOp
  | setOp (part value : List Char) (clearRight : Bool)
deriving DecidableEq, Repr

def applyOp (v : Version) : Op → Except (List Char) Version
  | .bumpOp part => bump v part
  | .bumpReleaseOp => .ok (bump_release v)
  | .setOp part value cr => set v part value cr

def applyOps (v : Version) (ops : List Op) : Except (List Char) Version :=
  ops.foldlM applyOp v

/-- An op never writes a negative integer through `set`: whenever it sets
an integer part, the value string denotes a non-negative integer. -/
def nonNegSetOp : Op → Prop
  | .setOp part value _ => part ∈ INT_PARTS → ∀ n, pyInt value = some n → 0 ≤ n
  | _ => True

/-- The non-negativity invariant of claim C8. -/
def NonNeg (v : Version) : Prop :=
  0 ≤ v.epoch ∧ 0 ≤ v.major ∧ (∀ m, v.minor = some m → 0 ≤ m) ∧
    (∀ p, v.patch = some p → 0 ≤ p)

/-- `u` and `w` differ in at most one of the eight fields: some seven of
the eight fields agree. -/
def almostEq (u w : Version) : Prop :=
  (u.major = w.major ∧ u.minor = w.minor ∧ u.patch = w.patch ∧ u.pre = w.pre ∧
    u.post = w.post ∧ u.dev = w.dev ∧ u.localPart = w.localPart) ∨
  (u.epoch = w.epoch ∧ u.minor = w.minor ∧ u.patch = w.patch ∧ u.pre = w.pre ∧
    u.post = w.post ∧ u.dev = w.dev ∧ u.localPart = w.localPart) ∨
  (u.epoch = w.epoch ∧ u.major = w.major ∧ u.patch = w.patch ∧ u.pre = w.pre ∧
    u.post = w.post ∧ u.dev = w.dev ∧ u.localPart = w.localPart) ∨
  (u.epoch = w.epoch ∧ u.major = w.major ∧ u.minor = w.minor ∧ u.pre = w.pre ∧
    u.post = w.post ∧ u.dev = w.dev ∧ u.localPart = w.localPart) ∨
  (u.epoch = w.epoch ∧ u.major = w.major ∧ u.minor = w.minor ∧ u.patch = w.patch ∧
    u.post = w.post ∧ u.dev = w.dev ∧ u.localPart = w.localPart) ∨
  (u.epoch = w.epoch ∧ u.major = w.major ∧ u.minor = w.minor ∧ u.patch = w.patch ∧
    u.pre = w.pre ∧ u.dev = w.dev ∧ u.localPart = w.localPart) ∨
  (u.epoch = w.epoch ∧ u.major = w.major ∧ u.minor = w.minor ∧ u.patch = w.patch ∧
    u.pre = w.pre ∧ u.post = w.post ∧ u.localPart = w.localPart) ∨
  (u.epoch = w.epoch ∧ u.major = w.major ∧ u.minor = w.minor ∧ u.patch = w.patch ∧
    u.pre = w.pre ∧ u.post = w.post ∧ u.dev = w.dev)

/-! ## Lemmas: characters and decimal digits -/

theorem char_eq_iff_toNat {c x : Char} : c = x ↔ c.toNat = x.toNat :=
  ⟨fun h => by rw [h], fun h => Char.eq_of_val_eq (UInt32.ext h)⟩

theorem isDigit_toNat {c : Char} (h : isDigit c = true) : 48 ≤ c.toNat ∧ c.toNat ≤ 57 := by
  simpa [isDigit, Bool.and_eq_true, decide_eq_true_iff] using h

theorem isDigit_of_toNat {c : Char} (h1 : 48 ≤ c.toNat) (h2 : c.toNat ≤ 57) : isDigit c = true := by
  simp [isDigit, Bool.and_eq_true, decide_eq_true_iff, h1, h2]

theorem ne_of_isDigit {c x : Char} (h : isDigit c = true) (hx : isDigit x = false) : c ≠ x :=
  fun e => by rw [e, hx] at h; cases h

theorem isSep_false_of_isDigit {c : Char} (h : isDigit c = true) : isSep c = false := by
  have d1 : c ≠ '-' := ne_of_isDigit h (by decide)
  have d2 : c ≠ '_' := ne_of_isDigit h (by decide)
  have d3 : c ≠ '.' := ne_of_isDigit h (by decide)
  simp [isSep, d1, d2, d3]

theorem isWS_false_of_isDigit {c : Char} (h : isDigit c = true) : isWS c = false := by
  have d1 : c ≠ ' ' := ne_of_isDigit h (by decide)
  have d2 : c ≠ '\t' := ne_of_isDigit h (by decide)
  have d3 : c ≠ '\n' := ne_of_isDigit h (by decide)
  have d4 : c ≠ '\r' := ne_of_isDigit h (by decide)
  have d5 : c ≠ '\x0c' := ne_of_isDigit h (by decide)
  have d6 : c ≠ '\x0b' := ne_of_isDigit h (by decide)
  simp [isWS, d1, d2, d3, d4, d5, d6]

theorem isAlnum_of_isDigit {c : Char} (h : isDigit c = true) : isAlnum c = true := by
  simp [isAlnum, h]

theorem digitVal_digitChar {n : Nat} (h : n < 10) : digitVal (digitChar n) = n := by
  interval_cases n <;> decide

theorem isDigit_digitChar {n : Nat} (h : n < 10) : isDigit (digitChar n) = true := by
  interval_cases n <;> decide

theorem digitsToNat_snoc (a : List Char) (c : Char) :
    digitsToNat (a ++ [c]) = 10 * digitsToNat a + digitVal c := by
  simp [digitsToNat, List.foldl_append]

theorem natToCharsAux_spec :
    ∀ f n, n < f →
      (∀ c ∈ natToCharsAux f n, isDigit c = true) ∧ natToCharsAux f n ≠ [] ∧
        digitsToNat (natToCharsAux f n) = n := by
  intro f
  induction f with
  | zero => intro n h; omega
  | succ f ih =>
    intro n h
    by_cases hn : n < 10
    · refine ⟨?_, ?_, ?_⟩
      · intro c hc
        simp only [natToCharsAux, if_pos hn, List.mem_singleton] at hc
        rw [hc]
        exact isDigit_digitChar hn
      · simp [natToCharsAux, hn]
      · simp [natToCharsAux, hn, digitsToNat, digitVal_digitChar hn]
    · have hdiv : n / 10 < f := by
        have h1 : n / 10 < n := Nat.div_lt_self (by omega) (by omega)
        omega
      obtain ⟨hd, hne, hval⟩ := ih (n / 10) hdiv
      have hmod : n % 10 < 10 := Nat.mod_lt n (by omega)
      refine ⟨?_, ?_, ?_⟩
      · intro c hc
        simp only [natToCharsAux, if_neg hn, List.mem_append, List.mem_singleton] at hc
        rcases hc with hc | hc
        · exact hd c hc
        · rw [hc]; exact isDigit_digitChar hmod
      · simp [natToCharsAux, if_neg hn]
      · simp only [natToCharsAux, if_neg hn]
        rw [digitsToNat_snoc, hval, digitVal_digitChar hmod]
        omega

theorem natToChars_digit {n : Nat} {c : Char} (hc : c ∈ natToChars n) : isDigit c = true :=
  (natToCharsAux_spec (n + 1) n (by omega)).1 c hc

theorem natToChars_ne_nil (n : Nat) : natToChars n ≠ [] :=
  (natToCharsAux_spec (n + 1) n (by omega)).2.1

theorem digitsToNat_natToChars (n : Nat) : digitsToNat (natToChars n) = n :=
  (natToCharsAux_spec (n + 1) n (by omega)).2.2

theorem natToChars_head {n : Nat} {c : Char} {r : List Char} (h : natToChars n = c :: r) :
    isDigit c = true :=
  natToChars_digit (by rw [h]; exact List.mem_cons_self c r)

theorem intRepr_nonneg {i : Int} (h : 0 ≤ i) : intRepr i = natToChars i.toNat := by
  simp [intRepr, Int.not_lt.mpr h]

/-! ## Lemmas: takeWhile, dropWhile, infixes -/

theorem takeWhile_append_all {p : Char → Bool} :
    ∀ {xs ys : List Char}, (∀ c ∈ xs, p c = true) →
      (xs ++ ys).takeWhile p = xs ++ ys.takeWhile p := by
  intro xs
  induction xs with
  | nil => intro ys _; simp
  | cons x xs ih =>
    intro ys h
    have hx : p x = true := h x (List.mem_cons_self x xs)
    simp only [List.cons_append, List.takeWhile_cons, hx, if_pos]
    rw [ih fun c hc => h c (List.mem_cons_of_mem x hc)]

theorem dropWhile_append_all {p : Char → Bool} :
    ∀ {xs ys : List Char}, (∀ c ∈ xs, p c = true) →
      (xs ++ ys).dropWhile p = ys.dropWhile p := by
  intro xs
  induction xs with
  | nil => intro ys _; simp
  | cons x xs ih =>
    intro ys h
    have hx : p x = true := h x (List.mem_cons_self x xs)
    simp only [List.cons_append, List.dropWhile_cons, hx, if_pos]
    exact ih fun c hc => h c (List.mem_cons_of_mem x hc)

theorem takeWhile_head_false {p : Char → Bool} {c : Char} {cs : List Char} (h : p c = false) :
    (c :: cs).takeWhile p = [] := by
  simp [List.takeWhile_cons, h]

theorem dropWhile_head_false {p : Char → Bool} {c : Char} {cs : List Char} (h : p c = false) :
    (c :: cs).dropWhile p = c :: cs := by
  simp [List.dropWhile_cons, h]

theorem dropWhile_all_false {p : Char → Bool} {cs : List Char}
    (h : ∀ c ∈ cs, p c = false) : cs.dropWhile p = cs := by
  cases cs with
  | nil => rfl
  | cons c r => exact dropWhile_head_false (h c (List.mem_cons_self c r))

theorem infix_cons {old cs : List Char} {c : Char} (h : old <:+: cs) : old <:+: (c :: cs) := by
  obtain ⟨s, t, hst⟩ := h
  exact ⟨c :: s, t, by rw [← hst]; rfl⟩

theorem not_infix_of_absent_char {old cs : List Char} {c : Char}
    (hc : c ∈ old) (habs : c ∉ cs) : ¬ old <:+: cs :=
  fun h => habs (h.subset hc)

/-! ## Lemmas: Python `str.replace` -/

theorem replaceAux_fuel (old new : List Char) :
    ∀ f g cs, cs.length ≤ f → cs.length ≤ g →
      replaceAux old new f cs = replaceAux old new g cs := by
  intro f
  induction f with
  | zero =>
    intro g cs hf _
    have : cs = [] := List.eq_nil_of_length_eq_zero (by omega)
    subst this
    cases g <;> rfl
  | succ f ih =>
    intro g cs hf hg
    cases cs with
    | nil => cases g <;> rfl
    | cons c r =>
      cases g with
      | zero => simp at hg
      | succ g =>
        simp only [replaceAux]
        by_cases hp : (old.isPrefixOf (c :: r) && !old.isEmpty) = true
        · rw [if_pos hp, if_pos hp]
          have hne : old ≠ [] := by
            rcases Bool.and_eq_true _ _ |>.mp hp with ⟨_, h2⟩
            simpa [List.isEmpty_iff] using h2
          have hlen : ((c :: r).drop old.length).length ≤ f := by
            have : 1 ≤ old.length := by
              cases old with
              | nil => exact absurd rfl hne
              | cons _ _ => simp
            simp only [List.length_drop, List.length_cons] at *
            omega
          have hleng : ((c :: r).drop old.length).length ≤ g := by
            have : 1 ≤ old.length := by
              cases old with
              | nil => exact absurd rfl hne
              | cons _ _ => simp
            simp only [List.length_drop, List.length_cons] at *
            omega
          rw [ih g _ hlen hleng]
        · rw [if_neg hp, if_neg hp]
          have : r.length ≤ f := by simp at hf; omega
          have hg' : r.length ≤ g := by simp at hg; omega
          rw [ih g r this hg']

theorem pyReplace_nil (old new : List Char) : pyReplace [] old new = [] := rfl

theorem pyReplace_cons_pos {old : List Char} (new : List Char) {c : Char} {r : List Char}
    (hp : old.isPrefixOf (c :: r) = true) (hne : old ≠ []) :
    pyReplace (c :: r) old new = new ++ pyReplace ((c :: r).drop old.length) old new := by
  have hcond : (old.isPrefixOf (c :: r) && !old.isEmpty) = true := by
    simp [hp, List.isEmpty_iff, hne]
  show replaceAux old new (c :: r).length (c :: r) = _
  simp only [List.length_cons, replaceAux, if_pos hcond]
  congr 1
  refine replaceAux_fuel old new _ _ _ ?_ le_rfl
  have : 1 ≤ old.length := by
    cases old with
    | nil => exact absurd rfl hne
    | cons _ _ => simp
  simp only [List.length_drop, List.length_cons]
  omega

theorem pyReplace_cons_neg {old : List Char} (new : List Char) {c : Char} {r : List Char}
    (hp : old.isPrefixOf (c :: r) = false) :
    pyReplace (c :: r) old new = c :: pyReplace r old new := by
  have hcond : ¬ ((old.isPrefixOf (c :: r) && !old.isEmpty) = true) := by simp [hp]
  show replaceAux old new (c :: r).length (c :: r) = _
  simp only [List.length_cons, replaceAux, if_neg hcond]
  rfl

theorem pyReplace_no_occur {old cs : List Char} (new : List Char)
    (h : ¬ old <:+: cs) (hne : old ≠ []) : pyReplace cs old new = cs := by
  induction cs with
  | nil => rfl
  | cons c r ih =>
    have hp : old.isPrefixOf (c :: r) = false := by
      by_contra hb
      have : old.isPrefixOf (c :: r) = true := by
        cases hq : old.isPrefixOf (c :: r) with
        | true => rfl
        | false => exact absurd hq hb
      exact h ((List.isPrefixOf_iff_prefix.mp this).isInfix)
    rw [pyReplace_cons_neg new hp]
    rw [ih fun hi => h (infix_cons hi)]

theorem pyReplace_head_occur {old rest : List Char} (new : List Char) (hne : old ≠ []) :
    pyReplace (old ++ rest) old new = new ++ pyReplace rest old new := by
  cases old with
  | nil => exact absurd rfl hne
  | cons o os =>
    have hp : (o :: os).isPrefixOf ((o :: os) ++ rest) = true :=
      List.isPrefixOf_iff_prefix.mpr (List.prefix_append _ _)
    rw [show (o :: os) ++ rest = o :: (os ++ rest) from rfl] at hp ⊢
    rw [pyReplace_cons_pos new hp hne]
    congr 1
    simp

theorem pyReplace_del_eq_filter (a : Char) :
    ∀ cs : List Char, pyReplace cs [a] [] = cs.filter fun x => x ≠ a := by
  intro cs
  induction cs with
  | nil => rfl
  | cons c r ih =>
    by_cases h : c = a
    · subst h
      have hp : [c].isPrefixOf (c :: r) = true := by simp [List.isPrefixOf]
      rw [pyReplace_cons_pos [] hp (by simp)]
      simp [ih]
    · have hp : [a].isPrefixOf (c :: r) = false := by
        simp [List.isPrefixOf]
        exact fun e => h e.symm
      rw [pyReplace_cons_neg [] hp]
      simp [List.filter_cons, h, ih]

theorem pyReplace_swap_eq_map (a b : Char) :
    ∀ cs : List Char, pyReplace cs [a] [b] = cs.map fun x => if x = a then b else x := by
  intro cs
  induction cs with
  | nil => rfl
  | cons c r ih =>
    by_cases h : c = a
    · subst h
      have hp : [c].isPrefixOf (c :: r) = true := by simp [List.isPrefixOf]
      rw [pyReplace_cons_pos [b] hp (by simp)]
      simp [ih]
    · have hp : [a].isPrefixOf (c :: r) = false := by
        simp [List.isPrefixOf]
        exact fun e => h e.symm
      rw [pyReplace_cons_neg [b] hp]
      simp [ih, h]

/-- The three separator deletions at the head of the pre normalizer, as a
single filter. -/
theorem tripleDel_eq_filter (cs : List Char) :
    pyReplace (pyReplace (pyReplace cs ".".data []) "-".data []) "_".data [] =
      cs.filter fun x => isSep x = false := by
  show pyReplace (pyReplace (pyReplace cs ['.'] []) ['-'] []) ['_'] [] = _
  rw [pyReplace_del_eq_filter, pyReplace_del_eq_filter, pyReplace_del_eq_filter,
    List.filter_filter, List.filter_filter]
  congr 1
  funext x
  by_cases h1 : x = '.' <;> by_cases h2 : x = '-' <;> by_cases h3 : x = '_' <;>
    simp_all [isSep]

theorem filter_sep_free {cs : List Char} (h : ∀ c ∈ cs, isSep c = false) :
    (cs.filter fun x => isSep x = false) = cs := by
  apply List.filter_eq_self.mpr
  intro c hc
  simp [h c hc]

theorem mem_append_elim {x : Char} {a b : List Char} (ha : x ∉ a) (hb : x ∉ b) :
    x ∉ a ++ b := by
  simp [List.mem_append, ha, hb]

theorem not_mem_digits {x : Char} (hx : isDigit x = false) {ds : List Char}
    (hds : ∀ c ∈ ds, isDigit c = true) : x ∉ ds :=
  fun hm => by rw [hds x hm] at hx; cases hx

theorem not_mem_natToChars {x : Char} (hx : isDigit x = false) (n : Nat) :
    x ∉ natToChars n :=
  not_mem_digits hx fun _ hc => natToChars_digit hc

/-! ## Lemmas: last element of a list -/

theorem getLast?_none {l : List Char} (h : l.getLast? = none) : l = [] := by
  induction l with
  | nil => rfl
  | cons a as ih =>
    cases as with
    | nil => rw [List.getLast?_singleton] at h; cases h
    | cons b bs =>
      rw [List.getLast?_cons_cons] at h
      exact absurd (ih h) (by simp)

theorem getLast?_decomp {l : List Char} {c : Char} (h : l.getLast? = some c) :
    l.dropLast ++ [c] = l := by
  induction l with
  | nil => cases h
  | cons a as ih =>
    cases as with
    | nil =>
      rw [List.getLast?_singleton] at h
      injection h with h2
      rw [h2]
      rfl
    | cons b bs =>
      rw [List.getLast?_cons_cons] at h
      show a :: ((b :: bs).dropLast ++ [c]) = a :: (b :: bs)
      rw [ih h]

/-! ## Lemmas: `implicit_release` and `prefix_normalize` -/

theorem prefix_normalize_head_nondigit {c : Char} {r pfx : List Char}
    (h : isDigit c = false) : prefix_normalize (c :: r) pfx = c :: r := by
  simp [prefix_normalize, List.all_cons, h]

theorem prefix_normalize_all_digits {cs pfx : List Char}
    (h : ∀ c ∈ cs, isDigit c = true) : prefix_normalize cs pfx = pfx ++ cs := by
  simp only [prefix_normalize, if_pos (List.all_eq_true.mpr fun c hc => h c hc)]

/-- `implicit_release` on a stem ending in a non-digit followed by a digit
run: re-render the run (or append `"0"` when the run is empty — which is
also `natToChars (digitsToNat [])`). -/
theorem implicit_release_concat {s0 ds : List Char} {c0 : Char}
    (h0 : isDigit c0 = false) (hnl : '\n' ∉ s0 ++ [c0])
    (hds : ∀ c ∈ ds, isDigit c = true) :
    implicit_release ((s0 ++ [c0]) ++ ds) = (s0 ++ [c0]) ++ natToChars (digitsToNat ds) := by
  have hc0 : c0 ≠ '\n' := fun hc =>
    hnl (by rw [hc]; exact List.mem_append_right s0 (List.mem_singleton_self '\n'))
  have hs0 : '\n' ∉ s0 := fun hm => hnl (List.mem_append_left _ hm)
  have hrev : ((s0 ++ [c0]) ++ ds).reverse = ds.reverse ++ (c0 :: s0.reverse) := by
    simp
  have hrds : ∀ c ∈ ds.reverse, isDigit c = true := fun c hc =>
    hds c (List.mem_reverse.mp hc)
  have htake : (((s0 ++ [c0]) ++ ds).reverse).takeWhile isDigit = ds.reverse := by
    rw [hrev, takeWhile_append_all hrds, takeWhile_head_false h0, List.append_nil]
  have hdrop : (((s0 ++ [c0]) ++ ds).reverse).dropWhile isDigit = c0 :: s0.reverse := by
    rw [hrev, dropWhile_append_all hrds, dropWhile_head_false h0]
  have hcore : ((s0 ++ [c0]) ++ ds).getLast? ≠ some '\n' := by
    cases hd : ds.getLast? with
    | none =>
      rw [getLast?_none hd, List.append_nil, List.getLast?_concat]
      intro hc
      injection hc with hc2
      exact hc0 hc2
    | some d =>
      have hdd : d ∈ ds := by
        rw [← getLast?_decomp hd]
        exact List.mem_append_right _ (List.mem_singleton_self d)
      have hlast : ((s0 ++ [c0]) ++ ds).getLast? = some d := by
        rw [← getLast?_decomp hd, ← List.append_assoc, List.getLast?_concat]
      rw [hlast]
      intro hc
      injection hc with hc2
      have hdig := hds d hdd
      rw [hc2] at hdig
      exact absurd hdig (by decide)
  simp only [implicit_release]
  rw [if_neg hcore, htake, hdrop]
  by_cases hne : ds = []
  · subst hne
    rw [show natToChars (digitsToNat ([] : List Char)) = ['0'] from rfl]
    simp
  · have h1 : (ds.reverse.reverse).isEmpty = false := by
      simp [List.isEmpty_iff, hne]
    have h2 : ((c0 :: s0.reverse).reverse).isEmpty = false := by
      simp [List.isEmpty_iff]
    rw [if_neg (by simp [h1, h2, hne])]
    rw [show ((c0 :: s0.reverse).reverse).dropLast = s0 from by simp]
    rw [if_neg hs0]
    simp

/-! ## Lemmas: the pre normalizer on a captured group -/

theorem sepOpt_filter {s : List Char} (hs : s = [] ∨ ∃ c, isSep c = true ∧ s = [c]) :
    (s.filter fun x => isSep x = false) = [] := by
  rcases hs with rfl | ⟨c, hc, rfl⟩
  · rfl
  · simp [List.filter_cons, hc]

/-- After separator deletion, a captured pre/post/dev group
`sep? letter sep? digits?` collapses to `letter ++ digits`. -/
theorem tripleDel_capture {s1 l s2 nn : List Char}
    (hs1 : s1 = [] ∨ ∃ c, isSep c = true ∧ s1 = [c])
    (hs2 : s2 = [] ∨ ∃ c, isSep c = true ∧ s2 = [c])
    (hl : ∀ c ∈ l, isSep c = false) (hnn : ∀ c ∈ nn, isDigit c = true) :
    pyReplace (pyReplace (pyReplace (s1 ++ l ++ s2 ++ nn) ".".data []) "-".data [])
      "_".data [] = l ++ nn := by
  rw [tripleDel_eq_filter]
  simp only [List.filter_append]
  rw [sepOpt_filter hs1, sepOpt_filter hs2, filter_sep_free hl,
    filter_sep_free fun c hc => isSep_false_of_isDigit (hnn c hc)]
  simp

theorem isEmpty_false_of_mem {x : Char} {cs : List Char} (h : x ∈ cs) : cs.isEmpty = false := by
  cases cs with
  | nil => cases h
  | cons _ _ => rfl

theorem pyReplace_skip {w : Char} {old cs : List Char} (new : List Char)
    (hw : w ∈ old) (habs : w ∉ cs) (hne : old ≠ []) : pyReplace cs old new = cs :=
  pyReplace_no_occur new (not_infix_of_absent_char hw habs) hne

/-- A non-digit character is not in `letter ++ digits` when it is not in
the letter word. -/
theorem not_mem_word_digits {w : Char} {l nn : List Char} (hw : w ∉ l)
    (hwd : isDigit w = false) (hnn : ∀ c ∈ nn, isDigit c = true) : w ∉ l ++ nn :=
  mem_append_elim hw (not_mem_digits hwd hnn)

theorem pre_normalize_cap_a {s1 s2 nn : List Char}
    (hs1 : s1 = [] ∨ ∃ c, isSep c = true ∧ s1 = [c])
    (hs2 : s2 = [] ∨ ∃ c, isSep c = true ∧ s2 = [c])
    (hnn : ∀ c ∈ nn, isDigit c = true) :
    pre_normalize (s1 ++ "a".data ++ s2 ++ nn) = 'a' :: natToChars (digitsToNat nn) := by
  have hne : (s1 ++ "a".data ++ s2 ++ nn).isEmpty = false :=
    isEmpty_false_of_mem (x := 'a') (by simp [show "a".data = ['a'] from rfl])
  simp only [pre_normalize, hne, Bool.false_eq_true, if_false]
  rw [tripleDel_capture hs1 hs2 (by decide) hnn]
  rw [pyReplace_skip _ (show 'l' ∈ "alpha".data by decide)
    (not_mem_word_digits (by decide) (by decide) hnn) (by decide)]
  rw [pyReplace_skip _ (show 'e' ∈ "beta".data by decide)
    (not_mem_word_digits (by decide) (by decide) hnn) (by decide)]
  rw [if_neg (by simp [show "a".data = ['a'] from rfl])]
  rw [pyReplace_skip _ (show 'v' ∈ "preview".data by decide)
    (not_mem_word_digits (by decide) (by decide) hnn) (by decide)]
  rw [pyReplace_skip _ (show 'p' ∈ "pre".data by decide)
    (not_mem_word_digits (by decide) (by decide) hnn) (by decide)]
  rw [show ("a".data ++ nn) = 'a' :: nn from rfl,
    prefix_normalize_head_nondigit (by decide)]
  have := @implicit_release_concat [] nn 'a' (by decide) (by decide) hnn
  simpa using this

theorem pre_normalize_cap_b {s1 s2 nn : List Char}
    (hs1 : s1 = [] ∨ ∃ c, isSep c = true ∧ s1 = [c])
    (hs2 : s2 = [] ∨ ∃ c, isSep c = true ∧ s2 = [c])
    (hnn : ∀ c ∈ nn, isDigit c = true) :
    pre_normalize (s1 ++ "b".data ++ s2 ++ nn) = 'b' :: natToChars (digitsToNat nn) := by
  have hne : (s1 ++ "b".data ++ s2 ++ nn).isEmpty = false :=
    isEmpty_false_of_mem (x := 'b') (by simp [show "b".data = ['b'] from rfl])
  simp only [pre_normalize, hne, Bool.false_eq_true, if_false]
  rw [tripleDel_capture hs1 hs2 (by decide) hnn]
  rw [pyReplace_skip _ (show 'l' ∈ "alpha".data by decide)
    (not_mem_word_digits (by decide) (by decide) hnn) (by decide)]
  rw [pyReplace_skip _ (show 'e' ∈ "beta".data by decide)
    (not_mem_word_digits (by decide) (by decide) hnn) (by decide)]
  rw [if_neg (by simp [show "b".data = ['b'] from rfl])]
  rw [pyReplace_skip _ (show 'v' ∈ "preview".data by decide)
    (not_mem_word_digits (by decide) (by decide) hnn) (by decide)]
  rw [pyReplace_skip _ (show 'p' ∈ "pre".data by decide)
    (not_mem_word_digits (by decide) (by decide) hnn) (by decide)]
  rw [show ("b".data ++ nn) = 'b' :: nn from rfl,
    prefix_normalize_head_nondigit (by decide)]
  have := @implicit_release_concat [] nn 'b' (by decide) (by decide) hnn
  simpa using this

theorem pre_normalize_cap_c {s1 s2 nn : List Char}
    (hs1 : s1 = [] ∨ ∃ c, isSep c = true ∧ s1 = [c])
    (hs2 : s2 = [] ∨ ∃ c, isSep c = true ∧ s2 = [c])
    (hnn : ∀ c ∈ nn, isDigit c = true) :
    pre_normalize (s1 ++ "c".data ++ s2 ++ nn) = 'r' :: 'c' :: natToChars (digitsToNat nn) := by
  have hne : (s1 ++ "c".data ++ s2 ++ nn).isEmpty = false :=
    isEmpty_false_of_mem (x := 'c') (by simp [show "c".data = ['c'] from rfl])
  simp only [pre_normalize, hne, Bool.false_eq_true, if_false]
  rw [tripleDel_capture hs1 hs2 (by decide) hnn]
  rw [pyReplace_skip _ (show 'l' ∈ "alpha".data by decide)
    (not_mem_word_digits (by decide) (by decide) hnn) (by decide)]
  rw [pyReplace_skip _ (show 'e' ∈ "beta".data by decide)
    (not_mem_word_digits (by decide) (by decide) hnn) (by decide)]
  rw [if_pos (show ("c".data ++ nn).head? = some 'c' from rfl)]
  rw [pyReplace_head_occur "rc".data (by decide)]
  rw [pyReplace_skip _ (show 'c' ∈ "c".data by decide)
    (not_mem_digits (by decide) hnn) (by decide)]
  rw [pyReplace_skip _ (show 'v' ∈ "preview".data by decide)
    (not_mem_word_digits (by decide) (by decide) hnn) (by decide)]
  rw [pyReplace_skip _ (show 'p' ∈ "pre".data by decide)
    (not_mem_word_digits (by decide) (by decide) hnn) (by decide)]
  rw [show ("rc".data ++ nn) = 'r' :: 'c' :: nn from rfl,
    prefix_normalize_head_nondigit (by decide)]
  have := @implicit_release_concat ['r'] nn 'c' (by decide) (by decide) hnn
  simpa using this

theorem pre_normalize_cap_rc {s1 s2 nn : List Char}
    (hs1 : s1 = [] ∨ ∃ c, isSep c = true ∧ s1 = [c])
    (hs2 : s2 = [] ∨ ∃ c, isSep c = true ∧ s2 = [c])
    (hnn : ∀ c ∈ nn, isDigit c = true) :
    pre_normalize (s1 ++ "rc".data ++ s2 ++ nn) = 'r' :: 'c' :: natToChars (digitsToNat nn) := by
  have hne : (s1 ++ "rc".data ++ s2 ++ nn).isEmpty = false :=
    isEmpty_false_of_mem (x := 'r') (by simp [show "rc".data = ['r', 'c'] from rfl])
  simp only [pre_normalize, hne, Bool.false_eq_true, if_false]
  rw [tripleDel_capture hs1 hs2 (by decide) hnn]
  rw [pyReplace_skip _ (show 'l' ∈ "alpha".data by decide)
    (not_mem_word_digits (by decide) (by decide) hnn) (by decide)]
  rw [pyReplace_skip _ (show 'e' ∈ "beta".data by decide)
    (not_mem_word_digits (by decide) (by decide) hnn) (by decide)]
  rw [if_neg (by simp [show "rc".data = ['r', 'c'] from rfl])]
  rw [pyReplace_skip _ (show 'v' ∈ "preview".data by decide)
    (not_mem_word_digits (by decide) (by decide) hnn) (by decide)]
  rw [pyReplace_skip _ (show 'p' ∈ "pre".data by decide)
    (not_mem_word_digits (by decide) (by decide) hnn) (by decide)]
  rw [show ("rc".data ++ nn) = 'r' :: 'c' :: nn from rfl,
    prefix_normalize_head_nondigit (by decide)]
  have := @implicit_release_concat ['r'] nn 'c' (by decide) (by decide) hnn
  simpa using this

theorem pre_normalize_cap_alpha {s1 s2 nn : List Char}
    (hs1 : s1 = [] ∨ ∃ c, isSep c = true ∧ s1 = [c])
    (hs2 : s2 = [] ∨ ∃ c, isSep c = true ∧ s2 = [c])
    (hnn : ∀ c ∈ nn, isDigit c = true) :
    pre_normalize (s1 ++ "alpha".data ++ s2 ++ nn) = 'a' :: natToChars (digitsToNat nn) := by
  have hne : (s1 ++ "alpha".data ++ s2 ++ nn).isEmpty = false :=
    isEmpty_false_of_mem (x := 'l')
      (by simp [show "alpha".data = ['a', 'l', 'p', 'h', 'a'] from rfl])
  simp only [pre_normalize, hne, Bool.false_eq_true, if_false]
  rw [tripleDel_capture hs1 hs2 (by decide) hnn]
  rw [pyReplace_head_occur "a".data (by decide)]
  rw [pyReplace_skip _ (show 'l' ∈ "alpha".data by decide)
    (not_mem_digits (by decide) hnn) (by decide)]
  rw [pyReplace_skip _ (show 'e' ∈ "beta".data by decide)
    (not_mem_word_digits (by decide) (by decide) hnn) (by decide)]
  rw [if_neg (by simp [show "a".data = ['a'] from rfl])]
  rw [pyReplace_skip _ (show 'v' ∈ "preview".data by decide)
    (not_mem_word_digits (by decide) (by decide) hnn) (by decide)]
  rw [pyReplace_skip _ (show 'p' ∈ "pre".data by decide)
    (not_mem_word_digits (by decide) (by decide) hnn) (by decide)]
  rw [show ("a".data ++ nn) = 'a' :: nn from rfl,
    prefix_normalize_head_nondigit (by decide)]
  have := @implicit_release_concat [] nn 'a' (by decide) (by decide) hnn
  simpa using this

theorem pre_normalize_cap_beta {s1 s2 nn : List Char}
    (hs1 : s1 = [] ∨ ∃ c, isSep c = true ∧ s1 = [c])
    (hs2 : s2 = [] ∨ ∃ c, isSep c = true ∧ s2 = [c])
    (hnn : ∀ c ∈ nn, isDigit c = true) :
    pre_normalize (s1 ++ "beta".data ++ s2 ++ nn) = 'b' :: natToChars (digitsToNat nn) := by
  have hne : (s1 ++ "beta".data ++ s2 ++ nn).isEmpty = false :=
    isEmpty_false_of_mem (x := 'b')
      (by simp [show "beta".data = ['b', 'e', 't', 'a'] from rfl])
  simp only [pre_normalize, hne, Bool.false_eq_true, if_false]
  rw [tripleDel_capture hs1 hs2 (by decide) hnn]
  rw [pyReplace_skip _ (show 'l' ∈ "alpha".data by decide)
    (not_mem_word_digits (by decide) (by decide) hnn) (by decide)]
  rw [pyReplace_head_occur "b".data (by decide)]
  rw [pyReplace_skip _ (show 'e' ∈ "beta".data by decide)
    (not_mem_digits (by decide) hnn) (by decide)]
  rw [if_neg (by simp [show "b".data = ['b'] from rfl])]
  rw [pyReplace_skip _ (show 'v' ∈ "preview".data by decide)
    (not_mem_word_digits (by decide) (by decide) hnn) (by decide)]
  rw [pyReplace_skip _ (show 'p' ∈ "pre".data by decide)
    (not_mem_word_digits (by decide) (by decide) hnn) (by decide)]
  rw [show ("b".data ++ nn) = 'b' :: nn from rfl,
    prefix_normalize_head_nondigit (by decide)]
  have := @implicit_release_concat [] nn 'b' (by decide) (by decide) hnn
  simpa using this

theorem pre_normalize_cap_pre {s1 s2 nn : List Char}
    (hs1 : s1 = [] ∨ ∃ c, isSep c = true ∧ s1 = [c])
    (hs2 : s2 = [] ∨ ∃ c, isSep c = true ∧ s2 = [c])
    (hnn : ∀ c ∈ nn, isDigit c = true) :
    pre_normalize (s1 ++ "pre".data ++ s2 ++ nn) = 'r' :: 'c' :: natToChars (digitsToNat nn) := by
  have hne : (s1 ++ "pre".data ++ s2 ++ nn).isEmpty = false :=
    isEmpty_false_of_mem (x := 'p')
      (by simp [show "pre".data = ['p', 'r', 'e'] from rfl])
  simp only [pre_normalize, hne, Bool.false_eq_true, if_false]
  rw [tripleDel_capture hs1 hs2 (by decide) hnn]
  rw [pyReplace_skip _ (show 'l' ∈ "alpha".data by decide)
    (not_mem_word_digits (by decide) (by decide) hnn) (by decide)]
  rw [pyReplace_skip _ (show 'b' ∈ "beta".data by decide)
    (not_mem_word_digits (by decide) (by decide) hnn) (by decide)]
  rw [if_neg (by simp [show "pre".data = ['p', 'r', 'e'] from rfl])]
  rw [pyReplace_skip _ (show 'v' ∈ "preview".data by decide)
    (not_mem_word_digits (by decide) (by decide) hnn) (by decide)]
  rw [pyReplace_head_occur "rc".data (by decide)]
  rw [pyReplace_skip _ (show 'p' ∈ "pre".data by decide)
    (not_mem_digits (by decide) hnn) (by decide)]
  rw [show ("rc".data ++ nn) = 'r' :: 'c' :: nn from rfl,
    prefix_normalize_head_nondigit (by decide)]
  have := @implicit_release_concat ['r'] nn 'c' (by decide) (by decide) hnn
  simpa using this

theorem pre_normalize_cap_preview {s1 s2 nn : List Char}
    (hs1 : s1 = [] ∨ ∃ c, isSep c = true ∧ s1 = [c])
    (hs2 : s2 = [] ∨ ∃ c, isSep c = true ∧ s2 = [c])
    (hnn : ∀ c ∈ nn, isDigit c = true) :
    pre_normalize (s1 ++ "preview".data ++ s2 ++ nn) =
      'r' :: 'c' :: natToChars (digitsToNat nn) := by
  have hne : (s1 ++ "preview".data ++ s2 ++ nn).isEmpty = false :=
    isEmpty_false_of_mem (x := 'w')
      (by simp [show "preview".data = ['p', 'r', 'e', 'v', 'i', 'e', 'w'] from rfl])
  simp only [pre_normalize, hne, Bool.false_eq_true, if_false]
  rw [tripleDel_capture hs1 hs2 (by decide) hnn]
  rw [pyReplace_skip _ (show 'l' ∈ "alpha".data by decide)
    (not_mem_word_digits (by decide) (by decide) hnn) (by decide)]
  rw [pyReplace_skip _ (show 'b' ∈ "beta".data by decide)
    (not_mem_word_digits (by decide) (by decide) hnn) (by decide)]
  rw [if_neg (by simp [show "preview".data = ['p', 'r', 'e', 'v', 'i', 'e', 'w'] from rfl])]
  rw [pyReplace_head_occur "rc".data (by decide)]
  rw [pyReplace_skip _ (show 'v' ∈ "preview".data by decide)
    (not_mem_digits (by decide) hnn) (by decide)]
  rw [pyReplace_skip _ (show 'p' ∈ "pre".data by decide)
    (not_mem_word_digits (by decide) (by decide) hnn) (by decide)]
  rw [show ("rc".data ++ nn) = 'r' :: 'c' :: nn from rfl,
    prefix_normalize_head_nondigit (by decide)]
  have := @implicit_release_concat ['r'] nn 'c' (by decide) (by decide) hnn
  simpa using this

/-- Any captured pre group normalizes to `a`/`b`/`rc` followed by the
canonical decimal of the captured numeral. -/
theorem pre_normalize_capture {s1 l s2 nn : List Char} (hl : l ∈ preLetters)
    (hs1 : s1 = [] ∨ ∃ c, isSep c = true ∧ s1 = [c])
    (hs2 : s2 = [] ∨ ∃ c, isSep c = true ∧ s2 = [c])
    (hnn : ∀ c ∈ nn, isDigit c = true) :
    ∃ t, (t = "a".data ∨ t = "b".data ∨ t = "rc".data) ∧
      pre_normalize (s1 ++ l ++ s2 ++ nn) = t ++ natToChars (digitsToNat nn) := by
  simp only [preLetters, List.mem_cons, List.not_mem_nil, or_false] at hl
  rcases hl with rfl | rfl | rfl | rfl | rfl | rfl | rfl | rfl
  · exact ⟨"a".data, Or.inl rfl, pre_normalize_cap_a hs1 hs2 hnn⟩
  · exact ⟨"b".data, Or.inr (Or.inl rfl), pre_normalize_cap_b hs1 hs2 hnn⟩
  · exact ⟨"rc".data, Or.inr (Or.inr rfl), pre_normalize_cap_c hs1 hs2 hnn⟩
  · exact ⟨"rc".data, Or.inr (Or.inr rfl), pre_normalize_cap_rc hs1 hs2 hnn⟩
  · exact ⟨"a".data, Or.inl rfl, pre_normalize_cap_alpha hs1 hs2 hnn⟩
  · exact ⟨"b".data, Or.inr (Or.inl rfl), pre_normalize_cap_beta hs1 hs2 hnn⟩
  · exact ⟨"rc".data, Or.inr (Or.inr rfl), pre_normalize_cap_pre hs1 hs2 hnn⟩
  · exact ⟨"rc".data, Or.inr (Or.inr rfl), pre_normalize_cap_preview hs1 hs2 hnn⟩

/-! ## Lemmas: the post and dev normalizers on captured groups -/

theorem post_normalize_cap_alt1 {nn : List Char} (hnn : ∀ c ∈ nn, isDigit c = true) :
    post_normalize ('-' :: nn) = ".post".data ++ natToChars (digitsToNat nn) := by
  simp only [post_normalize, List.isEmpty_cons, Bool.false_eq_true, if_false]
  rw [show (if isSep '-' = true then nn else '-' :: nn) = nn from by simp [isSep]]
  rw [tripleDel_eq_filter, filter_sep_free fun c hc => isSep_false_of_isDigit (hnn c hc)]
  rw [pyReplace_skip _ (show 'r' ∈ "rev".data by decide)
    (not_mem_digits (by decide) hnn) (by decide)]
  rw [pyReplace_skip _ (show 'r' ∈ "r".data by decide)
    (not_mem_digits (by decide) hnn) (by decide)]
  rw [prefix_normalize_all_digits hnn]
  rw [show ("post".data ++ nn) = (['p', 'o', 's'] ++ ['t']) ++ nn from rfl,
    @implicit_release_concat ['p', 'o', 's'] nn 't' (by decide) (by decide) hnn]
  simp

/-- The second post alternative (`sep? (post|rev|r) sep? digits?`), for
each of the three spellings. -/
theorem post_normalize_cap_post {s1 s2 nn : List Char}
    (hs1 : s1 = [] ∨ ∃ c, isSep c = true ∧ s1 = [c])
    (hs2 : s2 = [] ∨ ∃ c, isSep c = true ∧ s2 = [c])
    (hnn : ∀ c ∈ nn, isDigit c = true) :
    post_normalize (s1 ++ "post".data ++ s2 ++ nn) =
      ".post".data ++ natToChars (digitsToNat nn) := by
  have hne : (s1 ++ "post".data ++ s2 ++ nn).isEmpty = false :=
    isEmpty_false_of_mem (x := 'p')
      (by simp [show "post".data = ['p', 'o', 's', 't'] from rfl])
  simp only [post_normalize, hne, Bool.false_eq_true, if_false]
  have hdrop :
      (match s1 ++ "post".data ++ s2 ++ nn with
        | c :: rest => if isSep c = true then rest else s1 ++ "post".data ++ s2 ++ nn
        | [] => s1 ++ "post".data ++ s2 ++ nn) = [] ++ "post".data ++ s2 ++ nn := by
    rcases hs1 with rfl | ⟨c, hc, rfl⟩
    · simp only [List.nil_append]
      rw [show ("post".data ++ s2 ++ nn : List Char) = 'p' :: ("ost".data ++ s2 ++ nn) from by
        simp [show "post".data = ['p', 'o', 's', 't'] from rfl,
          show "ost".data = ['o', 's', 't'] from rfl]]
      simp [isSep]
    · rw [show (([c] ++ "post".data ++ s2 ++ nn : List Char)) =
        c :: ("post".data ++ s2 ++ nn) from by simp]
      simp [hc]
  rw [hdrop]
  rw [tripleDel_capture (Or.inl rfl) hs2 (by decide) hnn]
  rw [pyReplace_skip _ (show 'v' ∈ "rev".data by decide)
    (not_mem_word_digits (by decide) (by decide) hnn) (by decide)]
  rw [pyReplace_skip _ (show 'r' ∈ "r".data by decide)
    (not_mem_word_digits (by decide) (by decide) hnn) (by decide)]
  rw [show ("post".data ++ nn) = 'p' :: ("ost".data ++ nn) from rfl,
    prefix_normalize_head_nondigit (by decide)]
  rw [show ('p' :: ("ost".data ++ nn) : List Char) = (['p', 'o', 's'] ++ ['t']) ++ nn from by
    simp [show "ost".data = ['o', 's', 't'] from rfl],
    @implicit_release_concat ['p', 'o', 's'] nn 't' (by decide) (by decide) hnn]
  simp

theorem post_normalize_cap_rev {s1 s2 nn : List Char}
    (hs1 : s1 = [] ∨ ∃ c, isSep c = true ∧ s1 = [c])
    (hs2 : s2 = [] ∨ ∃ c, isSep c = true ∧ s2 = [c])
    (hnn : ∀ c ∈ nn, isDigit c = true) :
    post_normalize (s1 ++ "rev".data ++ s2 ++ nn) =
      ".post".data ++ natToChars (digitsToNat nn) := by
  have hne : (s1 ++ "rev".data ++ s2 ++ nn).isEmpty = false :=
    isEmpty_false_of_mem (x := 'v')
      (by simp [show "rev".data = ['r', 'e', 'v'] from rfl])
  simp only [post_normalize, hne, Bool.false_eq_true, if_false]
  have hdrop :
      (match s1 ++ "rev".data ++ s2 ++ nn with
        | c :: rest => if isSep c = true then rest else s1 ++ "rev".data ++ s2 ++ nn
        | [] => s1 ++ "rev".data ++ s2 ++ nn) = [] ++ "rev".data ++ s2 ++ nn := by
    rcases hs1 with rfl | ⟨c, hc, rfl⟩
    · simp only [List.nil_append]
      rw [show ("rev".data ++ s2 ++ nn : List Char) = 'r' :: ("ev".data ++ s2 ++ nn) from by
        simp [show "rev".data = ['r', 'e', 'v'] from rfl,
          show "ev".data = ['e', 'v'] from rfl]]
      simp [isSep]
    · rw [show (([c] ++ "rev".data ++ s2 ++ nn : List Char)) =
        c :: ("rev".data ++ s2 ++ nn) from by simp]
      simp [hc]
  rw [hdrop]
  rw [tripleDel_capture (Or.inl rfl) hs2 (by decide) hnn]
  rw [pyReplace_head_occur "post".data (by decide)]
  rw [pyReplace_skip _ (show 'r' ∈ "rev".data by decide)
    (not_mem_digits (by decide) hnn) (by decide)]
  rw [pyReplace_skip _ (show 'r' ∈ "r".data by decide)
    (not_mem_word_digits (by decide) (by decide) hnn) (by decide)]
  rw [show ("post".data ++ nn) = 'p' :: ("ost".data ++ nn) from rfl,
    prefix_normalize_head_nondigit (by decide)]
  rw [show ('p' :: ("ost".data ++ nn) : List Char) = (['p', 'o', 's'] ++ ['t']) ++ nn from by
    simp [show "ost".data = ['o', 's', 't'] from rfl],
    @implicit_release_concat ['p', 'o', 's'] nn 't' (by decide) (by decide) hnn]
  simp

theorem post_normalize_cap_r {s1 s2 nn : List Char}
    (hs1 : s1 = [] ∨ ∃ c, isSep c = true ∧ s1 = [c])
    (hs2 : s2 = [] ∨ ∃ c, isSep c = true ∧ s2 = [c])
    (hnn : ∀ c ∈ nn, isDigit c = true) :
    post_normalize (s1 ++ "r".data ++ s2 ++ nn) =
      ".post".data ++ natToChars (digitsToNat nn) := by
  have hne : (s1 ++ "r".data ++ s2 ++ nn).isEmpty = false :=
    isEmpty_false_of_mem (x := 'r') (by simp [show "r".data = ['r'] from rfl])
  simp only [post_normalize, hne, Bool.false_eq_true, if_false]
  have hdrop :
      (match s1 ++ "r".data ++ s2 ++ nn with
        | c :: rest => if isSep c = true then rest else s1 ++ "r".data ++ s2 ++ nn
        | [] => s1 ++ "r".data ++ s2 ++ nn) = [] ++ "r".data ++ s2 ++ nn := by
    rcases hs1 with rfl | ⟨c, hc, rfl⟩
    · simp only [List.nil_append]
      rw [show ("r".data ++ s2 ++ nn : List Char) = 'r' :: (s2 ++ nn) from by
        simp [show "r".data = ['r'] from rfl]]
      simp [isSep]
    · rw [show (([c] ++ "r".data ++ s2 ++ nn : List Char)) =
        c :: ("r".data ++ s2 ++ nn) from by simp]
      simp [hc]
  rw [hdrop]
  rw [tripleDel_capture (Or.inl rfl) hs2 (by decide) hnn]
  rw [pyReplace_skip _ (show 'e' ∈ "rev".data by decide)
    (not_mem_word_digits (by decide) (by decide) hnn) (by decide)]
  rw [pyReplace_head_occur "post".data (by decide)]
  rw [pyReplace_skip _ (show 'r' ∈ "r".data by decide)
    (not_mem_digits (by decide) hnn) (by decide)]
  rw [show ("post".data ++ nn) = 'p' :: ("ost".data ++ nn) from rfl,
    prefix_normalize_head_nondigit (by decide)]
  rw [show ('p' :: ("ost".data ++ nn) : List Char) = (['p', 'o', 's'] ++ ['t']) ++ nn from by
    simp [show "ost".data = ['o', 's', 't'] from rfl],
    @implicit_release_concat ['p', 'o', 's'] nn 't' (by decide) (by decide) hnn]
  simp

theorem dev_normalize_cap {s1 s2 nn : List Char}
    (hs1 : s1 = [] ∨ ∃ c, isSep c = true ∧ s1 = [c])
    (hs2 : s2 = [] ∨ ∃ c, isSep c = true ∧ s2 = [c])
    (hnn : ∀ c ∈ nn, isDigit c = true) :
    dev_normalize (s1 ++ "dev".data ++ s2 ++ nn) =
      ".dev".data ++ natToChars (digitsToNat nn) := by
  have hne : (s1 ++ "dev".data ++ s2 ++ nn).isEmpty = false :=
    isEmpty_false_of_mem (x := 'd')
      (by simp [show "dev".data = ['d', 'e', 'v'] from rfl])
  simp only [dev_normalize, hne, Bool.false_eq_true, if_false]
  have hdrop :
      (match s1 ++ "dev".data ++ s2 ++ nn with
        | c :: rest => if isSep c = true then rest else s1 ++ "dev".data ++ s2 ++ nn
        | [] => s1 ++ "dev".data ++ s2 ++ nn) = [] ++ "dev".data ++ s2 ++ nn := by
    rcases hs1 with rfl | ⟨c, hc, rfl⟩
    · simp only [List.nil_append]
      rw [show ("dev".data ++ s2 ++ nn : List Char) = 'd' :: ("ev".data ++ s2 ++ nn) from by
        simp [show "dev".data = ['d', 'e', 'v'] from rfl,
          show "ev".data = ['e', 'v'] from rfl]]
      simp [isSep]
    · rw [show (([c] ++ "dev".data ++ s2 ++ nn : List Char)) =
        c :: ("dev".data ++ s2 ++ nn) from by simp]
      simp [hc]
  rw [hdrop]
  rw [tripleDel_capture (Or.inl rfl) hs2 (by decide) hnn]
  rw [show ("dev".data ++ nn) = 'd' :: ("ev".data ++ nn) from rfl,
    prefix_normalize_head_nondigit (by decide)]
  rw [show ('d' :: ("ev".data ++ nn) : List Char) = (['d', 'e'] ++ ['v']) ++ nn from by
    simp [show "ev".data = ['e', 'v'] from rfl],
    @implicit_release_concat ['d', 'e'] nn 'v' (by decide) (by decide) hnn]
  simp

/-! ## Lemmas: the local normalizer and the greedy local matcher -/

theorem mem_takeWhile {p : Char → Bool} :
    ∀ {cs : List Char} {c : Char}, c ∈ cs.takeWhile p → p c = true := by
  intro cs
  induction cs with
  | nil => intro c h; cases h
  | cons x r ih =>
    intro c h
    rw [List.takeWhile_cons] at h
    by_cases hx : p x = true
    · rw [if_pos hx] at h
      rcases List.mem_cons.mp h with rfl | h
      · exact hx
      · exact ih h
    · rw [if_neg hx] at h
      cases h

theorem takeWhile_all {p : Char → Bool} {cs : List Char} (h : ∀ c ∈ cs, p c = true) :
    cs.takeWhile p = cs := by
  have := @takeWhile_append_all p cs [] h
  simpa using this

theorem dropWhile_all {p : Char → Bool} {cs : List Char} (h : ∀ c ∈ cs, p c = true) :
    cs.dropWhile p = [] := by
  have := @dropWhile_append_all p cs [] h
  simpa using this

theorem sigma_alnum {c : Char} (h : isAlnum c = true) :
    (if c = '-' then '.' else if c = '_' then '.' else c) = c := by
  have d1 : c ≠ '-' := fun e => by rw [e] at h; exact absurd h (by decide)
  have d2 : c ≠ '_' := fun e => by rw [e] at h; exact absurd h (by decide)
  simp [d1, d2]

theorem sigma_sep {c : Char} (h : isSep c = true) :
    (if c = '-' then '.' else if c = '_' then '.' else c) = '.' := by
  simp only [isSep, Bool.or_eq_true, decide_eq_true_iff] at h
  rcases h with (rfl | rfl) | rfl <;> simp

theorem local_normalize_eq_map (cs : List Char) :
    local_normalize cs = cs.map fun c => if c = '-' then '.' else if c = '_' then '.' else c := by
  by_cases h : cs.isEmpty = true
  · rw [List.isEmpty_iff] at h
    subst h
    rfl
  · simp only [local_normalize, if_neg h]
    show pyReplace (pyReplace cs ['-'] ['.']) ['_'] ['.'] = _
    rw [pyReplace_swap_eq_map, pyReplace_swap_eq_map, List.map_map]
    apply List.map_congr_left
    intro c _
    by_cases h1 : c = '-' <;> by_cases h2 : c = '_' <;> simp_all

theorem map_sigma_run {q : List Char} (hq : ∀ c ∈ q, isAlnum c = true) :
    (q.map fun c => if c = '-' then '.' else if c = '_' then '.' else c) = q := by
  induction q with
  | nil => rfl
  | cons c r ih =>
    rw [List.map_cons, sigma_alnum (hq c (List.mem_cons_self c r))]
    rw [ih fun x hx => hq x (List.mem_cons_of_mem c hx)]

theorem map_sigma_rawTail {prs : List (Char × List Char)}
    (h : ∀ p ∈ prs, isSep p.1 = true ∧ goodRun p.2) :
    ((rawTail prs).map fun c => if c = '-' then '.' else if c = '_' then '.' else c) =
      dotTail (prs.map Prod.snd) := by
  induction prs with
  | nil => rfl
  | cons p prs ih =>
    obtain ⟨hsep, _, halnum⟩ := h p (List.mem_cons_self p prs)
    have hrest := ih fun x hx => h x (List.mem_cons_of_mem p hx)
    show ((p.1 :: p.2 ++ rawTail prs).map _) = ('.' :: p.2) ++ dotTail (prs.map Prod.snd)
    rw [List.map_append, List.map_cons, sigma_sep hsep, map_sigma_run halnum, hrest]

theorem localRuns_shape :
    ∀ (f : Nat) (cs more rem : List Char), localRuns f cs = (more, rem) →
      ∃ prs, (∀ p ∈ prs, isSep p.1 = true ∧ goodRun p.2) ∧ more = rawTail prs := by
  intro f
  induction f with
  | zero =>
    intro cs more rem h
    simp only [localRuns, Prod.mk.injEq] at h
    exact ⟨[], by simp, by rw [← h.1]; rfl⟩
  | succ f ih =>
    intro cs more rem h
    cases cs with
    | nil =>
      simp only [localRuns, Prod.mk.injEq] at h
      exact ⟨[], by simp, by rw [← h.1]; rfl⟩
    | cons c rest =>
      simp only [localRuns] at h
      by_cases hsep : isSep c = true
      · rw [if_pos hsep] at h
        by_cases hrun : (rest.takeWhile isAlnum).isEmpty = true
        · rw [if_pos hrun] at h
          simp only [Prod.mk.injEq] at h
          exact ⟨[], by simp, by rw [← h.1]; rfl⟩
        · rw [if_neg hrun] at h
          rcases hL : localRuns f (rest.dropWhile isAlnum) with ⟨more', rem'⟩
          rw [hL] at h
          simp only [Prod.mk.injEq] at h
          obtain ⟨prs', hprs', hmore'⟩ := ih _ more' rem' hL
          refine ⟨(c, rest.takeWhile isAlnum) :: prs', ?_, ?_⟩
          · intro p hp
            rcases List.mem_cons.mp hp with rfl | hp
            · refine ⟨hsep, ?_, fun x hx' => mem_takeWhile hx'⟩
              intro e
              apply hrun
              have e' : rest.takeWhile isAlnum = [] := e
              rw [e']
              rfl
            · exact hprs' p hp
          · rw [← h.1, hmore']
            simp [rawTail]
      · rw [if_neg hsep] at h
        simp only [Prod.mk.injEq] at h
        exact ⟨[], by simp, by rw [← h.1]; rfl⟩

theorem greedyLocal_shape {cs cap rem : List Char} (h : greedyLocal cs = some (cap, rem)) :
    ∃ r0 prs, goodRun r0 ∧ (∀ p ∈ prs, isSep p.1 = true ∧ goodRun p.2) ∧
      cap = r0 ++ rawTail prs := by
  simp only [greedyLocal] at h
  by_cases hrun : (cs.takeWhile isAlnum).isEmpty = true
  · rw [if_pos hrun] at h
    cases h
  · rw [if_neg hrun] at h
    rcases hL : localRuns cs.length (cs.dropWhile isAlnum) with ⟨more', rem'⟩
    rw [hL] at h
    simp only [Option.some.injEq, Prod.mk.injEq] at h
    obtain ⟨prs, hprs, hmore⟩ := localRuns_shape _ _ _ _ hL
    refine ⟨cs.takeWhile isAlnum, prs, ?_, hprs, ?_⟩
    · exact ⟨fun e => hrun (by rw [e]; rfl), fun x hx' => mem_takeWhile hx'⟩
    · rw [← h.1, hmore]

theorem localRuns_dots :
    ∀ (f : Nat) (rs : List (List Char)), (dotTail rs).length ≤ f →
      (∀ q ∈ rs, goodRun q) → localRuns f (dotTail rs) = (dotTail rs, []) := by
  intro f
  induction f with
  | zero =>
    intro rs hlen _
    cases rs with
    | nil => rfl
    | cons q rs =>
      exfalso
      simp [dotTail, List.flatMap_cons] at hlen
  | succ f ih =>
    intro rs hlen hrs
    cases rs with
    | nil => rfl
    | cons q rs =>
      obtain ⟨hqne, hq⟩ := hrs q (List.mem_cons_self q rs)
      have hshape : dotTail (q :: rs) = '.' :: (q ++ dotTail rs) := by
        simp [dotTail, List.flatMap_cons]
      rw [hshape]
      have htake : (q ++ dotTail rs).takeWhile isAlnum = q := by
        rw [takeWhile_append_all hq]
        cases hd : dotTail rs with
        | nil => simp
        | cons d rest =>
          have hdd : d = '.' := by
            cases rs with
            | nil => simp [dotTail] at hd
            | cons q' rs' =>
              simp only [dotTail, List.flatMap_cons, List.cons_append] at hd
              exact (List.cons.injEq _ _ _ _ ▸ hd).1.symm
          rw [hdd, takeWhile_head_false (by decide)]
          simp
      have hdrop : (q ++ dotTail rs).dropWhile isAlnum = dotTail rs := by
        rw [dropWhile_append_all hq]
        cases hd : dotTail rs with
        | nil => simp
        | cons d rest =>
          have hdd : d = '.' := by
            cases rs with
            | nil => simp [dotTail] at hd
            | cons q' rs' =>
              simp only [dotTail, List.flatMap_cons, List.cons_append] at hd
              exact (List.cons.injEq _ _ _ _ ▸ hd).1.symm
          rw [hdd, dropWhile_head_false (by decide)]
      simp only [localRuns, if_pos (show isSep '.' = true by decide)]
      rw [htake, hdrop]
      rw [if_neg (by simp [List.isEmpty_iff, hqne])]
      have hlen' : (dotTail rs).length ≤ f := by
        rw [hshape] at hlen
        simp only [List.length_cons, List.length_append] at hlen
        omega
      rw [ih rs hlen' fun x hx => hrs x (List.mem_cons_of_mem q hx)]

theorem greedyLocal_norm {r0 : List Char} {rs : List (List Char)}
    (h0 : goodRun r0) (hrs : ∀ q ∈ rs, goodRun q) :
    greedyLocal (r0 ++ dotTail rs) = some (r0 ++ dotTail rs, []) := by
  obtain ⟨h0ne, h0a⟩ := h0
  have htake : (r0 ++ dotTail rs).takeWhile isAlnum = r0 := by
    rw [takeWhile_append_all h0a]
    cases hd : dotTail rs with
    | nil => simp
    | cons d rest =>
      have hdd : d = '.' := by
        cases rs with
        | nil => simp [dotTail] at hd
        | cons q' rs' =>
          simp only [dotTail, List.flatMap_cons, List.cons_append] at hd
          exact (List.cons.injEq _ _ _ _ ▸ hd).1.symm
      rw [hdd, takeWhile_head_false (by decide)]
      simp
  have hdrop : (r0 ++ dotTail rs).dropWhile isAlnum = dotTail rs := by
    rw [dropWhile_append_all h0a]
    cases hd : dotTail rs with
    | nil => simp
    | cons d rest =>
      have hdd : d = '.' := by
        cases rs with
        | nil => simp [dotTail] at hd
        | cons q' rs' =>
          simp only [dotTail, List.flatMap_cons, List.cons_append] at hd
          exact (List.cons.injEq _ _ _ _ ▸ hd).1.symm
      rw [hdd, dropWhile_head_false (by decide)]
  simp only [greedyLocal, htake, hdrop]
  rw [if_neg (by simp [List.isEmpty_iff, h0ne])]
  rw [localRuns_dots _ rs (by simp [List.length_append]) hrs]

theorem map_sigma_dotTail {rs : List (List Char)} (hrs : ∀ q ∈ rs, goodRun q) :
    ((dotTail rs).map fun c => if c = '-' then '.' else if c = '_' then '.' else c) =
      dotTail rs := by
  induction rs with
  | nil => rfl
  | cons q rs ih =>
    have hrest := ih fun x hx => hrs x (List.mem_cons_of_mem q hx)
    show ((('.' :: q) ++ dotTail rs).map _) = ('.' :: q) ++ dotTail rs
    rw [List.map_append, List.map_cons, map_sigma_run (hrs q (List.mem_cons_self q rs)).2,
      hrest]
    rfl

theorem local_normalize_norm {r0 : List Char} {rs : List (List Char)}
    (h0 : goodRun r0) (hrs : ∀ q ∈ rs, goodRun q) :
    local_normalize (r0 ++ dotTail rs) = r0 ++ dotTail rs := by
  rw [local_normalize_eq_map, List.map_append, map_sigma_run h0.2, map_sigma_dotTail hrs]

theorem local_normalize_raw {r0 : List Char} {prs : List (Char × List Char)}
    (h0 : goodRun r0) (hprs : ∀ p ∈ prs, isSep p.1 = true ∧ goodRun p.2) :
    local_normalize (r0 ++ rawTail prs) = r0 ++ dotTail (prs.map Prod.snd) := by
  rw [local_normalize_eq_map, List.map_append, map_sigma_run h0.2, map_sigma_rawTail hprs]

theorem localEnd_none : localEnd [] = some [] := rfl

theorem localEnd_plus {rest : List Char} :
    localEnd ('+' :: rest) =
      match greedyLocal rest with
      | some (cap, rem) => if rem.all isWS then some cap else none
      | none => none := rfl

theorem localEnd_shape {cs lcap : List Char} (h : localEnd cs = some lcap) :
    lcap = [] ∨ ∃ r0 prs, goodRun r0 ∧ (∀ p ∈ prs, isSep p.1 = true ∧ goodRun p.2) ∧
      lcap = r0 ++ rawTail prs := by
  unfold localEnd at h
  split at h
  · rename_i rest
    rcases hg : greedyLocal rest with _ | ⟨cap, rem⟩ <;> rw [hg] at h <;> dsimp only at h
    · cases h
    · by_cases hw : rem.all isWS = true
      · rw [if_pos hw] at h
        right
        obtain ⟨r0, prs, h1, h2, h3⟩ := greedyLocal_shape hg
        exact ⟨r0, prs, h1, h2, by rw [← (Option.some.injEq _ _).mp h]; exact h3⟩
      · rw [if_neg hw] at h
        cases h
  · split at h
    · left
      exact ((Option.some.injEq _ _).mp h).symm
    · cases h

theorem localEnd_roundtrip {lp : List Char} (hsh : lp = [] ∨ LocalShape lp) :
    localEnd (if lp.isEmpty then [] else '+' :: lp) = some lp := by
  rcases hsh with rfl | ⟨r0, rs, h0, hrs, rfl⟩
  · rfl
  · have hne : (r0 ++ dotTail rs).isEmpty = false := by
      cases r0 with
      | nil => exact absurd rfl h0.1
      | cons _ _ => rfl
    rw [hne]
    show localEnd ('+' :: (r0 ++ dotTail rs)) = _
    rw [localEnd_plus, greedyLocal_norm h0 hrs]
    rfl

/-! ## Lemmas: the candidate lists of the regex groups -/

theorem firstSome_cons_some {α β : Type} {f : α → Option β} {a : α} {as : List α} {b : β}
    (h : f a = some b) : firstSome (a :: as) f = some b := by
  simp [firstSome, h]

theorem firstSome_mem {α β : Type} {f : α → Option β} :
    ∀ {l : List α} {b : β}, firstSome l f = some b → ∃ a ∈ l, f a = some b := by
  intro l
  induction l with
  | nil => intro b h; cases h
  | cons a as ih =>
    intro b h
    cases hfa : f a with
    | some b' =>
      simp only [firstSome, hfa] at h
      exact ⟨a, List.mem_cons_self a as, by rw [hfa, h]⟩
    | none =>
      simp only [firstSome, hfa] at h
      obtain ⟨x, hx, hfx⟩ := ih h
      exact ⟨x, List.mem_cons_of_mem a hx, hfx⟩

theorem sepCands_nil : sepCands [] = [([], [])] := rfl

theorem sepCands_not_sep {c : Char} {cs : List Char} (h : isSep c = false) :
    sepCands (c :: cs) = [([], c :: cs)] := by
  simp [sepCands, h]

theorem sepCands_sep {c : Char} {cs : List Char} (h : isSep c = true) :
    sepCands (c :: cs) = [([c], cs), ([], c :: cs)] := by
  simp [sepCands, h]

theorem sepCands_shape {cs : List Char} {s rest : List Char}
    (h : (s, rest) ∈ sepCands cs) :
    (s = [] ∧ rest = cs) ∨ ∃ c, isSep c = true ∧ s = [c] := by
  simp only [sepCands, List.mem_append, List.mem_singleton] at h
  rcases h with h | h
  · split at h
    · rename_i c r
      by_cases hc : isSep c = true
      · rw [if_pos hc] at h
        simp only [List.mem_singleton, Prod.mk.injEq] at h
        exact Or.inr ⟨c, hc, h.1⟩
      · rw [if_neg hc] at h
        cases h
    · cases h
  · simp only [Prod.mk.injEq] at h
    exact Or.inl ⟨h.1, h.2⟩

theorem wordCands_shape {words : List (List Char)} {cs l rest : List Char}
    (h : (l, rest) ∈ wordCands words cs) :
    l ∈ words ∧ l.isPrefixOf cs = true ∧ rest = cs.drop l.length := by
  simp only [wordCands, List.mem_filterMap] at h
  obtain ⟨w, hw, hres⟩ := h
  by_cases hp : w.isPrefixOf cs = true
  · rw [if_pos hp] at hres
    simp only [Option.some.injEq, Prod.mk.injEq] at hres
    obtain ⟨rfl, rfl⟩ := hres
    exact ⟨hw, hp, rfl⟩
  · rw [if_neg (by simpa using hp)] at hres
    cases hres

theorem numCandsNE_shape {cs nn rest : List Char} (h : (nn, rest) ∈ numCandsNE cs) :
    ∀ c ∈ nn, isDigit c = true := by
  simp only [numCandsNE, List.mem_map, List.mem_range] at h
  obtain ⟨i, _, hres⟩ := h
  simp only [Prod.mk.injEq] at hres
  intro c hc
  rw [← hres.1] at hc
  exact mem_takeWhile (List.take_subset _ _ hc)

theorem numCands_shape {cs nn rest : List Char} (h : (nn, rest) ∈ numCands cs) :
    ∀ c ∈ nn, isDigit c = true := by
  simp only [numCands, List.mem_append, List.mem_singleton] at h
  rcases h with h | h
  · exact numCandsNE_shape h
  · simp only [Prod.mk.injEq] at h
    intro c hc
    rw [h.1] at hc
    cases hc

theorem preCands_shape {cs cap rest : List Char} (h : (cap, rest) ∈ preCands cs) :
    cap = [] ∨ ∃ s1 l s2 nn, cap = s1 ++ l ++ s2 ++ nn ∧ l ∈ preLetters ∧
      (s1 = [] ∨ ∃ c, isSep c = true ∧ s1 = [c]) ∧
      (s2 = [] ∨ ∃ c, isSep c = true ∧ s2 = [c]) ∧ (∀ c ∈ nn, isDigit c = true) := by
  simp only [preCands, List.mem_append, List.mem_singleton] at h
  rcases h with h | h
  · right
    simp only [List.mem_flatMap, List.mem_map] at h
    obtain ⟨s1c, hs1, lc, hl, s2c, hs2, nc, hn, hres⟩ := h
    simp only [Prod.mk.injEq] at hres
    obtain ⟨hw1, hw2, _⟩ := wordCands_shape hl
    refine ⟨s1c.1, lc.1, s2c.1, nc.1, hres.1.symm, hw1, ?_, ?_, numCands_shape hn⟩
    · rcases sepCands_shape (by exact hs1) with ⟨he, _⟩ | hc
      · exact Or.inl he
      · exact Or.inr hc
    · rcases sepCands_shape (by exact hs2) with ⟨he, _⟩ | hc
      · exact Or.inl he
      · exact Or.inr hc
  · simp only [Prod.mk.injEq] at h
    exact Or.inl h.1

theorem postCands_shape {cs cap rest : List Char} (h : (cap, rest) ∈ postCands cs) :
    cap = [] ∨ (∃ nn, cap = '-' :: nn ∧ ∀ c ∈ nn, isDigit c = true) ∨
      ∃ s1 l s2 nn, cap = s1 ++ l ++ s2 ++ nn ∧ l ∈ postLetters ∧
        (s1 = [] ∨ ∃ c, isSep c = true ∧ s1 = [c]) ∧
        (s2 = [] ∨ ∃ c, isSep c = true ∧ s2 = [c]) ∧ (∀ c ∈ nn, isDigit c = true) := by
  simp only [postCands, List.mem_append, List.mem_singleton] at h
  rcases h with (h | h) | h
  · right; left
    split at h
    · simp only [List.mem_map] at h
      obtain ⟨nc, hn, hres⟩ := h
      simp only [Prod.mk.injEq] at hres
      exact ⟨nc.1, hres.1.symm, numCandsNE_shape hn⟩
    · cases h
  · right; right
    simp only [List.mem_flatMap, List.mem_map] at h
    obtain ⟨s1c, hs1, lc, hl, s2c, hs2, nc, hn, hres⟩ := h
    simp only [Prod.mk.injEq] at hres
    obtain ⟨hw1, _, _⟩ := wordCands_shape hl
    refine ⟨s1c.1, lc.1, s2c.1, nc.1, hres.1.symm, hw1, ?_, ?_, numCands_shape hn⟩
    · rcases sepCands_shape (by exact hs1) with ⟨he, _⟩ | hc
      · exact Or.inl he
      · exact Or.inr hc
    · rcases sepCands_shape (by exact hs2) with ⟨he, _⟩ | hc
      · exact Or.inl he
      · exact Or.inr hc
  · simp only [Prod.mk.injEq] at h
    exact Or.inl h.1

theorem devCands_shape {cs cap rest : List Char} (h : (cap, rest) ∈ devCands cs) :
    cap = [] ∨ ∃ s1 s2 nn, cap = s1 ++ "dev".data ++ s2 ++ nn ∧
      (s1 = [] ∨ ∃ c, isSep c = true ∧ s1 = [c]) ∧
      (s2 = [] ∨ ∃ c, isSep c = true ∧ s2 = [c]) ∧ (∀ c ∈ nn, isDigit c = true) := by
  simp only [devCands, List.mem_append, List.mem_singleton] at h
  rcases h with h | h
  · right
    simp only [List.mem_flatMap, List.mem_map] at h
    obtain ⟨s1c, hs1, lc, hl, s2c, hs2, nc, hn, hres⟩ := h
    simp only [Prod.mk.injEq] at hres
    obtain ⟨hw1, _, _⟩ := wordCands_shape hl
    have hlc : lc.1 = "dev".data := by
      simpa using hw1
    refine ⟨s1c.1, s2c.1, nc.1, by rw [← hlc]; exact hres.1.symm, ?_, ?_, numCands_shape hn⟩
    · rcases sepCands_shape (by exact hs1) with ⟨he, _⟩ | hc
      · exact Or.inl he
      · exact Or.inr hc
    · rcases sepCands_shape (by exact hs2) with ⟨he, _⟩ | hc
      · exact Or.inl he
      · exact Or.inr hc
  · simp only [Prod.mk.injEq] at h
    exact Or.inl h.1

/-! ## The parse invariant -/

theorem pre_normalize_shape {cap rest cs : List Char} (h : (cap, rest) ∈ preCands cs) :
    pre_normalize cap = [] ∨ ∃ t n, (t = "a".data ∨ t = "b".data ∨ t = "rc".data) ∧
      pre_normalize cap = t ++ natToChars n := by
  rcases preCands_shape h with rfl | ⟨s1, l, s2, nn, rfl, hl, hs1, hs2, hnn⟩
  · exact Or.inl rfl
  · obtain ⟨t, ht, heq⟩ := pre_normalize_capture hl hs1 hs2 hnn
    exact Or.inr ⟨t, digitsToNat nn, ht, heq⟩

theorem post_normalize_shape {cap rest cs : List Char} (h : (cap, rest) ∈ postCands cs) :
    post_normalize cap = [] ∨ ∃ n, post_normalize cap = ".post".data ++ natToChars n := by
  rcases postCands_shape h with rfl | ⟨nn, rfl, hnn⟩ | ⟨s1, l, s2, nn, rfl, hl, hs1, hs2, hnn⟩
  · exact Or.inl rfl
  · exact Or.inr ⟨digitsToNat nn, post_normalize_cap_alt1 hnn⟩
  · simp only [postLetters, List.mem_cons, List.not_mem_nil, or_false] at hl
    rcases hl with rfl | rfl | rfl
    · exact Or.inr ⟨digitsToNat nn, post_normalize_cap_post hs1 hs2 hnn⟩
    · exact Or.inr ⟨digitsToNat nn, post_normalize_cap_rev hs1 hs2 hnn⟩
    · exact Or.inr ⟨digitsToNat nn, post_normalize_cap_r hs1 hs2 hnn⟩

theorem dev_normalize_shape {cap rest cs : List Char} (h : (cap, rest) ∈ devCands cs) :
    dev_normalize cap = [] ∨ ∃ n, dev_normalize cap = ".dev".data ++ natToChars n := by
  rcases devCands_shape h with rfl | ⟨s1, s2, nn, rfl, hs1, hs2, hnn⟩
  · exact Or.inl rfl
  · exact Or.inr ⟨digitsToNat nn, dev_normalize_cap hs1 hs2 hnn⟩

theorem local_normalize_shape {cap : List Char}
    (h : cap = [] ∨ ∃ r0 prs, goodRun r0 ∧ (∀ p ∈ prs, isSep p.1 = true ∧ goodRun p.2) ∧
      cap = r0 ++ rawTail prs) :
    local_normalize cap = [] ∨ LocalShape (local_normalize cap) := by
  rcases h with rfl | ⟨r0, prs, h0, hprs, rfl⟩
  · exact Or.inl rfl
  · right
    rw [local_normalize_raw h0 hprs]
    refine ⟨r0, prs.map Prod.snd, h0, ?_, rfl⟩
    intro q hq
    obtain ⟨p, hp, rfl⟩ := List.mem_map.mp hq
    exact (hprs p hp).2

/-- A successful `tailSearch` pins the epoch/release captures and yields
group captures drawn from the candidate lists. -/
theorem tailSearch_some {ecap : List Char} {comps : List (List Char)} {cs3 : List Char}
    {caps : Caps} (h : tailSearch ecap comps cs3 = some caps) :
    caps.epoch = ecap ∧ caps.release = comps ∧
      (∃ rest in3, (caps.pre, rest) ∈ preCands in3) ∧
      (∃ rest in3, (caps.post, rest) ∈ postCands in3) ∧
      (∃ rest in3, (caps.dev, rest) ∈ devCands in3) ∧
      (∃ inL, localEnd inL = some caps.localCap) := by
  obtain ⟨pc, hpc, h2⟩ := firstSome_mem h
  obtain ⟨poc, hpoc, h3⟩ := firstSome_mem h2
  obtain ⟨dc, hdc, h4⟩ := firstSome_mem h3
  cases hle : localEnd dc.2 with
  | none => rw [hle] at h4; cases h4
  | some lcap =>
    rw [hle] at h4
    dsimp only at h4
    have hcaps : caps = ⟨ecap, comps, pc.1, poc.1, dc.1, lcap⟩ :=
      ((Option.some.injEq _ _).mp h4).symm
    subst hcaps
    exact ⟨rfl, rfl, ⟨pc.2, _, hpc⟩, ⟨poc.2, _, hpoc⟩, ⟨dc.2, _, hdc⟩, ⟨dc.2, hle⟩⟩

theorem pyMatch_tailSearch {cs : List Char} {caps : Caps} (h : pyMatch cs = some caps) :
    ∃ ecap comps cs3, tailSearch ecap comps cs3 = some caps := by
  simp only [pyMatch] at h
  by_cases hr : ((epochSplit (normHead cs)).2.takeWhile isDigit).isEmpty = true
  · rw [if_pos hr] at h
    cases h
  · rw [if_neg hr] at h
    exact ⟨_, _, _, h⟩

theorem pyMatch_Inv {cs : List Char} {caps : Caps} (h : pyMatch cs = some caps) :
    Inv (mkVersion caps) := by
  obtain ⟨ecap, comps, cs3, ht⟩ := pyMatch_tailSearch h
  obtain ⟨_, _, ⟨prest, pin, hpre⟩, ⟨porest, poin, hpost⟩, ⟨drest, din, hdev⟩,
    ⟨inL, hloc⟩⟩ := tailSearch_some ht
  constructor
  · exact Int.natCast_nonneg _
  · exact Int.natCast_nonneg _
  · intro m hm
    obtain ⟨d, _, rfl⟩ := Option.map_eq_some'.mp hm
    exact Int.natCast_nonneg _
  · intro p hp
    obtain ⟨d, _, rfl⟩ := Option.map_eq_some'.mp hp
    exact Int.natCast_nonneg _
  · intro hp
    simp only [mkVersion, Option.isSome_map'] at hp ⊢
    have h2 : 2 < caps.release.length := by
      by_contra hc
      rw [List.get?_eq_none.mpr (by omega)] at hp
      simp at hp
    rw [List.get?_eq_get (by omega : 1 < caps.release.length)]
    simp
  · exact pre_normalize_shape hpre
  · exact post_normalize_shape hpost
  · exact dev_normalize_shape hdev
  · exact local_normalize_shape (localEnd_shape hloc)

theorem parse_Inv {s : List Char} {v : Version} (h : parse s = .ok v) : Inv v := by
  simp only [parse] at h
  cases hm : pyMatch (lstripV (pyStrip5 (pyLower s))) with
  | none => rw [hm] at h; cases h
  | some caps =>
    rw [hm] at h
    dsimp only at h
    have : mkVersion caps = v := by
      injection h
    rw [← this]
    exact pyMatch_Inv hm

/-! ## Round trip: candidate evaluation on canonical renderings -/

theorem takeWhile_digits_run {n : Nat} {rest : List Char}
    (hrest : ∀ c, rest.head? = some c → isDigit c = false) :
    (natToChars n ++ rest).takeWhile isDigit = natToChars n := by
  rw [takeWhile_append_all fun c hc => natToChars_digit hc]
  cases rest with
  | nil => simp
  | cons c r =>
    rw [takeWhile_head_false (hrest c rfl)]
    simp

theorem dropWhile_digits_run {n : Nat} {rest : List Char}
    (hrest : ∀ c, rest.head? = some c → isDigit c = false) :
    (natToChars n ++ rest).dropWhile isDigit = rest := by
  rw [dropWhile_append_all fun c hc => natToChars_digit hc]
  cases rest with
  | nil => simp
  | cons c r => exact dropWhile_head_false (hrest c rfl)

theorem numCands_run {n : Nat} {rest : List Char}
    (hrest : ∀ c, rest.head? = some c → isDigit c = false) :
    ∃ junk, numCands (natToChars n ++ rest) = (natToChars n, rest) :: junk := by
  obtain ⟨d, ds, hd⟩ : ∃ d ds, natToChars n = d :: ds := by
    cases hh : natToChars n with
    | nil => exact absurd hh (natToChars_ne_nil n)
    | cons d ds => exact ⟨d, ds, rfl⟩
  have hlen : (natToChars n).length = ds.length + 1 := by rw [hd]; rfl
  refine ⟨(List.range ds.length).map (fun i =>
    ((natToChars n).take ((natToChars n).length - (i + 1)),
      (natToChars n).drop ((natToChars n).length - (i + 1)) ++ rest)) ++ [([], natToChars n ++ rest)], ?_⟩
  simp only [numCands, numCandsNE, takeWhile_digits_run hrest, dropWhile_digits_run hrest]
  rw [hlen, List.range_succ_eq_map]
  simp only [List.map_cons, Nat.sub_zero, List.map_map]
  rw [← hlen]
  simp only [List.take_length, List.drop_length, List.nil_append, List.cons_append]
  simp [Function.comp_def]

theorem wordCands_pre_a {d : Char} {rest' : List Char} (hd : isDigit d = true) :
    wordCands preLetters ('a' :: d :: rest') = [("a".data, d :: rest')] := by
  have h1 : ('l' : Char) ≠ d := fun e => (ne_of_isDigit hd (by decide)) e.symm
  simp [wordCands, preLetters, List.isPrefixOf, h1]

theorem wordCands_pre_b {d : Char} {rest' : List Char} (hd : isDigit d = true) :
    wordCands preLetters ('b' :: d :: rest') = [("b".data, d :: rest')] := by
  have h1 : ('e' : Char) ≠ d := fun e => (ne_of_isDigit hd (by decide)) e.symm
  simp [wordCands, preLetters, List.isPrefixOf, h1]

theorem wordCands_pre_rc {rest' : List Char} :
    wordCands preLetters ('r' :: 'c' :: rest') = [("rc".data, rest')] := by
  simp [wordCands, preLetters, List.isPrefixOf]

theorem wordCands_post_post {rest' : List Char} :
    wordCands postLetters ('p' :: 'o' :: 's' :: 't' :: rest') = [("post".data, rest')] := by
  simp [wordCands, postLetters, List.isPrefixOf]

theorem wordCands_dev {rest' : List Char} :
    wordCands ["dev".data] ('d' :: 'e' :: 'v' :: rest') = [("dev".data, rest')] := by
  simp [wordCands, List.isPrefixOf]

theorem wordCands_pre_dot_post {x : List Char} :
    wordCands preLetters ('p' :: 'o' :: 's' :: 't' :: x) = [] := by
  simp [wordCands, preLetters, List.isPrefixOf]

theorem wordCands_pre_dot_dev {x : List Char} :
    wordCands preLetters ('d' :: 'e' :: 'v' :: x) = [] := by
  simp [wordCands, preLetters, List.isPrefixOf]

theorem wordCands_pre_plus {x : List Char} :
    wordCands preLetters ('+' :: x) = [] := by
  simp [wordCands, preLetters, List.isPrefixOf]

theorem wordCands_pre_nil : wordCands preLetters [] = [] := by decide

theorem wordCands_pre_dot {x : List Char} :
    wordCands preLetters ('.' :: x) = [] := by
  simp [wordCands, preLetters, List.isPrefixOf]

theorem wordCands_post_dot {x : List Char} :
    wordCands postLetters ('.' :: x) = [] := by
  simp [wordCands, postLetters, List.isPrefixOf]

theorem wordCands_post_plus {x : List Char} :
    wordCands postLetters ('+' :: x) = [] := by
  simp [wordCands, postLetters, List.isPrefixOf]

theorem wordCands_post_nil : wordCands postLetters [] = [] := by decide

theorem wordCands_post_dot_dev {x : List Char} :
    wordCands postLetters ('d' :: 'e' :: 'v' :: x) = [] := by
  simp [wordCands, postLetters, List.isPrefixOf]

theorem wordCands_dev_dot {x : List Char} :
    wordCands ["dev".data] ('.' :: x) = [] := by
  simp [wordCands, List.isPrefixOf]

theorem wordCands_dev_plus {x : List Char} :
    wordCands ["dev".data] ('+' :: x) = [] := by
  simp [wordCands, List.isPrefixOf]

theorem wordCands_dev_nil : wordCands ["dev".data] [] = [] := by decide

theorem preCands_tag_a {n : Nat} {rest : List Char}
    (hrest : ∀ c, rest.head? = some c → isDigit c = false) :
    ∃ junk, preCands ("a".data ++ (natToChars n ++ rest)) =
      ("a".data ++ natToChars n, rest) :: junk := by
  obtain ⟨d, ds, hd⟩ : ∃ d ds, natToChars n = d :: ds := by
    cases hh : natToChars n with
    | nil => exact absurd hh (natToChars_ne_nil n)
    | cons d ds => exact ⟨d, ds, rfl⟩
  have hdd : isDigit d = true := natToChars_head hd
  have hX : natToChars n ++ rest = d :: (ds ++ rest) := by rw [hd]; rfl
  obtain ⟨junk2, hnum⟩ := @numCands_run n rest hrest
  simp only [preCands]
  rw [show ("a".data ++ (natToChars n ++ rest)) = 'a' :: (natToChars n ++ rest) from rfl]
  rw [sepCands_not_sep (by decide)]
  simp only [List.flatMap_cons, List.flatMap_nil, List.append_nil]
  rw [hX, wordCands_pre_a hdd]
  simp only [List.flatMap_cons, List.flatMap_nil, List.append_nil]
  rw [show (d :: (ds ++ rest)) = natToChars n ++ rest from hX.symm]
  rw [hX, sepCands_not_sep (isSep_false_of_isDigit hdd)]
  simp only [List.flatMap_cons, List.flatMap_nil, List.append_nil]
  rw [show (d :: (ds ++ rest)) = natToChars n ++ rest from hX.symm, hnum]
  simp only [List.map_cons, List.cons_append]
  exact ⟨_, rfl⟩

theorem preCands_tag_b {n : Nat} {rest : List Char}
    (hrest : ∀ c, rest.head? = some c → isDigit c = false) :
    ∃ junk, preCands ("b".data ++ (natToChars n ++ rest)) =
      ("b".data ++ natToChars n, rest) :: junk := by
  obtain ⟨d, ds, hd⟩ : ∃ d ds, natToChars n = d :: ds := by
    cases hh : natToChars n with
    | nil => exact absurd hh (natToChars_ne_nil n)
    | cons d ds => exact ⟨d, ds, rfl⟩
  have hdd : isDigit d = true := natToChars_head hd
  have hX : natToChars n ++ rest = d :: (ds ++ rest) := by rw [hd]; rfl
  obtain ⟨junk2, hnum⟩ := @numCands_run n rest hrest
  simp only [preCands]
  rw [show ("b".data ++ (natToChars n ++ rest)) = 'b' :: (natToChars n ++ rest) from rfl]
  rw [sepCands_not_sep (by decide)]
  simp only [List.flatMap_cons, List.flatMap_nil, List.append_nil]
  rw [hX, wordCands_pre_b hdd]
  simp only [List.flatMap_cons, List.flatMap_nil, List.append_nil]
  rw [show (d :: (ds ++ rest)) = natToChars n ++ rest from hX.symm]
  rw [hX, sepCands_not_sep (isSep_false_of_isDigit hdd)]
  simp only [List.flatMap_cons, List.flatMap_nil, List.append_nil]
  rw [show (d :: (ds ++ rest)) = natToChars n ++ rest from hX.symm, hnum]
  simp only [List.map_cons, List.cons_append]
  exact ⟨_, rfl⟩

theorem preCands_tag_rc {n : Nat} {rest : List Char}
    (hrest : ∀ c, rest.head? = some c → isDigit c = false) :
    ∃ junk, preCands ("rc".data ++ (natToChars n ++ rest)) =
      ("rc".data ++ natToChars n, rest) :: junk := by
  obtain ⟨d, ds, hd⟩ : ∃ d ds, natToChars n = d :: ds := by
    cases hh : natToChars n with
    | nil => exact absurd hh (natToChars_ne_nil n)
    | cons d ds => exact ⟨d, ds, rfl⟩
  have hdd : isDigit d = true := natToChars_head hd
  have hX : natToChars n ++ rest = d :: (ds ++ rest) := by rw [hd]; rfl
  obtain ⟨junk2, hnum⟩ := @numCands_run n rest hrest
  simp only [preCands]
  rw [show ("rc".data ++ (natToChars n ++ rest)) = 'r' :: 'c' :: (natToChars n ++ rest) from rfl]
  rw [sepCands_not_sep (by decide)]
  simp only [List.flatMap_cons, List.flatMap_nil, List.append_nil]
  rw [wordCands_pre_rc]
  simp only [List.flatMap_cons, List.flatMap_nil, List.append_nil]
  rw [hX, sepCands_not_sep (isSep_false_of_isDigit hdd)]
  simp only [List.flatMap_cons, List.flatMap_nil, List.append_nil]
  rw [show (d :: (ds ++ rest)) = natToChars n ++ rest from hX.symm, hnum]
  simp only [List.map_cons, List.cons_append]
  exact ⟨_, rfl⟩

theorem preCands_absent {S1 : List Char}
    (h : (∃ X, S1 = '.' :: 'p' :: 'o' :: 's' :: 't' :: X) ∨
      (∃ X, S1 = '.' :: 'd' :: 'e' :: 'v' :: X) ∨ (∃ X, S1 = '+' :: X) ∨ S1 = []) :
    preCands S1 = [([], S1)] := by
  rcases h with ⟨X, rfl⟩ | ⟨X, rfl⟩ | ⟨X, rfl⟩ | rfl
  · simp only [preCands, sepCands_sep (show isSep '.' = true by decide),
      List.flatMap_cons, List.flatMap_nil, wordCands_pre_dot_post, wordCands_pre_dot,
      List.append_nil, List.nil_append]
  · simp only [preCands, sepCands_sep (show isSep '.' = true by decide),
      List.flatMap_cons, List.flatMap_nil, wordCands_pre_dot_dev, wordCands_pre_dot,
      List.append_nil, List.nil_append]
  · simp only [preCands, sepCands_not_sep (show isSep '+' = false by decide),
      List.flatMap_cons, List.flatMap_nil, wordCands_pre_plus,
      List.append_nil, List.nil_append]
  · decide

theorem postCands_dotpost {n : Nat} {rest : List Char}
    (hrest : ∀ c, rest.head? = some c → isDigit c = false) :
    ∃ junk, postCands (".post".data ++ (natToChars n ++ rest)) =
      (".post".data ++ natToChars n, rest) :: junk := by
  obtain ⟨d, ds, hd⟩ : ∃ d ds, natToChars n = d :: ds := by
    cases hh : natToChars n with
    | nil => exact absurd hh (natToChars_ne_nil n)
    | cons d ds => exact ⟨d, ds, rfl⟩
  have hdd : isDigit d = true := natToChars_head hd
  have hX : natToChars n ++ rest = d :: (ds ++ rest) := by rw [hd]; rfl
  obtain ⟨junk2, hnum⟩ := @numCands_run n rest hrest
  simp only [postCands]
  rw [show (".post".data ++ (natToChars n ++ rest)) =
    '.' :: 'p' :: 'o' :: 's' :: 't' :: (natToChars n ++ rest) from rfl]
  rw [sepCands_sep (show isSep '.' = true by decide)]
  simp only [List.flatMap_cons, List.flatMap_nil, List.append_nil]
  rw [wordCands_post_post, wordCands_post_dot]
  simp only [List.flatMap_cons, List.flatMap_nil, List.append_nil]
  rw [hX, sepCands_not_sep (isSep_false_of_isDigit hdd)]
  simp only [List.flatMap_cons, List.flatMap_nil, List.append_nil]
  rw [show (d :: (ds ++ rest)) = natToChars n ++ rest from hX.symm, hnum]
  simp only [List.map_cons, List.cons_append, List.nil_append]
  exact ⟨_, rfl⟩

theorem postCands_absent {S2 : List Char}
    (h : (∃ X, S2 = '.' :: 'd' :: 'e' :: 'v' :: X) ∨ (∃ X, S2 = '+' :: X) ∨ S2 = []) :
    postCands S2 = [([], S2)] := by
  rcases h with ⟨X, rfl⟩ | ⟨X, rfl⟩ | rfl
  · simp only [postCands, sepCands_sep (show isSep '.' = true by decide),
      List.flatMap_cons, List.flatMap_nil, wordCands_post_dot_dev, wordCands_post_dot,
      List.append_nil, List.nil_append]
    rfl
  · simp only [postCands, sepCands_not_sep (show isSep '+' = false by decide),
      List.flatMap_cons, List.flatMap_nil, wordCands_post_plus,
      List.append_nil, List.nil_append]
    rfl
  · decide

theorem devCands_dotdev {n : Nat} {rest : List Char}
    (hrest : ∀ c, rest.head? = some c → isDigit c = false) :
    ∃ junk, devCands (".dev".data ++ (natToChars n ++ rest)) =
      (".dev".data ++ natToChars n, rest) :: junk := by
  obtain ⟨d, ds, hd⟩ : ∃ d ds, natToChars n = d :: ds := by
    cases hh : natToChars n with
    | nil => exact absurd hh (natToChars_ne_nil n)
    | cons d ds => exact ⟨d, ds, rfl⟩
  have hdd : isDigit d = true := natToChars_head hd
  have hX : natToChars n ++ rest = d :: (ds ++ rest) := by rw [hd]; rfl
  obtain ⟨junk2, hnum⟩ := @numCands_run n rest hrest
  simp only [devCands]
  rw [show (".dev".data ++ (natToChars n ++ rest)) =
    '.' :: 'd' :: 'e' :: 'v' :: (natToChars n ++ rest) from rfl]
  rw [sepCands_sep (show isSep '.' = true by decide)]
  simp only [List.flatMap_cons, List.flatMap_nil, List.append_nil]
  rw [wordCands_dev, wordCands_dev_dot]
  simp only [List.flatMap_cons, List.flatMap_nil, List.append_nil]
  rw [hX, sepCands_not_sep (isSep_false_of_isDigit hdd)]
  simp only [List.flatMap_cons, List.flatMap_nil, List.append_nil]
  rw [show (d :: (ds ++ rest)) = natToChars n ++ rest from hX.symm, hnum]
  simp only [List.map_cons, List.cons_append, List.nil_append]
  exact ⟨_, rfl⟩

theorem devCands_absent {S3 : List Char}
    (h : (∃ X, S3 = '+' :: X) ∨ S3 = []) :
    devCands S3 = [([], S3)] := by
  rcases h with ⟨X, rfl⟩ | rfl
  · simp only [devCands, sepCands_not_sep (show isSep '+' = false by decide),
      List.flatMap_cons, List.flatMap_nil, List.append_nil, List.nil_append]
    rw [show wordCands [['d', 'e', 'v']] ('+' :: X) = [] from wordCands_dev_plus]
    rfl
  · decide

/-! ## Round trip: normalizers fix canonical forms -/

theorem pre_normalize_norm {t : List Char} {n : Nat}
    (ht : t = "a".data ∨ t = "b".data ∨ t = "rc".data) :
    pre_normalize (t ++ natToChars n) = t ++ natToChars n := by
  have hdigits : ∀ c ∈ natToChars n, isDigit c = true := fun c hc => natToChars_digit hc
  rcases ht with rfl | rfl | rfl
  · have := @pre_normalize_cap_a [] [] (natToChars n) (Or.inl rfl) (Or.inl rfl) hdigits
    rw [digitsToNat_natToChars] at this
    simpa using this
  · have := @pre_normalize_cap_b [] [] (natToChars n) (Or.inl rfl) (Or.inl rfl) hdigits
    rw [digitsToNat_natToChars] at this
    simpa using this
  · have := @pre_normalize_cap_rc [] [] (natToChars n) (Or.inl rfl) (Or.inl rfl) hdigits
    rw [digitsToNat_natToChars] at this
    simpa using this

theorem post_normalize_norm {n : Nat} :
    post_normalize (".post".data ++ natToChars n) = ".post".data ++ natToChars n := by
  have hdigits : ∀ c ∈ natToChars n, isDigit c = true := fun c hc => natToChars_digit hc
  have := @post_normalize_cap_post ['.'] [] (natToChars n)
    (Or.inr ⟨'.', by decide, rfl⟩) (Or.inl rfl) hdigits
  rw [digitsToNat_natToChars] at this
  simpa using this

theorem dev_normalize_norm {n : Nat} :
    dev_normalize (".dev".data ++ natToChars n) = ".dev".data ++ natToChars n := by
  have hdigits : ∀ c ∈ natToChars n, isDigit c = true := fun c hc => natToChars_digit hc
  have := @dev_normalize_cap ['.'] [] (natToChars n)
    (Or.inr ⟨'.', by decide, rfl⟩) (Or.inl rfl) hdigits
  rw [digitsToNat_natToChars] at this
  simpa using this

theorem local_normalize_id {lp : List Char} (h : lp = [] ∨ LocalShape lp) :
    local_normalize lp = lp := by
  rcases h with rfl | ⟨r0, rs, h0, hrs, rfl⟩
  · rfl
  · exact local_normalize_norm h0 hrs

/-! ## Round trip: characters of a rendering -/

theorem charP_of_digit {c : Char} (h : isDigit c = true) :
    33 ≤ c.toNat ∧ c.toNat ≤ 122 ∧ ¬(65 ≤ c.toNat ∧ c.toNat ≤ 90) := by
  obtain ⟨h1, h2⟩ := isDigit_toNat h
  omega

theorem charP_of_alnum {c : Char} (h : isAlnum c = true) :
    33 ≤ c.toNat ∧ c.toNat ≤ 122 ∧ ¬(65 ≤ c.toNat ∧ c.toNat ≤ 90) := by
  simp only [isAlnum, isDigit, Bool.or_eq_true, Bool.and_eq_true,
    decide_eq_true_iff] at h
  omega

theorem mem_dotTail {c : Char} {rs : List (List Char)} (h : c ∈ dotTail rs) :
    c = '.' ∨ ∃ q ∈ rs, c ∈ q := by
  simp only [dotTail, List.mem_flatMap] at h
  obtain ⟨q, hq, hc⟩ := h
  rcases List.mem_cons.mp hc with rfl | hc
  · exact Or.inl rfl
  · exact Or.inr ⟨q, hq, hc⟩

theorem render_chars {v : Version} (hv : Inv v) :
    ∀ c ∈ render v, 33 ≤ c.toNat ∧ c.toNat ≤ 122 ∧ ¬(65 ≤ c.toNat ∧ c.toNat ≤ 90) := by
  intro c hc
  simp only [render, List.mem_append] at hc
  rcases hc with ((((((h | h) | h) | h) | h) | h) | h) | h
  · by_cases he : v.epoch > 0
    · rw [if_pos he] at h
      rcases List.mem_append.mp h with h | h
      · rw [intRepr_nonneg hv.epoch_nonneg] at h
        exact charP_of_digit (natToChars_digit h)
      · rw [List.mem_singleton.mp h]
        decide
    · rw [if_neg he] at h
      cases h
  · rw [intRepr_nonneg hv.major_nonneg] at h
    exact charP_of_digit (natToChars_digit h)
  · cases hm : v.minor with
    | none => rw [hm] at h; cases h
    | some m =>
      rw [hm] at h
      rcases List.mem_cons.mp h with rfl | h
      · decide
      · rw [intRepr_nonneg (hv.minor_nonneg m hm)] at h
        exact charP_of_digit (natToChars_digit h)
  · cases hp : v.patch with
    | none => rw [hp] at h; cases h
    | some p =>
      rw [hp] at h
      rcases List.mem_cons.mp h with rfl | h
      · decide
      · rw [intRepr_nonneg (hv.patch_nonneg p hp)] at h
        exact charP_of_digit (natToChars_digit h)
  · rcases hv.pre_shape with hs | ⟨t, n, ht, hs⟩
    · rw [hs] at h; cases h
    · rw [hs] at h
      rcases List.mem_append.mp h with h | h
      · rcases ht with rfl | rfl | rfl
        · rw [List.mem_singleton.mp h]; decide
        · rw [List.mem_singleton.mp h]; decide
        · rcases List.mem_cons.mp h with rfl | h
          · decide
          · rw [List.mem_singleton.mp h]; decide
      · exact charP_of_digit (natToChars_digit h)
  · rcases hv.post_shape with hs | ⟨n, hs⟩
    · rw [hs] at h; cases h
    · rw [hs] at h
      rcases List.mem_append.mp h with h | h
      · fin_cases h <;> decide
      · exact charP_of_digit (natToChars_digit h)
  · rcases hv.dev_shape with hs | ⟨n, hs⟩
    · rw [hs] at h; cases h
    · rw [hs] at h
      rcases List.mem_append.mp h with h | h
      · fin_cases h <;> decide
      · exact charP_of_digit (natToChars_digit h)
  · by_cases hl : v.localPart.isEmpty = true
    · rw [if_pos hl] at h
      cases h
    · rw [if_neg hl] at h
      rcases List.mem_cons.mp h with rfl | h
      · decide
      · rcases hv.local_shape with hs | ⟨r0, rs, h0, hrs, hs⟩
        · rw [hs] at hl; exact absurd rfl hl
        · rw [hs] at h
          rcases List.mem_append.mp h with h | h
          · exact charP_of_alnum (h0.2 c h)
          · rcases mem_dotTail h with rfl | ⟨q, hq, hcq⟩
            · decide
            · exact charP_of_alnum ((hrs q hq).2 c hcq)

theorem pyLower_id {cs : List Char} (h : ∀ c ∈ cs, ¬(65 ≤ c.toNat ∧ c.toNat ≤ 90)) :
    pyLower cs = cs := by
  unfold pyLower
  rw [show cs.map _ = cs.map id from List.map_congr_left ?_, List.map_id]
  intro c hc
  have := h c hc
  simp only [id]
  rw [if_neg (by simp only [Bool.and_eq_true, decide_eq_true_iff]; omega)]

theorem isStrip5_false_of_ge33 {c : Char} (h : 33 ≤ c.toNat) : isStrip5 c = false := by
  have d1 : c ≠ '\t' := fun e => by rw [char_eq_iff_toNat] at e; simp at e; omega
  have d2 : c ≠ '\n' := fun e => by rw [char_eq_iff_toNat] at e; simp at e; omega
  have d3 : c ≠ '\r' := fun e => by rw [char_eq_iff_toNat] at e; simp at e; omega
  have d4 : c ≠ '\x0c' := fun e => by rw [char_eq_iff_toNat] at e; simp at e; omega
  have d5 : c ≠ '\x0b' := fun e => by rw [char_eq_iff_toNat] at e; simp at e; omega
  simp [isStrip5, d1, d2, d3, d4, d5]

theorem pyStrip5_id {cs : List Char} (h : ∀ c ∈ cs, isStrip5 c = false) :
    pyStrip5 cs = cs := by
  unfold pyStrip5 rstripP
  rw [dropWhile_all_false h,
    dropWhile_all_false fun c hc => h c (List.mem_reverse.mp hc), List.reverse_reverse]

theorem render_head {v : Version} (hv : Inv v) :
    ∃ d rest', render v = d :: rest' ∧ isDigit d = true := by
  unfold render
  by_cases he : v.epoch > 0
  · rw [if_pos he, intRepr_nonneg hv.epoch_nonneg]
    obtain ⟨d, ds, hd⟩ : ∃ d ds, natToChars v.epoch.toNat = d :: ds := by
      cases hh : natToChars v.epoch.toNat with
      | nil => exact absurd hh (natToChars_ne_nil _)
      | cons d ds => exact ⟨d, ds, rfl⟩
    exact ⟨d, _, by rw [hd]; rfl, natToChars_head hd⟩
  · rw [if_neg he, intRepr_nonneg hv.major_nonneg]
    obtain ⟨d, ds, hd⟩ : ∃ d ds, natToChars v.major.toNat = d :: ds := by
      cases hh : natToChars v.major.toNat with
      | nil => exact absurd hh (natToChars_ne_nil _)
      | cons d ds => exact ⟨d, ds, rfl⟩
    exact ⟨d, _, by rw [hd]; rfl, natToChars_head hd⟩

theorem normalize_render_id {v : Version} (hv : Inv v) :
    lstripV (pyStrip5 (pyLower (render v))) = render v := by
  rw [pyLower_id fun c hc => (render_chars hv c hc).2.2,
    pyStrip5_id fun c hc => isStrip5_false_of_ge33 (render_chars hv c hc).1]
  obtain ⟨d, rest', hr, hd⟩ := render_head hv
  rw [hr]
  unfold lstripV
  exact dropWhile_head_false (by
    simp only [decide_eq_false_iff_not]
    exact ne_of_isDigit hd (by decide))

theorem normHead_eq {d : Char} {rest' : List Char} (hd : isWS d = false) (hv : d ≠ 'v') :
    normHead (d :: rest') = d :: rest' := by
  simp only [normHead, dropWhile_head_false hd]
  split
  · rename_i rest'' heq
    injection heq with h1 _
    exact absurd h1 hv
  · rfl

/-! ## Round trip: the suffix after each group of a rendering -/

theorem S3_shape (v : Version) :
    (∃ X, (if v.localPart.isEmpty then [] else '+' :: v.localPart) = '+' :: X) ∨
      (if v.localPart.isEmpty then [] else '+' :: v.localPart) = ([] : List Char) := by
  by_cases h : v.localPart.isEmpty = true
  · exact Or.inr (by rw [if_pos h])
  · exact Or.inl ⟨v.localPart, by rw [if_neg h]⟩

theorem S2_shape {v : Version} (hv : Inv v) :
    (∃ X, v.dev ++ (if v.localPart.isEmpty then [] else '+' :: v.localPart) =
      '.' :: 'd' :: 'e' :: 'v' :: X) ∨
    (∃ X, v.dev ++ (if v.localPart.isEmpty then [] else '+' :: v.localPart) = '+' :: X) ∨
    v.dev ++ (if v.localPart.isEmpty then [] else '+' :: v.localPart) = [] := by
  rcases hv.dev_shape with hs | ⟨n, hs⟩
  · rw [hs, List.nil_append]
    rcases S3_shape v with ⟨X, hX⟩ | hX
    · exact Or.inr (Or.inl ⟨X, hX⟩)
    · exact Or.inr (Or.inr hX)
  · rw [hs]
    exact Or.inl ⟨natToChars n ++ _, rfl⟩

theorem S1_shape {v : Version} (hv : Inv v) :
    (∃ X, v.post ++ (v.dev ++ (if v.localPart.isEmpty then [] else '+' :: v.localPart)) =
      '.' :: 'p' :: 'o' :: 's' :: 't' :: X) ∨
    (∃ X, v.post ++ (v.dev ++ (if v.localPart.isEmpty then [] else '+' :: v.localPart)) =
      '.' :: 'd' :: 'e' :: 'v' :: X) ∨
    (∃ X, v.post ++ (v.dev ++ (if v.localPart.isEmpty then [] else '+' :: v.localPart)) =
      '+' :: X) ∨
    v.post ++ (v.dev ++ (if v.localPart.isEmpty then [] else '+' :: v.localPart)) = [] := by
  rcases hv.post_shape with hs | ⟨n, hs⟩
  · rw [hs, List.nil_append]
    rcases S2_shape hv with ⟨X, hX⟩ | ⟨X, hX⟩ | hX
    · exact Or.inr (Or.inl ⟨X, hX⟩)
    · exact Or.inr (Or.inr (Or.inl ⟨X, hX⟩))
    · exact Or.inr (Or.inr (Or.inr hX))
  · rw [hs]
    exact Or.inl ⟨natToChars n ++ _, rfl⟩

/-- The whole tail after the release segment: its head can only be a
pre-release letter, a dot followed by `p`/`d`, a plus, or nothing. -/
theorem T_shape {v : Version} (hv : Inv v) :
    (∃ X, v.pre ++ (v.post ++ (v.dev ++ (if v.localPart.isEmpty then []
        else '+' :: v.localPart))) = 'a' :: X) ∨
    (∃ X, v.pre ++ (v.post ++ (v.dev ++ (if v.localPart.isEmpty then []
        else '+' :: v.localPart))) = 'b' :: X) ∨
    (∃ X, v.pre ++ (v.post ++ (v.dev ++ (if v.localPart.isEmpty then []
        else '+' :: v.localPart))) = 'r' :: X) ∨
    (∃ X, v.pre ++ (v.post ++ (v.dev ++ (if v.localPart.isEmpty then []
        else '+' :: v.localPart))) = '.' :: 'p' :: X) ∨
    (∃ X, v.pre ++ (v.post ++ (v.dev ++ (if v.localPart.isEmpty then []
        else '+' :: v.localPart))) = '.' :: 'd' :: X) ∨
    (∃ X, v.pre ++ (v.post ++ (v.dev ++ (if v.localPart.isEmpty then []
        else '+' :: v.localPart))) = '+' :: X) ∨
    v.pre ++ (v.post ++ (v.dev ++ (if v.localPart.isEmpty then []
        else '+' :: v.localPart))) = [] := by
  rcases hv.pre_shape with hs | ⟨t, n, ht, hs⟩
  · rw [hs, List.nil_append]
    rcases S1_shape hv with ⟨X, hX⟩ | ⟨X, hX⟩ | ⟨X, hX⟩ | hX
    · exact Or.inr (Or.inr (Or.inr (Or.inl ⟨'o' :: 's' :: 't' :: X, hX⟩)))
    · exact Or.inr (Or.inr (Or.inr (Or.inr (Or.inl ⟨'e' :: 'v' :: X, hX⟩))))
    · exact Or.inr (Or.inr (Or.inr (Or.inr (Or.inr (Or.inl ⟨X, hX⟩)))))
    · exact Or.inr (Or.inr (Or.inr (Or.inr (Or.inr (Or.inr hX)))))
  · rw [hs]
    rcases ht with rfl | rfl | rfl
    · exact Or.inl ⟨natToChars n ++ _, rfl⟩
    · exact Or.inr (Or.inl ⟨natToChars n ++ _, rfl⟩)
    · exact Or.inr (Or.inr (Or.inl ⟨'c' :: (natToChars n ++ _), rfl⟩))

/-! ## Round trip: the release loop on a rendering -/

theorem releaseLoop_nil {f : Nat} {acc : List (List Char)} :
    releaseLoop f [] acc = (acc.reverse, []) := by
  cases f <;> rfl

theorem releaseLoop_stop_nondot {f : Nat} {x : Char} {X : List Char} {acc : List (List Char)}
    (hx : x ≠ '.') : releaseLoop f (x :: X) acc = (acc.reverse, x :: X) := by
  cases f with
  | zero => rfl
  | succ f =>
    simp only [releaseLoop]
    split
    · rename_i heq
      injection heq with h1 _
      exact absurd h1 hx
    · rfl

theorem releaseLoop_stop_dot_nondigit {f : Nat} {X : List Char} {acc : List (List Char)}
    (h : X = [] ∨ ∃ y Y, X = y :: Y ∧ isDigit y = false) :
    releaseLoop f ('.' :: X) acc = (acc.reverse, '.' :: X) := by
  cases f with
  | zero => rfl
  | succ f =>
    have hX : X.takeWhile isDigit = [] := by
      rcases h with rfl | ⟨y, Y, rfl, hy⟩
      · rfl
      · exact takeWhile_head_false hy
    simp only [releaseLoop, hX]
    rfl

theorem releaseLoop_dot_run {f : Nat} {n : Nat} {X : List Char} {acc : List (List Char)}
    (hX : ∀ c, X.head? = some c → isDigit c = false) :
    releaseLoop (f + 1) ('.' :: (natToChars n ++ X)) acc =
      releaseLoop f X (natToChars n :: acc) := by
  have hne : ((natToChars n ++ X).takeWhile isDigit).isEmpty = false := by
    rw [takeWhile_digits_run hX]
    cases hh : natToChars n with
    | nil => exact absurd hh (natToChars_ne_nil n)
    | cons d ds => rfl
  simp only [releaseLoop, takeWhile_digits_run hX, dropWhile_digits_run hX, hne,
    Bool.false_eq_true, if_false]
  have h2 : (natToChars n).isEmpty = false := by
    cases hh : natToChars n with
    | nil => exact absurd hh (natToChars_ne_nil n)
    | cons d ds => rfl
  simp [h2]

theorem releaseLoop_stop_T {v : Version} (hv : Inv v) {f : Nat} {acc : List (List Char)} :
    releaseLoop f (v.pre ++ (v.post ++ (v.dev ++ (if v.localPart.isEmpty then []
      else '+' :: v.localPart)))) acc =
      (acc.reverse, v.pre ++ (v.post ++ (v.dev ++ (if v.localPart.isEmpty then []
        else '+' :: v.localPart)))) := by
  rcases T_shape hv with ⟨X, hX⟩ | ⟨X, hX⟩ | ⟨X, hX⟩ | ⟨X, hX⟩ | ⟨X, hX⟩ | ⟨X, hX⟩ | hX <;>
    rw [hX]
  · exact releaseLoop_stop_nondot (by decide)
  · exact releaseLoop_stop_nondot (by decide)
  · exact releaseLoop_stop_nondot (by decide)
  · exact releaseLoop_stop_dot_nondigit (Or.inr ⟨'p', X, rfl, by decide⟩)
  · exact releaseLoop_stop_dot_nondigit (Or.inr ⟨'d', X, rfl, by decide⟩)
  · exact releaseLoop_stop_nondot (by decide)
  · exact releaseLoop_nil

theorem headND_S3 (v : Version) :
    ∀ c, (if v.localPart.isEmpty then [] else '+' :: v.localPart).head? = some c →
      isDigit c = false := by
  intro c hc
  rcases S3_shape v with ⟨X, hX⟩ | hX <;> rw [hX] at hc
  · cases hc
    decide
  · cases hc

theorem headND_S2 {v : Version} (hv : Inv v) :
    ∀ c, (v.dev ++ (if v.localPart.isEmpty then [] else '+' :: v.localPart)).head? =
      some c → isDigit c = false := by
  intro c hc
  rcases S2_shape hv with ⟨X, hX⟩ | ⟨X, hX⟩ | hX <;> rw [hX] at hc
  · cases hc
    decide
  · cases hc
    decide
  · cases hc

theorem headND_S1 {v : Version} (hv : Inv v) :
    ∀ c, (v.post ++ (v.dev ++ (if v.localPart.isEmpty then []
      else '+' :: v.localPart))).head? = some c → isDigit c = false := by
  intro c hc
  rcases S1_shape hv with ⟨X, hX⟩ | ⟨X, hX⟩ | ⟨X, hX⟩ | hX <;> rw [hX] at hc
  · cases hc
    decide
  · cases hc
    decide
  · cases hc
    decide
  · cases hc

theorem tailSearch_render {v : Version} (hv : Inv v) (ecap : List Char)
    (comps : List (List Char)) :
    tailSearch ecap comps (v.pre ++ (v.post ++ (v.dev ++
        (if v.localPart.isEmpty then [] else '+' :: v.localPart)))) =
      some ⟨ecap, comps, v.pre, v.post, v.dev, v.localPart⟩ := by
  have hle : localEnd (if v.localPart.isEmpty then [] else '+' :: v.localPart) =
      some v.localPart := localEnd_roundtrip hv.local_shape
  have hdev : ∀ pcap pocap : List Char,
      firstSome (devCands (v.dev ++ (if v.localPart.isEmpty then []
          else '+' :: v.localPart)))
        (fun dc => match localEnd dc.2 with
          | some lcap => some (⟨ecap, comps, pcap, pocap, dc.1, lcap⟩ : Caps)
          | none => none) =
      some ⟨ecap, comps, pcap, pocap, v.dev, v.localPart⟩ := by
    intro pcap pocap
    rcases hv.dev_shape with hs | ⟨n, hs⟩
    · rw [hs, List.nil_append]
      rw [devCands_absent (S3_shape v)]
      apply firstSome_cons_some
      rw [hle]
    · rw [hs, List.append_assoc]
      obtain ⟨junk, hj⟩ := @devCands_dotdev n
        (if v.localPart.isEmpty then [] else '+' :: v.localPart) (headND_S3 v)
      rw [hj]
      apply firstSome_cons_some
      rw [hle]
  have hpost : ∀ pcap : List Char,
      firstSome (postCands (v.post ++ (v.dev ++ (if v.localPart.isEmpty then []
          else '+' :: v.localPart))))
        (fun poc => firstSome (devCands poc.2)
          (fun dc => match localEnd dc.2 with
            | some lcap => some (⟨ecap, comps, pcap, poc.1, dc.1, lcap⟩ : Caps)
            | none => none)) =
      some ⟨ecap, comps, pcap, v.post, v.dev, v.localPart⟩ := by
    intro pcap
    rcases hv.post_shape with hs | ⟨n, hs⟩
    · rw [hs, List.nil_append]
      rw [postCands_absent (S2_shape hv)]
      apply firstSome_cons_some
      exact hdev pcap []
    · rw [hs, List.append_assoc]
      obtain ⟨junk, hj⟩ := @postCands_dotpost n
        (v.dev ++ (if v.localPart.isEmpty then [] else '+' :: v.localPart))
        (headND_S2 hv)
      rw [hj]
      apply firstSome_cons_some
      exact hdev pcap (".post".data ++ natToChars n)
  unfold tailSearch
  rcases hv.pre_shape with hs | ⟨t, n, ht, hs⟩
  · rw [hs, List.nil_append]
    rw [preCands_absent (S1_shape hv)]
    apply firstSome_cons_some
    exact hpost []
  · rw [hs, List.append_assoc]
    have hgood : ∃ junk, preCands (t ++ (natToChars n ++ (v.post ++ (v.dev ++
        (if v.localPart.isEmpty then [] else '+' :: v.localPart))))) =
        (t ++ natToChars n, v.post ++ (v.dev ++ (if v.localPart.isEmpty then []
          else '+' :: v.localPart))) :: junk := by
      rcases ht with rfl | rfl | rfl
      · exact preCands_tag_a (headND_S1 hv)
      · exact preCands_tag_b (headND_S1 hv)
      · exact preCands_tag_rc (headND_S1 hv)
    obtain ⟨junk, hj⟩ := hgood
    rw [hj]
    apply firstSome_cons_some
    exact hpost (t ++ natToChars n)

theorem headND_T {v : Version} (hv : Inv v) :
    ∀ c, (v.pre ++ (v.post ++ (v.dev ++ (if v.localPart.isEmpty then []
      else '+' :: v.localPart)))).head? = some c → isDigit c = false ∧ c ≠ '!' := by
  intro c hc
  rcases T_shape hv with ⟨X, hX⟩ | ⟨X, hX⟩ | ⟨X, hX⟩ | ⟨X, hX⟩ | ⟨X, hX⟩ | ⟨X, hX⟩ | hX <;>
    rw [hX] at hc <;> cases hc <;> exact ⟨by decide, by decide⟩

theorem headND_R2 {v : Version} (hv : Inv v) :
    ∀ c, ((match v.minor with
        | some m => '.' :: intRepr m
        | none => []) ++
      ((match v.patch with
        | some p => '.' :: intRepr p
        | none => []) ++
        (v.pre ++ (v.post ++ (v.dev ++ (if v.localPart.isEmpty then []
          else '+' :: v.localPart)))))).head? = some c →
      isDigit c = false ∧ c ≠ '!' := by
  intro c hc
  cases hm : v.minor with
  | some m =>
    rw [hm] at hc
    cases hc
    exact ⟨by decide, by decide⟩
  | none =>
    have hp : v.patch = none := by
      cases hp : v.patch with
      | none => rfl
      | some p =>
        have := hv.patch_minor (by rw [hp]; rfl)
        rw [hm] at this
        cases this
    rw [hm, hp] at hc
    simp only [List.nil_append] at hc
    exact headND_T hv c hc

theorem epochSplit_render {v : Version} (hv : Inv v) :
    epochSplit (render v) =
      ((if v.epoch > 0 then natToChars v.epoch.toNat else []),
        natToChars v.major.toNat ++
          ((match v.minor with
            | some m => '.' :: intRepr m
            | none => []) ++
          ((match v.patch with
            | some p => '.' :: intRepr p
            | none => []) ++
            (v.pre ++ (v.post ++ (v.dev ++ (if v.localPart.isEmpty then []
              else '+' :: v.localPart))))))) := by
  have hRhead : ∀ c, ((match v.minor with
      | some m => '.' :: intRepr m
      | none => []) ++
    ((match v.patch with
      | some p => '.' :: intRepr p
      | none => []) ++
      (v.pre ++ (v.post ++ (v.dev ++ (if v.localPart.isEmpty then []
        else '+' :: v.localPart)))))).head? = some c → isDigit c = false :=
    fun c hc => (headND_R2 hv c hc).1
  by_cases he : v.epoch > 0
  · have hrender : render v = natToChars v.epoch.toNat ++
        ('!' :: (natToChars v.major.toNat ++
          ((match v.minor with
            | some m => '.' :: intRepr m
            | none => []) ++
          ((match v.patch with
            | some p => '.' :: intRepr p
            | none => []) ++
            (v.pre ++ (v.post ++ (v.dev ++ (if v.localPart.isEmpty then []
              else '+' :: v.localPart)))))))) := by
      unfold render
      rw [if_pos he, intRepr_nonneg hv.epoch_nonneg, intRepr_nonneg hv.major_nonneg]
      simp only [List.append_assoc, List.singleton_append, List.cons_append,
        List.nil_append]
    rw [hrender]
    unfold epochSplit
    rw [takeWhile_digits_run (by intro c hc; cases hc; decide),
      dropWhile_digits_run (by intro c hc; cases hc; decide)]
    have hne : ((natToChars v.epoch.toNat).isEmpty : Bool) = false := by
      cases hh : natToChars v.epoch.toNat with
      | nil => exact absurd hh (natToChars_ne_nil _)
      | cons d ds => rfl
    rw [if_pos (by simp [hne])]
    rw [if_pos he]
    rfl
  · have hrender : render v = natToChars v.major.toNat ++
        ((match v.minor with
          | some m => '.' :: intRepr m
          | none => []) ++
        ((match v.patch with
          | some p => '.' :: intRepr p
          | none => []) ++
          (v.pre ++ (v.post ++ (v.dev ++ (if v.localPart.isEmpty then []
            else '+' :: v.localPart)))))) := by
      unfold render
      rw [if_neg he, intRepr_nonneg hv.major_nonneg]
      simp only [List.append_assoc, List.nil_append]
    rw [hrender]
    unfold epochSplit
    rw [takeWhile_digits_run hRhead, dropWhile_digits_run hRhead]
    rw [if_neg ?_, if_neg he]
    intro hcond
    rcases Bool.and_eq_true _ _ |>.mp hcond with ⟨_, h2⟩
    have h2' := of_decide_eq_true h2
    cases hh : ((match v.minor with
        | some m => '.' :: intRepr m
        | none => []) ++
      ((match v.patch with
        | some p => '.' :: intRepr p
        | none => []) ++
        (v.pre ++ (v.post ++ (v.dev ++ (if v.localPart.isEmpty then []
          else '+' :: v.localPart)))))).head? with
    | none => rw [hh] at h2'; cases h2'
    | some c =>
      rw [hh] at h2'
      have := (headND_R2 hv c hh).2
      injection h2' with h3
      exact this h3

theorem releaseLoop_R2 {v : Version} (hv : Inv v) {f : Nat} (hf : 2 ≤ f)
    (acc : List (List Char)) :
    releaseLoop f
      ((match v.minor with
        | some m => '.' :: intRepr m
        | none => []) ++
      ((match v.patch with
        | some p => '.' :: intRepr p
        | none => []) ++
        (v.pre ++ (v.post ++ (v.dev ++ (if v.localPart.isEmpty then []
          else '+' :: v.localPart)))))) acc =
      (acc.reverse ++
        ((match v.minor with
          | some m => [natToChars m.toNat]
          | none => []) ++
        (match v.patch with
          | some p => [natToChars p.toNat]
          | none => [])),
        v.pre ++ (v.post ++ (v.dev ++ (if v.localPart.isEmpty then []
          else '+' :: v.localPart)))) := by
  obtain ⟨k, rfl⟩ : ∃ k, f = k + 2 := ⟨f - 2, by omega⟩
  cases hm : v.minor with
  | none =>
    have hp : v.patch = none := by
      cases hp : v.patch with
      | none => rfl
      | some p =>
        have := hv.patch_minor (by rw [hp]; rfl)
        rw [hm] at this
        cases this
    rw [hp]
    dsimp only
    simp only [List.nil_append]
    rw [releaseLoop_stop_T hv]
    simp
  | some m =>
    dsimp only
    rw [intRepr_nonneg (hv.minor_nonneg m hm)]
    cases hp : v.patch with
    | none =>
      dsimp only
      simp only [List.nil_append, List.cons_append]
      rw [show k + 2 = (k + 1) + 1 from rfl,
        releaseLoop_dot_run (fun c hc => (headND_T hv c hc).1)]
      rw [releaseLoop_stop_T hv]
      simp
    | some p =>
      dsimp only
      rw [intRepr_nonneg (hv.patch_nonneg p hp)]
      simp only [List.cons_append, List.append_assoc]
      rw [show k + 2 = (k + 1) + 1 from rfl]
      rw [show ('.' :: (natToChars m.toNat ++ ('.' :: (natToChars p.toNat ++
          (v.pre ++ (v.post ++ (v.dev ++ (if v.localPart.isEmpty then []
            else '+' :: v.localPart)))))))) = '.' :: (natToChars m.toNat ++ ('.' ::
          (natToChars p.toNat ++ (v.pre ++ (v.post ++ (v.dev ++
            (if v.localPart.isEmpty then [] else '+' :: v.localPart))))))) from rfl]
      rw [releaseLoop_dot_run (by intro c hc; cases hc; decide)]
      rw [releaseLoop_dot_run (fun c hc => (headND_T hv c hc).1)]
      rw [releaseLoop_stop_T hv]
      simp

theorem pyMatch_render {v : Version} (hv : Inv v) :
    pyMatch (render v) =
      some ⟨(if v.epoch > 0 then natToChars v.epoch.toNat else []),
        [natToChars v.major.toNat] ++
          ((match v.minor with
            | some m => [natToChars m.toNat]
            | none => []) ++
          (match v.patch with
            | some p => [natToChars p.toNat]
            | none => [])),
        v.pre, v.post, v.dev, v.localPart⟩ := by
  obtain ⟨d, rest', hr, hd⟩ := render_head hv
  have hnorm : normHead (render v) = render v := by
    rw [hr]
    exact normHead_eq (isWS_false_of_isDigit hd) (ne_of_isDigit hd (by decide))
  have hR2head : ∀ c, ((match v.minor with
      | some m => '.' :: intRepr m
      | none => []) ++
    ((match v.patch with
      | some p => '.' :: intRepr p
      | none => []) ++
      (v.pre ++ (v.post ++ (v.dev ++ (if v.localPart.isEmpty then []
        else '+' :: v.localPart)))))).head? = some c → isDigit c = false :=
    fun c hc => (headND_R2 hv c hc).1
  simp only [pyMatch]
  rw [hnorm, epochSplit_render hv]
  have htake : ((natToChars v.major.toNat ++
      ((match v.minor with
        | some m => '.' :: intRepr m
        | none => []) ++
      ((match v.patch with
        | some p => '.' :: intRepr p
        | none => []) ++
        (v.pre ++ (v.post ++ (v.dev ++ (if v.localPart.isEmpty then []
          else '+' :: v.localPart))))))).takeWhile isDigit) = natToChars v.major.toNat :=
    takeWhile_digits_run hR2head
  have hdrop := dropWhile_digits_run (n := v.major.toNat) hR2head
  have hne : ((natToChars v.major.toNat).isEmpty : Bool) = false := by
    cases hh : natToChars v.major.toNat with
    | nil => exact absurd hh (natToChars_ne_nil _)
    | cons x xs => rfl
  dsimp only
  rw [htake, hdrop, if_neg (by simp [hne])]
  have hlen : 2 ≤ (natToChars v.major.toNat ++
      ((match v.minor with
        | some m => '.' :: intRepr m
        | none => []) ++
      ((match v.patch with
        | some p => '.' :: intRepr p
        | none => []) ++
        (v.pre ++ (v.post ++ (v.dev ++ (if v.localPart.isEmpty then []
          else '+' :: v.localPart))))))).length ∨
      ((match v.minor with
        | some m => '.' :: intRepr m
        | none => []) : List Char) = [] := by
    cases hm : v.minor with
    | none => exact Or.inr rfl
    | some m =>
      left
      have h1 : 0 < (natToChars v.major.toNat).length :=
        List.length_pos.mpr (natToChars_ne_nil _)
      simp only [List.length_append, List.length_cons]
      omega
  rcases hlen with hlen | hmnil
  · rw [releaseLoop_R2 hv hlen]
    rw [tailSearch_render hv]
    simp
  · have hm : v.minor = none := by
      cases hm : v.minor with
      | none => rfl
      | some m => rw [hm] at hmnil; cases hmnil
    have hp : v.patch = none := by
      cases hp : v.patch with
      | none => rfl
      | some p =>
        have := hv.patch_minor (by rw [hp]; rfl)
        rw [hm] at this
        cases this
    rw [hm, hp]
    simp only [List.nil_append]
    rw [releaseLoop_stop_T hv]
    dsimp only
    rw [tailSearch_render hv]
    simp [hm, hp]

/-- The round trip: parsing the canonical rendering of any version that
satisfies the parse invariant reproduces that version exactly. -/
theorem parse_render {v : Version} (hv : Inv v) : parse (render v) = .ok v := by
  simp only [parse]
  rw [normalize_render_id hv, pyMatch_render hv]
  dsimp only
  congr 1
  obtain ⟨e, maj, mi, pa, pr, po, dv, lc⟩ := v
  have hpre : pre_normalize pr = pr := by
    rcases hv.pre_shape with hs | ⟨t, n, ht, hs⟩
    · rw [show pr = [] from hs]
      rfl
    · rw [show pr = t ++ natToChars n from hs]
      exact pre_normalize_norm ht
  have hpost : post_normalize po = po := by
    rcases hv.post_shape with hs | ⟨n, hs⟩
    · rw [show po = [] from hs]
      rfl
    · rw [show po = ".post".data ++ natToChars n from hs]
      exact post_normalize_norm
  have hdev : dev_normalize dv = dv := by
    rcases hv.dev_shape with hs | ⟨n, hs⟩
    · rw [show dv = [] from hs]
      rfl
    · rw [show dv = ".dev".data ++ natToChars n from hs]
      exact dev_normalize_norm
  have hloc : local_normalize lc = lc := local_normalize_id hv.local_shape
  have hepoch : (digitsToNat (if e > 0 then natToChars e.toNat else []) : Int) = e := by
    by_cases he : e > 0
    · rw [if_pos he, digitsToNat_natToChars, Int.toNat_of_nonneg hv.epoch_nonneg]
    · rw [if_neg he]
      have he0 : e = 0 := by
        have := hv.epoch_nonneg
        simp only at this
        omega
      rw [he0]
      rfl
  cases hm : mi with
  | none =>
    have hp : pa = none := by
      cases hp : pa with
      | none => rfl
      | some p =>
        have := hv.patch_minor (by simp only; rw [hp]; rfl)
        simp only [hm] at this
        cases this
    subst hp
    simp only [mkVersion, hm, List.nil_append, List.append_nil]
    simp only [Version.mk.injEq]
    refine ⟨hepoch, ?_, rfl, rfl, hpre, hpost, hdev, hloc⟩
    simp only [List.get?, Option.getD_some]
    rw [digitsToNat_natToChars, Int.toNat_of_nonneg hv.major_nonneg]
  | some m =>
    cases hp : pa with
    | none =>
      simp only [mkVersion, List.append_nil]
      simp only [Version.mk.injEq]
      refine ⟨hepoch, ?_, ?_, ?_, hpre, hpost, hdev, hloc⟩
      · simp only [List.get?, Option.getD_some]
        rw [digitsToNat_natToChars, Int.toNat_of_nonneg hv.major_nonneg]
      · simp only [List.get?, Option.map_some']
        rw [digitsToNat_natToChars,
          Int.toNat_of_nonneg (hv.minor_nonneg m (by simp only; rw [hm]))]
      · simp only [List.get?, Option.map_none']
    | some p =>
      simp only [mkVersion]
      simp only [Version.mk.injEq]
      refine ⟨hepoch, ?_, ?_, ?_, hpre, hpost, hdev, hloc⟩
      · simp only [List.get?, Option.getD_some]
        rw [digitsToNat_natToChars, Int.toNat_of_nonneg hv.major_nonneg]
      · simp only [List.get?, Option.map_some']
        rw [digitsToNat_natToChars,
          Int.toNat_of_nonneg (hv.minor_nonneg m (by simp only; rw [hm]))]
      · simp only [List.get?, Option.map_some']
        rw [digitsToNat_natToChars,
          Int.toNat_of_nonneg (hv.patch_nonneg p (by simp only; rw [hp]))]

/-! ## Lemmas: the ordering primitives -/

theorem optIntLt_irrefl (x : Option Int) : is_optional_value_less_than x x = false := by
  cases x <;> simp [is_optional_value_less_than]

theorem optIntLt_asymm {x y : Option Int} (h : is_optional_value_less_than x y = true) :
    is_optional_value_less_than y x = false := by
  cases x <;> cases y <;> simp_all [is_optional_value_less_than]
  omega

theorem optIntLt_total {x y : Option Int} (h : x ≠ y) :
    is_optional_value_less_than x y = true ∨ is_optional_value_less_than y x = true := by
  cases x <;> cases y <;> simp_all [is_optional_value_less_than]

theorem pyStrLt_irrefl (s : List Char) : pyStrLt s s = false := by
  induction s with
  | nil => rfl
  | cons a as ih => simp [pyStrLt, ih]

theorem pyStrLt_asymm {s : List Char} : ∀ {t : List Char},
    pyStrLt s t = true → pyStrLt t s = false := by
  induction s with
  | nil =>
    intro t h
    cases t with
    | nil => simp [pyStrLt] at h
    | cons b bs => rfl
  | cons a as ih =>
    intro t h
    cases t with
    | nil => simp [pyStrLt] at h
    | cons b bs =>
      simp only [pyStrLt] at h ⊢
      by_cases hab : a.toNat < b.toNat
      · rw [if_neg (show ¬ b.toNat < a.toNat by omega),
          if_neg (show ¬ b = a from fun he => by rw [he] at hab; omega)]
      · rw [if_neg hab] at h
        by_cases he : a = b
        · rw [if_pos he] at h
          rw [if_neg (show ¬ b.toNat < a.toNat by rw [he]; omega), if_pos he.symm]
          exact ih h
        · rw [if_neg he] at h
          cases h

theorem pyStrLt_total {s : List Char} : ∀ {t : List Char}, s ≠ t →
    pyStrLt s t = true ∨ pyStrLt t s = true := by
  induction s with
  | nil =>
    intro t h
    cases t with
    | nil => exact absurd rfl h
    | cons b bs => exact Or.inl rfl
  | cons a as ih =>
    intro t h
    cases t with
    | nil => exact Or.inr rfl
    | cons b bs =>
      by_cases hab : a = b
      · subst hab
        have hne : as ≠ bs := fun he => h (by rw [he])
        rcases ih hne with h1 | h1
        · exact Or.inl (by simp [pyStrLt, h1])
        · exact Or.inr (by simp [pyStrLt, h1])
      · rcases Nat.lt_or_ge a.toNat b.toNat with hlt | hge
        · exact Or.inl (by simp [pyStrLt, hlt])
        · have hlt : b.toNat < a.toNat := by
            rcases Nat.lt_or_ge b.toNat a.toNat with h2 | h2
            · exact h2
            · exact absurd (char_eq_iff_toNat.mpr (by omega)) hab
          exact Or.inr (by simp [pyStrLt, hlt])

/-- The or-chain `__lt__` returns true exactly when SOME field of `u` is
less than the corresponding field of `w` — fields where `u` is greater do
not block later fields. -/
theorem lt_true_iff {u w : Version} : lt u w = true ↔
    (u.epoch < w.epoch ∨ u.major < w.major ∨
      is_optional_value_less_than u.minor w.minor = true ∨
      is_optional_value_less_than u.patch w.patch = true ∨
      pyStrLt u.pre w.pre = true ∨ pyStrLt u.post w.post = true ∨
      pyStrLt u.dev w.dev = true ∨ pyStrLt u.localPart w.localPart = true) := by
  unfold lt
  split_ifs with h1 h2 h3 h4 h5 h6 h7
  all_goals try simp_all
  simp [show ¬ u.epoch < w.epoch by omega, show ¬ u.major < w.major by omega]

theorem lt_self (v : Version) : lt v v = false := by
  simp [lt, optIntLt_irrefl, pyStrLt_irrefl]

theorem eqv_self (v : Version) : eqv v v = true := by
  simp [eqv]

/-- On versions satisfying the parse invariant the canonical rendering is
injective (via the round trip). -/
theorem render_inj {u w : Version} (hu : Inv u) (hw : Inv w)
    (h : render u = render w) : u = w := by
  have h2 : parse (render u) = parse (render w) := by rw [h]
  rw [parse_render hu, parse_render hw] at h2
  exact Except.ok.inj h2

theorem lt_eq_false {u w : Version} : lt u w = false ↔
    (¬ u.epoch < w.epoch ∧ ¬ u.major < w.major ∧
     is_optional_value_less_than u.minor w.minor = false ∧
     is_optional_value_less_than u.patch w.patch = false ∧
     pyStrLt u.pre w.pre = false ∧ pyStrLt u.post w.post = false ∧
     pyStrLt u.dev w.dev = false ∧ pyStrLt u.localPart w.localPart = false) := by
  rw [← Bool.not_eq_true (lt u w), lt_true_iff]
  simp only [not_or, Bool.not_eq_true]

theorem eqv_false_of_ne {u w : Version} (hu : Inv u) (hw : Inv w) (h : u ≠ w) :
    eqv u w = false := by
  cases hev : eqv u w
  · rfl
  · exact absurd (render_inj hu hw (by simpa [eqv] using hev)) h

/-! ## Claim C3 -/

/-- C3: Round-trip: whenever `parse` accepts `s`, re-parsing the canonical
rendering of the parsed `Version` succeeds, and the re-parsed `Version` is
equal to the original under `__eq__` (string equality of renderings). -/
theorem C3_parse_render_roundtrip {s : List Char} {v : Version} (h : parse s = .ok v) :
    ∃ v2, parse (render v) = .ok v2 ∧ eqv v2 v = true :=
  ⟨v, parse_render (parse_Inv h), eqv_self v⟩

theorem C3_parse_render_roundtrip_witness :
    ∃ v2, parse (render (Version.mk 0 1 (some 2) (some 3) [] [] [] [])) = .ok v2 ∧
      eqv v2 (Version.mk 0 1 (some 2) (some 3) [] [] [] []) = true :=
  C3_parse_render_roundtrip (s := "1.2.3".data) rfl

/-! ## Claim C9 -/

/-- C9 (amended): on rejected input, the parser's error message is
"Invalid version string: " followed by the input lowercased, stripped at
both ends of the five characters tab/newline/CR/FF/VT only (the space
character is NOT stripped), and with all leading `v` characters removed. -/
theorem C9_error_message {s m : List Char} (h : parse s = .error m) :
    m = "Invalid version string: ".data ++ lstripV (pyStrip5 (pyLower s)) := by
  simp only [parse] at h
  cases hm : pyMatch (lstripV (pyStrip5 (pyLower s))) with
  | some caps => rw [hm] at h; cases h
  | none =>
    rw [hm] at h
    injection h with h2
    exact h2.symm

theorem C9_error_message_witness :
    parse "@".data = .error "Invalid version string: @".data ∧
      "Invalid version string: @".data =
        "Invalid version string: ".data ++ lstripV (pyStrip5 (pyLower "@".data)) :=
  ⟨rfl, C9_error_message (s := "@".data) rfl⟩

/-- C9 (counterexample): the input " x" (leading space) is rejected, and
the space survives into the message — `strip("\t\n\r\f\v")` does not trim
spaces, contrary to the claimed trimming of all ASCII whitespace. -/
theorem C9_counterexample :
    parse " x".data = .error "Invalid version string:  x".data ∧
      "Invalid version string:  x".data ≠ "Invalid version string: x".data :=
  ⟨rfl, by decide⟩

/-! ## Claim C6 -/

/-- C6: bumping a part name outside `PARTS` fails with the invalid-part
error; the message includes the offending part name, and no version is
produced (the membership test precedes every field computation). -/
theorem C6_invalid_part {v : Version} {p : List Char} (h : p ∉ PARTS) :
    bump v p = .error ("Invalid part value: ".data ++ p) ∧
      p <:+ "Invalid part value: ".data ++ p := by
  refine ⟨?_, List.suffix_append _ _⟩
  unfold bump
  rw [if_pos h]

theorem C6_invalid_part_witness :
    bump (Version.mk 0 1 none none [] [] [] []) "foo".data =
        .error ("Invalid part value: ".data ++ "foo".data) ∧
      "foo".data <:+ "Invalid part value: ".data ++ "foo".data :=
  C6_invalid_part (by decide)

/-! ## Lemmas: evaluating `bump` at each integer part and at `local` -/

theorem bump_epoch_eq (v : Version) : bump v "epoch".data =
    .ok ⟨v.epoch + 1, v.major, v.minor, v.patch, v.pre, v.post, v.dev, v.localPart⟩ := rfl

theorem bump_major_eq (v : Version) : bump v "major".data =
    .ok ⟨v.epoch, v.major + 1, v.minor.map (fun _ => 0), v.patch.map (fun _ => 0),
      [], [], [], []⟩ := rfl

theorem bump_minor_eq (v : Version) : bump v "minor".data =
    .ok ⟨v.epoch, v.major, some (v.minor.getD 0 + 1), v.patch.map (fun _ => 0),
      [], [], [], []⟩ := rfl

theorem bump_patch_eq (v : Version) : bump v "patch".data =
    .ok ⟨v.epoch, v.major, some (v.minor.getD 0), some (v.patch.getD 0 + 1),
      [], [], [], []⟩ := rfl

theorem bump_local_eq (v : Version) : bump v "local".data =
    .ok ⟨v.epoch, v.major, v.minor, v.patch, v.pre, v.post, v.dev,
      bump_local "local".data v.localPart⟩ := rfl

/-! ## Claim C7 -/

/-- C7: on any parsed version with absent minor, bumping `patch`
materializes minor to an explicit 0, sets patch to 1, clears pre, post,
dev and local, and keeps epoch and major; and `parse "1"` followed by
`bump "patch"` renders as "1.0.1". -/
theorem C7_patch_bump_from_bare {s : List Char} {v : Version}
    (h : parse s = .ok v) (hm : v.minor = none) :
    (∃ v2, bump v "patch".data = .ok v2 ∧ v2.minor = some 0 ∧ v2.patch = some 1 ∧
      v2.pre = [] ∧ v2.post = [] ∧ v2.dev = [] ∧ v2.localPart = [] ∧
      v2.epoch = v.epoch ∧ v2.major = v.major) ∧
    Except.map render (Except.bind (parse "1".data) (fun u => bump u "patch".data)) =
      .ok "1.0.1".data := by
  have hp : v.patch = none := by
    cases hpp : v.patch with
    | none => rfl
    | some p =>
      have := (parse_Inv h).patch_minor (by rw [hpp]; rfl)
      rw [hm] at this
      cases this
  refine ⟨⟨_, bump_patch_eq v, ?_, ?_, rfl, rfl, rfl, rfl, rfl, rfl⟩, rfl⟩
  · show some (v.minor.getD 0) = some 0
    rw [hm]
    rfl
  · show some (v.patch.getD 0 + 1) = some 1
    rw [hp]
    rfl

theorem C7_patch_bump_from_bare_witness :
    (∃ v2, bump (Version.mk 0 1 none none [] [] [] []) "patch".data = .ok v2 ∧
      v2.minor = some 0 ∧ v2.patch = some 1 ∧
      v2.pre = [] ∧ v2.post = [] ∧ v2.dev = [] ∧ v2.localPart = [] ∧
      v2.epoch = (Version.mk 0 1 none none [] [] [] []).epoch ∧
      v2.major = (Version.mk 0 1 none none [] [] [] []).major) ∧
    Except.map render (Except.bind (parse "1".data) (fun u => bump u "patch".data)) =
      .ok "1.0.1".data :=
  C7_patch_bump_from_bare (s := "1".data) rfl rfl

/-! ## Claim C5 -/

/-- C5 (amended): `bump "local"` applies `(.*)(\d+)$` with Python's
regex semantics (`.` excludes newline; `$` also matches before one final
newline), and the greedy `(.*)` makes group 2 the LAST character only.
So: when the local value minus at most one trailing newline is
newline-free and ends in a digit `c`, exactly that one character is
replaced by the decimal rendering of `c + 1` and the trailing newline,
if any, is dropped (so "foo19" becomes "foo110", not "foo20", and
"a5\n" becomes "a6"); in every other case "1" is appended (empty local
becomes "1", "foo" becomes "foo1", "a\nb5" becomes "a\nb51").  All
other fields are unchanged. -/
theorem C5_local_bump_last_char (v : Version) :
    ∃ v2, bump v "local".data = .ok v2 ∧
      v2.epoch = v.epoch ∧ v2.major = v.major ∧ v2.minor = v.minor ∧
      v2.patch = v.patch ∧ v2.pre = v.pre ∧ v2.post = v.post ∧ v2.dev = v.dev ∧
      ((v.localPart = [] ∧ v2.localPart = ['1']) ∨
       (∃ init c, v.localPart = init ++ [c] ∧ isDigit c = true ∧ '\n' ∉ init ∧
          v2.localPart = init ++ natToChars (digitVal c + 1)) ∨
       (∃ init c, v.localPart = init ++ [c] ∧ c ≠ '\n' ∧
          (isDigit c = false ∨ '\n' ∈ init) ∧ v2.localPart = v.localPart ++ ['1']) ∨
       (∃ init d, v.localPart = (init ++ [d]) ++ ['\n'] ∧ isDigit d = true ∧
          '\n' ∉ init ∧ v2.localPart = init ++ natToChars (digitVal d + 1)) ∨
       (∃ init d, v.localPart = (init ++ [d]) ++ ['\n'] ∧
          (isDigit d = false ∨ '\n' ∈ init) ∧ v2.localPart = v.localPart ++ ['1']) ∨
       (v.localPart = ['\n'] ∧ v2.localPart = ['\n', '1'])) := by
  refine ⟨_, bump_local_eq v, rfl, rfl, rfl, rfl, rfl, rfl, rfl, ?_⟩
  by_cases hNL : v.localPart.getLast? = some '\n'
  · have hval : v.localPart.dropLast ++ ['\n'] = v.localPart := getLast?_decomp hNL
    cases hL2 : v.localPart.dropLast.getLast? with
    | none =>
      have hnil := getLast?_none hL2
      have hv : v.localPart = ['\n'] := by
        rw [← hval, hnil]
        rfl
      refine Or.inr (Or.inr (Or.inr (Or.inr (Or.inr ⟨hv, ?_⟩))))
      rw [hv]
      rfl
    | some d =>
      have hinit : v.localPart.dropLast.dropLast ++ [d] = v.localPart.dropLast :=
        getLast?_decomp hL2
      by_cases hm : isDigit d = true ∧ '\n' ∉ v.localPart.dropLast.dropLast
      · refine Or.inr (Or.inr (Or.inr (Or.inl
          ⟨v.localPart.dropLast.dropLast, d, ?_, hm.1, hm.2, ?_⟩)))
        · rw [hinit, hval]
        · simp only [bump_local, if_true]
          rw [if_pos hNL, hL2]
          dsimp only
          rw [if_pos hm]
      · refine Or.inr (Or.inr (Or.inr (Or.inr (Or.inl
          ⟨v.localPart.dropLast.dropLast, d, ?_, ?_, ?_⟩))))
        · rw [hinit, hval]
        · by_cases hd2 : isDigit d = true
          · refine Or.inr ?_
            by_cases hmem : '\n' ∈ v.localPart.dropLast.dropLast
            · exact hmem
            · exact absurd ⟨hd2, hmem⟩ hm
          · refine Or.inl ?_
            cases hdd : isDigit d
            · rfl
            · exact absurd hdd hd2
        · simp only [bump_local, if_true]
          rw [if_pos hNL, hL2]
          dsimp only
          rw [if_neg hm]
  · cases hL : v.localPart.getLast? with
    | none =>
      have hnil := getLast?_none hL
      refine Or.inl ⟨hnil, ?_⟩
      rw [hnil]
      rfl
    | some c =>
      have hcn : c ≠ '\n' := fun hcc => hNL (by rw [hL, hcc])
      have hinit := getLast?_decomp hL
      by_cases hm : isDigit c = true ∧ '\n' ∉ v.localPart.dropLast
      · refine Or.inr (Or.inl ⟨v.localPart.dropLast, c, hinit.symm, hm.1, hm.2, ?_⟩)
        simp only [bump_local, if_true]
        rw [if_neg hNL, hL]
        dsimp only
        rw [if_pos hm]
      · refine Or.inr (Or.inr (Or.inl ⟨v.localPart.dropLast, c, hinit.symm, hcn, ?_, ?_⟩))
        · by_cases hd2 : isDigit c = true
          · refine Or.inr ?_
            by_cases hmem : '\n' ∈ v.localPart.dropLast
            · exact hmem
            · exact absurd ⟨hd2, hmem⟩ hm
          · refine Or.inl ?_
            cases hdd : isDigit c
            · rfl
            · exact absurd hdd hd2
        · simp only [bump_local, if_true]
          rw [if_neg hNL, hL]
          dsimp only
          rw [if_neg hm]

/-- C5 (counterexample): the local segment "foo19" ends in the digit run
"19", so the claim predicts "foo20"; the code increments only the final
digit and produces "foo110". -/
theorem C5_counterexample :
    parse "1+foo19".data = .ok (Version.mk 0 1 none none [] [] [] "foo19".data) ∧
    bump (Version.mk 0 1 none none [] [] [] "foo19".data) "local".data =
      .ok (Version.mk 0 1 none none [] [] [] "foo110".data) ∧
    "foo110".data ≠ "foo20".data :=
  ⟨rfl, rfl, by decide⟩

/-! ## Claim C2 -/

/-- C2 (amended): bumping any of the four integer parts (`epoch`,
`major`, `minor`, `patch`) of a parsed version succeeds and yields a
version strictly greater in the sense of `__lt__`: `v < bump(v, p)`.
The program's `>` — synthesized by `functools.total_ordering` as
`not (self < other) and self != other` — does NOT follow in general,
because the bump's clearing/materializing of later fields can make the
result also `__lt__` the original (see the counterexample); but for
`epoch`, which changes nothing else, `bump(v, "epoch") > v` does hold. -/
theorem C2_int_bump_increases {s : List Char} {v : Version} {p : List Char}
    (h : parse s = .ok v) (hp : p ∈ INT_PARTS) :
    ∃ v2, bump v p = .ok v2 ∧ lt v v2 = true ∧
      (p = "epoch".data → gt v2 v = true) := by
  have hI := parse_Inv h
  simp only [INT_PARTS, List.mem_cons, List.not_mem_nil, or_false] at hp
  rcases hp with rfl | rfl | rfl | rfl
  · refine ⟨_, bump_epoch_eq v,
      lt_true_iff.mpr (Or.inl (show v.epoch < v.epoch + 1 by omega)), fun _ => ?_⟩
    have hw : Inv (⟨v.epoch + 1, v.major, v.minor, v.patch, v.pre, v.post, v.dev,
        v.localPart⟩ : Version) :=
      ⟨show (0 : Int) ≤ v.epoch + 1 from by have := hI.epoch_nonneg; omega,
        hI.major_nonneg, hI.minor_nonneg, hI.patch_nonneg, hI.patch_minor,
        hI.pre_shape, hI.post_shape, hI.dev_shape, hI.local_shape⟩
    have hlt2 : lt (⟨v.epoch + 1, v.major, v.minor, v.patch, v.pre, v.post, v.dev,
        v.localPart⟩ : Version) v = false :=
      lt_eq_false.mpr ⟨show ¬ v.epoch + 1 < v.epoch by omega,
        show ¬ v.major < v.major by omega, optIntLt_irrefl _, optIntLt_irrefl _,
        pyStrLt_irrefl _, pyStrLt_irrefl _, pyStrLt_irrefl _, pyStrLt_irrefl _⟩
    have hne : (⟨v.epoch + 1, v.major, v.minor, v.patch, v.pre, v.post, v.dev,
        v.localPart⟩ : Version) ≠ v := fun he => by
      have h2 : v.epoch + 1 = v.epoch := congrArg Version.epoch he
      omega
    have heqv := eqv_false_of_ne hw hI hne
    simp [gt, hlt2, heqv]
  · refine ⟨_, bump_major_eq v,
      lt_true_iff.mpr (Or.inr (Or.inl (show v.major < v.major + 1 by omega))),
      fun hq => absurd hq (by decide)⟩
  · refine ⟨_, bump_minor_eq v, lt_true_iff.mpr (Or.inr (Or.inr (Or.inl ?_))),
      fun hq => absurd hq (by decide)⟩
    show is_optional_value_less_than v.minor (some (v.minor.getD 0 + 1)) = true
    cases v.minor with
    | none => rfl
    | some m =>
      simp only [is_optional_value_less_than, Option.getD_some, decide_eq_true_iff]
      omega
  · refine ⟨_, bump_patch_eq v,
      lt_true_iff.mpr (Or.inr (Or.inr (Or.inr (Or.inl ?_)))),
      fun hq => absurd hq (by decide)⟩
    show is_optional_value_less_than v.patch (some (v.patch.getD 0 + 1)) = true
    cases v.patch with
    | none => rfl
    | some q =>
      simp only [is_optional_value_less_than, Option.getD_some, decide_eq_true_iff]
      omega

theorem C2_int_bump_increases_witness :
    ∃ v2, bump (Version.mk 0 1 none none [] [] [] []) "major".data = .ok v2 ∧
      lt (Version.mk 0 1 none none [] [] [] []) v2 = true ∧
      ("major".data = "epoch".data →
        gt v2 (Version.mk 0 1 none none [] [] [] []) = true) :=
  C2_int_bump_increases (s := "1".data) rfl (by decide)

/-- C2 (counterexample): two failures of `bump(v, p) > v`.  For the
integer part "major", `parse("1.2").bump("major")` gives 2.0, but the
derived `>` is false: 2.0 is itself `__lt__` 1.2 via the reset minor
(0 < 2), so `not (2.0 < 1.2)` fails (only the `<`-direction
`1.2 < 2.0` survives).  And for the part "a" (also in PARTS) the bump is
not even `<`-increasing: "1.2.3b1" bumps to the strictly SMALLER
"1.2.3a1". -/
theorem C2_counterexample :
    parse "1.2".data = .ok (Version.mk 0 1 (some 2) none [] [] [] []) ∧
    bump (Version.mk 0 1 (some 2) none [] [] [] []) "major".data =
      .ok (Version.mk 0 2 (some 0) none [] [] [] []) ∧
    gt (Version.mk 0 2 (some 0) none [] [] [] [])
       (Version.mk 0 1 (some 2) none [] [] [] []) = false ∧
    lt (Version.mk 0 2 (some 0) none [] [] [] [])
       (Version.mk 0 1 (some 2) none [] [] [] []) = true ∧
    lt (Version.mk 0 1 (some 2) none [] [] [] [])
       (Version.mk 0 2 (some 0) none [] [] [] []) = true ∧
    parse "1.2.3b1".data = .ok (Version.mk 0 1 (some 2) (some 3) "b1".data [] [] []) ∧
    bump (Version.mk 0 1 (some 2) (some 3) "b1".data [] [] []) "a".data =
      .ok (Version.mk 0 1 (some 2) (some 3) "a1".data [] [] []) ∧
    lt (Version.mk 0 1 (some 2) (some 3) "b1".data [] [] [])
       (Version.mk 0 1 (some 2) (some 3) "a1".data [] [] []) = false ∧
    lt (Version.mk 0 1 (some 2) (some 3) "a1".data [] [] [])
       (Version.mk 0 1 (some 2) (some 3) "b1".data [] [] []) = true :=
  ⟨rfl, rfl, rfl, rfl, rfl, rfl, rfl, rfl, rfl⟩

/-! ## Claim C4 -/

/-- C4 (amended): `set` dispatches an alias only AFTER the `part ∈ PARTS`
membership test, and `PARTS` contains only `a`, `b`, `rc` of the
pre-release aliases and only `post` of the post-release aliases.  So
`a`/`b`/`rc` store the pre-normalized alias+value concatenation into
`pre` (e.g. "rc"+"4" normalizes to "rc4"), `post` stores the
post-normalized value (e.g. "4" normalizes to ".post4"), and the
remaining aliases `c`, `alpha`, `beta`, `pre`, `preview`, `r`, `rev` are
silent no-ops that return the version unchanged. -/
theorem C4_set_aliases (v : Version) (value : List Char) :
    set v "a".data value false = .ok { v with pre := pre_normalize ("a".data ++ value) } ∧
    set v "b".data value false = .ok { v with pre := pre_normalize ("b".data ++ value) } ∧
    set v "rc".data value false = .ok { v with pre := pre_normalize ("rc".data ++ value) } ∧
    set v "post".data value false = .ok { v with post := post_normalize value } ∧
    set v "c".data value false = .ok v ∧
    set v "alpha".data value false = .ok v ∧
    set v "beta".data value false = .ok v ∧
    set v "pre".data value false = .ok v ∧
    set v "preview".data value false = .ok v ∧
    set v "r".data value false = .ok v ∧
    set v "rev".data value false = .ok v ∧
    pre_normalize ("rc".data ++ "4".data) = "rc4".data ∧
    post_normalize "4".data = ".post4".data :=
  ⟨rfl, rfl, rfl, rfl, rfl, rfl, rfl, rfl, rfl, rfl, rfl, rfl, rfl⟩

/-- C4 (counterexample): the pre-release alias "alpha" does NOT store
anything: `set` returns the version unchanged (its `pre` stays empty
instead of becoming the normalized "a1"), because "alpha" is not in
`PARTS` and the alias dispatch sits behind the membership guard. -/
theorem C4_counterexample :
    set (Version.mk 0 1 (some 2) none [] [] [] []) "alpha".data "1".data false =
      .ok (Version.mk 0 1 (some 2) none [] [] [] []) ∧
    pre_normalize ("alpha".data ++ "1".data) = "a1".data ∧
    (Version.mk 0 1 (some 2) none [] [] [] []).pre ≠ "a1".data :=
  ⟨rfl, rfl, by decide⟩

/-! ## Claim C1 -/

/-- C1 (amended): over parse-produced versions, at least one of `u < w`,
`u == w`, `w < u` always holds; and when `u` and `w` differ in at most
one of the eight fields, EXACTLY one of the three holds.  (Without that
restriction mutual `<` is possible — see the counterexample — because
`__lt__` ors the per-field tests together instead of short-circuiting on
the first strictly-greater field.) -/
theorem C1_order {s1 s2 : List Char} {u w : Version}
    (h1 : parse s1 = .ok u) (h2 : parse s2 = .ok w) :
    (lt u w || eqv u w || lt w u) = true ∧
    (almostEq u w →
      (lt u w = true ∧ eqv u w = false ∧ lt w u = false) ∨
      (lt u w = false ∧ eqv u w = true ∧ lt w u = false) ∨
      (lt u w = false ∧ eqv u w = false ∧ lt w u = true)) := by
  have hiu := parse_Inv h1
  have hiw := parse_Inv h2
  constructor
  · by_cases huw : u = w
    · rw [huw]
      simp [eqv_self]
    · have hfd : u.epoch ≠ w.epoch ∨ u.major ≠ w.major ∨ u.minor ≠ w.minor ∨
          u.patch ≠ w.patch ∨ u.pre ≠ w.pre ∨ u.post ≠ w.post ∨ u.dev ≠ w.dev ∨
          u.localPart ≠ w.localPart := by
        by_contra hc
        push_neg at hc
        obtain ⟨e1, e2, e3, e4, e5, e6, e7, e8⟩ := hc
        apply huw
        obtain ⟨ue, ua, ui, up, u5, u6, u7, u8⟩ := u
        obtain ⟨we, wa, wi, wp, w5, w6, w7, w8⟩ := w
        dsimp only at e1 e2 e3 e4 e5 e6 e7 e8
        rw [e1, e2, e3, e4, e5, e6, e7, e8]
      have hone : lt u w = true ∨ lt w u = true := by
        rcases hfd with hf | hf | hf | hf | hf | hf | hf | hf
        · rcases lt_or_gt_of_ne hf with hlt | hlt
          · exact Or.inl (lt_true_iff.mpr (Or.inl hlt))
          · exact Or.inr (lt_true_iff.mpr (Or.inl hlt))
        · rcases lt_or_gt_of_ne hf with hlt | hlt
          · exact Or.inl (lt_true_iff.mpr (Or.inr (Or.inl hlt)))
          · exact Or.inr (lt_true_iff.mpr (Or.inr (Or.inl hlt)))
        · rcases optIntLt_total hf with hlt | hlt
          · exact Or.inl (lt_true_iff.mpr (Or.inr (Or.inr (Or.inl hlt))))
          · exact Or.inr (lt_true_iff.mpr (Or.inr (Or.inr (Or.inl hlt))))
        · rcases optIntLt_total hf with hlt | hlt
          · exact Or.inl (lt_true_iff.mpr (Or.inr (Or.inr (Or.inr (Or.inl hlt)))))
          · exact Or.inr (lt_true_iff.mpr (Or.inr (Or.inr (Or.inr (Or.inl hlt)))))
        · rcases pyStrLt_total hf with hlt | hlt
          · exact Or.inl (lt_true_iff.mpr
              (Or.inr (Or.inr (Or.inr (Or.inr (Or.inl hlt))))))
          · exact Or.inr (lt_true_iff.mpr
              (Or.inr (Or.inr (Or.inr (Or.inr (Or.inl hlt))))))
        · rcases pyStrLt_total hf with hlt | hlt
          · exact Or.inl (lt_true_iff.mpr
              (Or.inr (Or.inr (Or.inr (Or.inr (Or.inr (Or.inl hlt)))))))
          · exact Or.inr (lt_true_iff.mpr
              (Or.inr (Or.inr (Or.inr (Or.inr (Or.inr (Or.inl hlt)))))))
        · rcases pyStrLt_total hf with hlt | hlt
          · exact Or.inl (lt_true_iff.mpr
              (Or.inr (Or.inr (Or.inr (Or.inr (Or.inr (Or.inr (Or.inl hlt))))))))
          · exact Or.inr (lt_true_iff.mpr
              (Or.inr (Or.inr (Or.inr (Or.inr (Or.inr (Or.inr (Or.inl hlt))))))))
        · rcases pyStrLt_total hf with hlt | hlt
          · exact Or.inl (lt_true_iff.mpr
              (Or.inr (Or.inr (Or.inr (Or.inr (Or.inr (Or.inr (Or.inr hlt))))))))
          · exact Or.inr (lt_true_iff.mpr
              (Or.inr (Or.inr (Or.inr (Or.inr (Or.inr (Or.inr (Or.inr hlt))))))))
      rcases hone with h9 | h9 <;> simp [h9]
  · intro halmost
    obtain ⟨ue, ua, ui, up, u5, u6, u7, u8⟩ := u
    obtain ⟨we, wa, wi, wp, w5, w6, w7, w8⟩ := w
    unfold almostEq at halmost
    dsimp only at halmost
    rcases halmost with ⟨rfl, rfl, rfl, rfl, rfl, rfl, rfl⟩ |
      ⟨rfl, rfl, rfl, rfl, rfl, rfl, rfl⟩ | ⟨rfl, rfl, rfl, rfl, rfl, rfl, rfl⟩ |
      ⟨rfl, rfl, rfl, rfl, rfl, rfl, rfl⟩ | ⟨rfl, rfl, rfl, rfl, rfl, rfl, rfl⟩ |
      ⟨rfl, rfl, rfl, rfl, rfl, rfl, rfl⟩ | ⟨rfl, rfl, rfl, rfl, rfl, rfl, rfl⟩ |
      ⟨rfl, rfl, rfl, rfl, rfl, rfl, rfl⟩
    · -- epoch is the (possibly) differing field
      rcases lt_trichotomy ue we with hlt | rfl | hlt
      · exact Or.inl ⟨lt_true_iff.mpr (Or.inl hlt),
          eqv_false_of_ne hiu hiw (fun he => by
            injection he with a1 a2 a3 a4 a5 a6 a7 a8; omega),
          lt_eq_false.mpr ⟨show ¬ we < ue by omega, show ¬ ua < ua by omega,
            optIntLt_irrefl _, optIntLt_irrefl _, pyStrLt_irrefl _, pyStrLt_irrefl _,
            pyStrLt_irrefl _, pyStrLt_irrefl _⟩⟩
      · exact Or.inr (Or.inl ⟨lt_self _, eqv_self _, lt_self _⟩)
      · exact Or.inr (Or.inr ⟨lt_eq_false.mpr ⟨show ¬ ue < we by omega,
          show ¬ ua < ua by omega, optIntLt_irrefl _, optIntLt_irrefl _,
          pyStrLt_irrefl _, pyStrLt_irrefl _, pyStrLt_irrefl _, pyStrLt_irrefl _⟩,
          eqv_false_of_ne hiu hiw (fun he => by
            injection he with a1 a2 a3 a4 a5 a6 a7 a8; omega),
          lt_true_iff.mpr (Or.inl hlt)⟩)
    · -- major
      rcases lt_trichotomy ua wa with hlt | rfl | hlt
      · exact Or.inl ⟨lt_true_iff.mpr (Or.inr (Or.inl hlt)),
          eqv_false_of_ne hiu hiw (fun he => by
            injection he with a1 a2 a3 a4 a5 a6 a7 a8; omega),
          lt_eq_false.mpr ⟨show ¬ ue < ue by omega, show ¬ wa < ua by omega,
            optIntLt_irrefl _, optIntLt_irrefl _, pyStrLt_irrefl _, pyStrLt_irrefl _,
            pyStrLt_irrefl _, pyStrLt_irrefl _⟩⟩
      · exact Or.inr (Or.inl ⟨lt_self _, eqv_self _, lt_self _⟩)
      · exact Or.inr (Or.inr ⟨lt_eq_false.mpr ⟨show ¬ ue < ue by omega,
          show ¬ ua < wa by omega, optIntLt_irrefl _, optIntLt_irrefl _,
          pyStrLt_irrefl _, pyStrLt_irrefl _, pyStrLt_irrefl _, pyStrLt_irrefl _⟩,
          eqv_false_of_ne hiu hiw (fun he => by
            injection he with a1 a2 a3 a4 a5 a6 a7 a8; omega),
          lt_true_iff.mpr (Or.inr (Or.inl hlt))⟩)
    · -- minor
      by_cases him : ui = wi
      · subst him
        exact Or.inr (Or.inl ⟨lt_self _, eqv_self _, lt_self _⟩)
      · rcases optIntLt_total him with hlt | hlt
        · exact Or.inl ⟨lt_true_iff.mpr (Or.inr (Or.inr (Or.inl hlt))),
            eqv_false_of_ne hiu hiw (fun he => by
              injection he with a1 a2 a3 a4 a5 a6 a7 a8; exact him a3),
            lt_eq_false.mpr ⟨show ¬ ue < ue by omega, show ¬ ua < ua by omega,
              optIntLt_asymm hlt, optIntLt_irrefl _, pyStrLt_irrefl _,
              pyStrLt_irrefl _, pyStrLt_irrefl _, pyStrLt_irrefl _⟩⟩
        · exact Or.inr (Or.inr ⟨lt_eq_false.mpr ⟨show ¬ ue < ue by omega,
            show ¬ ua < ua by omega, optIntLt_asymm hlt, optIntLt_irrefl _,
            pyStrLt_irrefl _, pyStrLt_irrefl _, pyStrLt_irrefl _, pyStrLt_irrefl _⟩,
            eqv_false_of_ne hiu hiw (fun he => by
              injection he with a1 a2 a3 a4 a5 a6 a7 a8; exact him a3),
            lt_true_iff.mpr (Or.inr (Or.inr (Or.inl hlt)))⟩)
    · -- patch
      by_cases him : up = wp
      · subst him
        exact Or.inr (Or.inl ⟨lt_self _, eqv_self _, lt_self _⟩)
      · rcases optIntLt_total him with hlt | hlt
        · exact Or.inl ⟨lt_true_iff.mpr (Or.inr (Or.inr (Or.inr (Or.inl hlt)))),
            eqv_false_of_ne hiu hiw (fun he => by
              injection he with a1 a2 a3 a4 a5 a6 a7 a8; exact him a4),
            lt_eq_false.mpr ⟨show ¬ ue < ue by omega, show ¬ ua < ua by omega,
              optIntLt_irrefl _, optIntLt_asymm hlt, pyStrLt_irrefl _,
              pyStrLt_irrefl _, pyStrLt_irrefl _, pyStrLt_irrefl _⟩⟩
        · exact Or.inr (Or.inr ⟨lt_eq_false.mpr ⟨show ¬ ue < ue by omega,
            show ¬ ua < ua by omega, optIntLt_irrefl _, optIntLt_asymm hlt,
            pyStrLt_irrefl _, pyStrLt_irrefl _, pyStrLt_irrefl _, pyStrLt_irrefl _⟩,
            eqv_false_of_ne hiu hiw (fun he => by
              injection he with a1 a2 a3 a4 a5 a6 a7 a8; exact him a4),
            lt_true_iff.mpr (Or.inr (Or.inr (Or.inr (Or.inl hlt))))⟩)
    · -- pre
      by_cases him : u5 = w5
      · subst him
        exact Or.inr (Or.inl ⟨lt_self _, eqv_self _, lt_self _⟩)
      · rcases pyStrLt_total him with hlt | hlt
        · exact Or.inl ⟨lt_true_iff.mpr
            (Or.inr (Or.inr (Or.inr (Or.inr (Or.inl hlt))))),
            eqv_false_of_ne hiu hiw (fun he => by
              injection he with a1 a2 a3 a4 a5 a6 a7 a8; exact him a5),
            lt_eq_false.mpr ⟨show ¬ ue < ue by omega, show ¬ ua < ua by omega,
              optIntLt_irrefl _, optIntLt_irrefl _, pyStrLt_asymm hlt,
              pyStrLt_irrefl _, pyStrLt_irrefl _, pyStrLt_irrefl _⟩⟩
        · exact Or.inr (Or.inr ⟨lt_eq_false.mpr ⟨show ¬ ue < ue by omega,
            show ¬ ua < ua by omega, optIntLt_irrefl _, optIntLt_irrefl _,
            pyStrLt_asymm hlt, pyStrLt_irrefl _, pyStrLt_irrefl _, pyStrLt_irrefl _⟩,
            eqv_false_of_ne hiu hiw (fun he => by
              injection he with a1 a2 a3 a4 a5 a6 a7 a8; exact him a5),
            lt_true_iff.mpr (Or.inr (Or.inr (Or.inr (Or.inr (Or.inl hlt)))))⟩)
    · -- post
      by_cases him : u6 = w6
      · subst him
        exact Or.inr (Or.inl ⟨lt_self _, eqv_self _, lt_self _⟩)
      · rcases pyStrLt_total him with hlt | hlt
        · exact Or.inl ⟨lt_true_iff.mpr
            (Or.inr (Or.inr (Or.inr (Or.inr (Or.inr (Or.inl hlt)))))),
            eqv_false_of_ne hiu hiw (fun he => by
              injection he with a1 a2 a3 a4 a5 a6 a7 a8; exact him a6),
            lt_eq_false.mpr ⟨show ¬ ue < ue by omega, show ¬ ua < ua by omega,
              optIntLt_irrefl _, optIntLt_irrefl _, pyStrLt_irrefl _,
              pyStrLt_asymm hlt, pyStrLt_irrefl _, pyStrLt_irrefl _⟩⟩
        · exact Or.inr (Or.inr ⟨lt_eq_false.mpr ⟨show ¬ ue < ue by omega,
            show ¬ ua < ua by omega, optIntLt_irrefl _, optIntLt_irrefl _,
            pyStrLt_irrefl _, pyStrLt_asymm hlt, pyStrLt_irrefl _, pyStrLt_irrefl _⟩,
            eqv_false_of_ne hiu hiw (fun he => by
              injection he with a1 a2 a3 a4 a5 a6 a7 a8; exact him a6),
            lt_true_iff.mpr
              (Or.inr (Or.inr (Or.inr (Or.inr (Or.inr (Or.inl hlt))))))⟩)
    · -- dev
      by_cases him : u7 = w7
      · subst him
        exact Or.inr (Or.inl ⟨lt_self _, eqv_self _, lt_self _⟩)
      · rcases pyStrLt_total him with hlt | hlt
        · exact Or.inl ⟨lt_true_iff.mpr
            (Or.inr (Or.inr (Or.inr (Or.inr (Or.inr (Or.inr (Or.inl hlt))))))),
            eqv_false_of_ne hiu hiw (fun he => by
              injection he with a1 a2 a3 a4 a5 a6 a7 a8; exact him a7),
            lt_eq_false.mpr ⟨show ¬ ue < ue by omega, show ¬ ua < ua by omega,
              optIntLt_irrefl _, optIntLt_irrefl _, pyStrLt_irrefl _,
              pyStrLt_irrefl _, pyStrLt_asymm hlt, pyStrLt_irrefl _⟩⟩
        · exact Or.inr (Or.inr ⟨lt_eq_false.mpr ⟨show ¬ ue < ue by omega,
            show ¬ ua < ua by omega, optIntLt_irrefl _, optIntLt_irrefl _,
            pyStrLt_irrefl _, pyStrLt_irrefl _, pyStrLt_asymm hlt, pyStrLt_irrefl _⟩,
            eqv_false_of_ne hiu hiw (fun he => by
              injection he with a1 a2 a3 a4 a5 a6 a7 a8; exact him a7),
            lt_true_iff.mpr
              (Or.inr (Or.inr (Or.inr (Or.inr (Or.inr (Or.inr (Or.inl hlt)))))))⟩)
    · -- local
      by_cases him : u8 = w8
      · subst him
        exact Or.inr (Or.inl ⟨lt_self _, eqv_self _, lt_self _⟩)
      · rcases pyStrLt_total him with hlt | hlt
        · exact Or.inl ⟨lt_true_iff.mpr
            (Or.inr (Or.inr (Or.inr (Or.inr (Or.inr (Or.inr (Or.inr hlt))))))),
            eqv_false_of_ne hiu hiw (fun he => by
              injection he with a1 a2 a3 a4 a5 a6 a7 a8; exact him a8),
            lt_eq_false.mpr ⟨show ¬ ue < ue by omega, show ¬ ua < ua by omega,
              optIntLt_irrefl _, optIntLt_irrefl _, pyStrLt_irrefl _,
              pyStrLt_irrefl _, pyStrLt_irrefl _, pyStrLt_asymm hlt⟩⟩
        · exact Or.inr (Or.inr ⟨lt_eq_false.mpr ⟨show ¬ ue < ue by omega,
            show ¬ ua < ua by omega, optIntLt_irrefl _, optIntLt_irrefl _,
            pyStrLt_irrefl _, pyStrLt_irrefl _, pyStrLt_irrefl _, pyStrLt_asymm hlt⟩,
            eqv_false_of_ne hiu hiw (fun he => by
              injection he with a1 a2 a3 a4 a5 a6 a7 a8; exact him a8),
            lt_true_iff.mpr
              (Or.inr (Or.inr (Or.inr (Or.inr (Or.inr (Or.inr (Or.inr hlt)))))))⟩)

theorem C1_order_witness :
    (lt (Version.mk 0 1 none none [] [] [] []) (Version.mk 0 2 none none [] [] [] []) ||
      eqv (Version.mk 0 1 none none [] [] [] []) (Version.mk 0 2 none none [] [] [] []) ||
      lt (Version.mk 0 2 none none [] [] [] []) (Version.mk 0 1 none none [] [] [] [])) =
        true ∧
    (almostEq (Version.mk 0 1 none none [] [] [] [])
        (Version.mk 0 2 none none [] [] [] []) →
      (lt (Version.mk 0 1 none none [] [] [] [])
          (Version.mk 0 2 none none [] [] [] []) = true ∧
        eqv (Version.mk 0 1 none none [] [] [] [])
          (Version.mk 0 2 none none [] [] [] []) = false ∧
        lt (Version.mk 0 2 none none [] [] [] [])
          (Version.mk 0 1 none none [] [] [] []) = false) ∨
      (lt (Version.mk 0 1 none none [] [] [] [])
          (Version.mk 0 2 none none [] [] [] []) = false ∧
        eqv (Version.mk 0 1 none none [] [] [] [])
          (Version.mk 0 2 none none [] [] [] []) = true ∧
        lt (Version.mk 0 2 none none [] [] [] [])
          (Version.mk 0 1 none none [] [] [] []) = false) ∨
      (lt (Version.mk 0 1 none none [] [] [] [])
          (Version.mk 0 2 none none [] [] [] []) = false ∧
        eqv (Version.mk 0 1 none none [] [] [] [])
          (Version.mk 0 2 none none [] [] [] []) = false ∧
        lt (Version.mk 0 2 none none [] [] [] [])
          (Version.mk 0 1 none none [] [] [] []) = true)) :=
  @C1_order "1".data "2".data _ _ rfl rfl

/-- C1 (counterexample): "2!1" and "1!2" both parse, and each is `__lt__`
the other: `2!1 < 1!2` via the major field (1 < 2) even though its epoch
is greater, and `1!2 < 2!1` via the epoch field (1 < 2).  So `<` on
parse-produced versions is not a strict order and the claimed
exactly-one trichotomy fails. -/
theorem C1_counterexample :
    parse "2!1".data = .ok (Version.mk 2 1 none none [] [] [] []) ∧
    parse "1!2".data = .ok (Version.mk 1 2 none none [] [] [] []) ∧
    lt (Version.mk 2 1 none none [] [] [] []) (Version.mk 1 2 none none [] [] [] []) =
      true ∧
    lt (Version.mk 1 2 none none [] [] [] []) (Version.mk 2 1 none none [] [] [] []) =
      true :=
  ⟨rfl, rfl, rfl, rfl⟩

/-! ## Claim C10 -/

theorem dropWhile_append_pos {p : Char → Bool} {A : List Char} (B : List Char)
    (h : A.dropWhile p ≠ []) : (A ++ B).dropWhile p = A.dropWhile p ++ B := by
  induction A with
  | nil => exact absurd rfl h
  | cons a as ih =>
    rw [List.dropWhile_cons] at h
    rw [List.cons_append, List.dropWhile_cons, List.dropWhile_cons]
    cases hpa : p a
    · simp
    · rw [hpa] at h
      simp only [if_true] at h ⊢
      exact ih h

theorem dropWhile_ne_nil_of_mem {p : Char → Bool} {c : Char} {A : List Char}
    (hm : c ∈ A) (hc : p c = false) : A.dropWhile p ≠ [] := by
  induction A with
  | nil => cases hm
  | cons a as ih =>
    rw [List.dropWhile_cons]
    cases hpa : p a
    · simp
    · rcases List.mem_cons.mp hm with rfl | hm2
      · rw [hpa] at hc; cases hc
      · simp only [if_true]
        exact ih hm2

theorem strip5_prepend_v {L : List Char} {c : Char} {cs' : List Char}
    (hl : L = c :: cs') (hc : isStrip5 c = false) (n : Nat) :
    pyStrip5 (List.replicate n 'v' ++ L) = List.replicate n 'v' ++ pyStrip5 L := by
  unfold pyStrip5
  have hdropL : L.dropWhile isStrip5 = L := by
    rw [hl]
    exact dropWhile_head_false hc
  have hdrop2 : (List.replicate n 'v' ++ L).dropWhile isStrip5 =
      List.replicate n 'v' ++ L := by
    cases n with
    | zero =>
      rw [List.replicate_zero, List.nil_append]
      exact hdropL
    | succ k =>
      rw [List.replicate_succ, List.cons_append]
      exact dropWhile_head_false rfl
  rw [hdrop2, hdropL]
  unfold rstripP
  rw [List.reverse_append, List.reverse_replicate]
  have hne : L.reverse.dropWhile isStrip5 ≠ [] := by
    apply dropWhile_ne_nil_of_mem (c := c)
    · rw [hl]
      exact List.mem_reverse.mpr (List.mem_cons_self _ _)
    · exact hc
  rw [dropWhile_append_pos _ hne, List.reverse_append, List.reverse_replicate]

/-- C10 (amended): when the lowercased input starts with a character the
`strip("\t\n\r\f\v")` phase would not remove, `lstrip("v")` removes EVERY
leading `v`: prepending any number of `v` characters does not change the
parse result.  (The restriction is necessary: strippable characters after
the prepended `v`s block the strip phase — see the counterexample.) -/
theorem C10_parse_prepend_v {s : List Char} {v : Version} {c : Char} {cs' : List Char}
    (h : parse s = .ok v) (hl : pyLower s = c :: cs') (hc : isStrip5 c = false)
    (n : Nat) :
    parse (List.replicate n 'v' ++ s) = .ok v := by
  have hlow : pyLower (List.replicate n 'v' ++ s) =
      List.replicate n 'v' ++ pyLower s := by
    unfold pyLower
    rw [List.map_append, List.map_replicate]
    rfl
  have hstrip := strip5_prepend_v (L := pyLower s) hl hc n
  have hnorm : lstripV (pyStrip5 (pyLower (List.replicate n 'v' ++ s))) =
      lstripV (pyStrip5 (pyLower s)) := by
    rw [hlow, hstrip]
    unfold lstripV
    apply dropWhile_append_all
    intro a ha
    have h2 := List.eq_of_mem_replicate ha
    rw [h2]
    rfl
  unfold parse at h ⊢
  rw [hnorm]
  exact h

theorem C10_parse_prepend_v_witness :
    parse (List.replicate 3 'v' ++ "1.2".data) =
      .ok (Version.mk 0 1 (some 2) none [] [] [] []) :=
  C10_parse_prepend_v (s := "1.2".data) rfl rfl rfl 3

/-- C10 (counterexample): "\tv\t1" parses (the tab is stripped, then the
inner `v` and tab are consumed by `lstrip("v")` and the regex `\s*`), but
prepending one `v` makes parsing fail: the leading `v` shields the tab
from `strip`, `lstrip("v")` then only removes that first `v`, and the
remaining "\tv\t1" does not match the grammar. -/
theorem C10_counterexample :
    parse "\tv\t1".data = .ok (Version.mk 0 1 none none [] [] [] []) ∧
    List.replicate 1 'v' ++ "\tv\t1".data = "v\tv\t1".data ∧
    parse "v\tv\t1".data = .error "Invalid version string: \tv\t1".data :=
  ⟨rfl, rfl, rfl⟩

/-! ## Claim C8 -/

theorem exceptBind_ok {ε α β : Type} {e : Except ε α} {f : α → Except ε β} {b : β}
    (h : e >>= f = .ok b) : ∃ a, e = .ok a ∧ f a = .ok b := by
  cases e with
  | error err =>
    rw [show (Except.error err >>= f : Except ε β) = Except.error err from rfl] at h
    cases h
  | ok a => exact ⟨a, rfl, h⟩

theorem bump_int_part_nonneg {p x : List Char} {e : Int} (h : 0 ≤ e) :
    0 ≤ bump_int_part p x e := by
  unfold bump_int_part
  split_ifs <;> omega

theorem optGetD_nonneg {o : Option Int} (h : ∀ m, o = some m → 0 ≤ m) :
    0 ≤ o.getD 0 := by
  cases o with
  | none => exact le_refl 0
  | some a => exact h a rfl

theorem bump_int_part_opt_nonneg {p x : List Char} {o : Option Int}
    (h : ∀ m, o = some m → 0 ≤ m) :
    ∀ m, bump_int_part_opt p x o = some m → 0 ≤ m := by
  intro m hm
  unfold bump_int_part_opt at hm
  split_ifs at hm
  · injection hm with hm2
    have h0 : 0 ≤ o.getD 0 := optGetD_nonneg h
    omega
  · exact h m hm

theorem clear_one_nonneg {v : Version} (h : NonNeg v) (p : List Char) :
    NonNeg (clear_one v p) := by
  obtain ⟨h1, h2, h3, h4⟩ := h
  unfold clear_one
  split_ifs
  · exact ⟨le_refl 0, h2, h3, h4⟩
  · refine ⟨h1, h2, ?_, h4⟩
    intro m hm
    rcases Option.map_eq_some'.mp hm with ⟨a, _, hb⟩
    exact hb.le
  · refine ⟨h1, h2, h3, ?_⟩
    intro m hm
    rcases Option.map_eq_some'.mp hm with ⟨a, _, hb⟩
    exact hb.le
  · exact ⟨h1, h2, h3, h4⟩
  · exact ⟨h1, h2, h3, h4⟩
  · exact ⟨h1, h2, h3, h4⟩
  · exact ⟨h1, h2, h3, h4⟩
  · exact ⟨h1, h2, h3, h4⟩
  · exact ⟨h1, h2, h3, h4⟩

theorem clear_parts_nonneg {ps : List (List Char)} : ∀ {v : Version}, NonNeg v →
    NonNeg (clear_parts v ps) := by
  induction ps with
  | nil => intro v h; exact h
  | cons p ps ih => intro v h; exact ih (clear_one_nonneg h p)

theorem setIntField_nonneg {v : Version} {p : List Char} {n : Int}
    (h : NonNeg v) (hn : 0 ≤ n) : NonNeg (setIntField v p n) := by
  obtain ⟨h1, h2, h3, h4⟩ := h
  unfold setIntField
  split_ifs
  · exact ⟨hn, h2, h3, h4⟩
  · exact ⟨h1, hn, h3, h4⟩
  · exact ⟨h1, h2, fun m hm => by injection hm with h5; omega, h4⟩
  · exact ⟨h1, h2, h3, fun m hm => by injection hm with h5; omega⟩

theorem bump_nonneg {v w : Version} {p : List Char} (hv : NonNeg v)
    (h : bump v p = .ok w) : NonNeg w := by
  unfold bump at h
  by_cases hmem : p ∈ PARTS
  · rw [if_neg (not_not_intro hmem)] at h
    obtain ⟨pre1, hb1, h⟩ := exceptBind_ok h
    obtain ⟨pre2, hb2, h⟩ := exceptBind_ok h
    obtain ⟨pre3, hb3, h⟩ := exceptBind_ok h
    obtain ⟨post1, hb4, h⟩ := exceptBind_ok h
    obtain ⟨dev1, hb5, h⟩ := exceptBind_ok h
    obtain ⟨h1, h2, h3, h4⟩ := hv
    have hminor := bump_int_part_opt_nonneg (p := p) (x := "minor".data) h3
    have hminor2 : ∀ m, (if p = "patch".data
        then some ((bump_int_part_opt p "minor".data v.minor).getD 0)
        else bump_int_part_opt p "minor".data v.minor) = some m → 0 ≤ m := by
      split_ifs
      · intro m hm
        injection hm with hm2
        have h0 := optGetD_nonneg hminor
        omega
      · exact hminor
    have hv' : NonNeg (⟨bump_int_part p "epoch".data v.epoch,
        bump_int_part p "major".data v.major,
        (if p = "patch".data
          then some ((bump_int_part_opt p "minor".data v.minor).getD 0)
          else bump_int_part_opt p "minor".data v.minor),
        bump_int_part_opt p "patch".data v.patch, pre3, post1, dev1,
        bump_local p v.localPart⟩ : Version) :=
      ⟨bump_int_part_nonneg h1, bump_int_part_nonneg h2, hminor2,
        bump_int_part_opt_nonneg h4⟩
    by_cases hq : p = "epoch".data
    · rw [if_pos hq] at h
      rw [← Except.ok.inj h]
      exact hv'
    · rw [if_neg hq] at h
      rw [← Except.ok.inj h]
      exact clear_parts_nonneg hv'
  · rw [if_pos hmem] at h
    cases h

theorem set_nonneg {v w : Version} {p value : List Char} {cr : Bool} (hv : NonNeg v)
    (hop : p ∈ INT_PARTS → ∀ n, pyInt value = some n → 0 ≤ n)
    (h : set v p value cr = .ok w) : NonNeg w := by
  unfold set at h
  by_cases hmem : p ∈ PARTS
  · rw [if_pos hmem] at h
    by_cases hc1 : p ∈ PRE_PARTS
    · rw [if_pos hc1] at h
      have hV : NonNeg { v with pre := pre_normalize (p ++ value) } := hv
      cases cr
      · rw [← Except.ok.inj h]
        exact hV
      · rw [← Except.ok.inj h]
        exact clear_parts_nonneg hV
    · rw [if_neg hc1] at h
      by_cases hc2 : p ∈ POST_PARTS
      · rw [if_pos hc2] at h
        have hV : NonNeg { v with post := post_normalize value } := hv
        cases cr
        · rw [← Except.ok.inj h]
          exact hV
        · rw [← Except.ok.inj h]
          exact clear_parts_nonneg hV
      · rw [if_neg hc2] at h
        by_cases hc3 : p = "local".data
        · rw [if_pos hc3] at h
          have hV : NonNeg { v with localPart := local_normalize value } := hv
          cases cr
          · rw [← Except.ok.inj h]
            exact hV
          · rw [← Except.ok.inj h]
            exact clear_parts_nonneg hV
        · rw [if_neg hc3] at h
          by_cases hc4 : p = "dev".data
          · rw [if_pos hc4] at h
            have hV : NonNeg { v with dev := dev_normalize value } := hv
            cases cr
            · rw [← Except.ok.inj h]
              exact hV
            · rw [← Except.ok.inj h]
              exact clear_parts_nonneg hV
          · rw [if_neg hc4] at h
            have hint : p ∈ INT_PARTS := by
              simp only [PARTS, List.mem_cons, List.not_mem_nil, or_false] at hmem
              rcases hmem with rfl | rfl | rfl | rfl | rfl | rfl | rfl | rfl | rfl | rfl
              · decide
              · decide
              · decide
              · decide
              · exact absurd (by decide) hc1
              · exact absurd (by decide) hc1
              · exact absurd (by decide) hc1
              · exact absurd (by decide) hc2
              · exact absurd rfl hc4
              · exact absurd rfl hc3
            cases hpy : pyInt value with
            | none =>
              rw [hpy] at h
              cases h
            | some n =>
              rw [hpy] at h
              have hV : NonNeg (setIntField v p n) :=
                setIntField_nonneg hv (hop hint n hpy)
              cases cr
              · rw [← Except.ok.inj h]
                exact hV
              · rw [← Except.ok.inj h]
                exact clear_parts_nonneg hV
  · rw [if_neg hmem] at h
    rw [← Except.ok.inj h]
    exact hv

theorem applyOps_nonneg_aux {ops : List Op} : ∀ {v w : Version}, NonNeg v →
    (∀ op ∈ ops, nonNegSetOp op) → applyOps v ops = .ok w → NonNeg w := by
  induction ops with
  | nil =>
    intro v w hv _ happ
    rw [← Except.ok.inj happ]
    exact hv
  | cons op ops ih =>
    intro v w hv hops happ
    obtain ⟨v1, h1, h2⟩ := exceptBind_ok
      (show applyOp v op >>= (fun v1 => applyOps v1 ops) = .ok w from happ)
    have hv1 : NonNeg v1 := by
      cases op with
      | bumpOp part => exact bump_nonneg hv h1
      | bumpReleaseOp =>
        rw [← Except.ok.inj h1]
        exact clear_parts_nonneg hv
      | setOp part value cr =>
        exact set_nonneg hv (hops _ (List.mem_cons_self _ _)) h1
    exact ih hv1 (fun o ho => hops o (List.mem_cons_of_mem _ ho)) h2

/-- C8 (amended): every version reached from a parse by a sequence of
`bump`, `bump_release` and `set` calls that return without raising has
non-negative `epoch` and `major` and absent-or-non-negative `minor` and
`patch`, PROVIDED every `set` of an integer part in the sequence passes a
value string denoting a non-negative integer.  (The proviso is necessary:
`set` stores `int(value)` unchecked, so a negative value string breaks
the invariant without raising — see the counterexample.) -/
theorem C8_reachable_nonneg {s : List Char} {v w : Version} {ops : List Op}
    (h : parse s = .ok v) (hops : ∀ op ∈ ops, nonNegSetOp op)
    (happ : applyOps v ops = .ok w) : NonNeg w := by
  have hi := parse_Inv h
  exact applyOps_nonneg_aux
    ⟨hi.epoch_nonneg, hi.major_nonneg, hi.minor_nonneg, hi.patch_nonneg⟩ hops happ

theorem C8_reachable_nonneg_witness :
    NonNeg (Version.mk 0 2 none none [] [] [] []) :=
  @C8_reachable_nonneg "1".data _ _ [Op.bumpOp "major".data] rfl
    (by
      intro op hop
      rw [List.mem_singleton] at hop
      subst hop
      exact True.intro)
    rfl

/-- C8 (counterexample): `set("major", "-1")` does not raise — Python's
`int("-1")` succeeds — and drives `major` negative, so the claimed
invariant fails for arbitrary non-raising argument strings. -/
theorem C8_counterexample :
    parse "1".data = .ok (Version.mk 0 1 none none [] [] [] []) ∧
    applyOps (Version.mk 0 1 none none [] [] [] [])
        [Op.setOp "major".data "-1".data false] =
      .ok (Version.mk 0 (-1) none none [] [] [] []) ∧
    pyInt "-1".data = some (-1) ∧
    ¬ (0 ≤ (Version.mk 0 (-1) none none [] [] [] []).major) :=
  ⟨rfl, rfl, rfl, by decide⟩

end VB
